import Mathlib

/-!
Verification of the Lua 5.1 chunk constant-string tools (`script/extract.py`
and `script/import.py`).

The two Python scripts walk a Lua 5.1 precompiled chunk: `extract.py` lists
every string constant together with a 5-digit index, and `import.py` rewrites
selected string constants according to a text mapping while copying every
other byte verbatim.

Modelling conventions:
* A byte buffer is a `List Nat`; buffer well-formedness (`every element
  < 256`) is an explicit hypothesis `HB` where a theorem needs it.
* Python exceptions become `Except PErr`; `struct.unpack_from` out of range,
  `memoryview` indexing out of range, unsupported widths, unknown constant
  tags and strict-encode failures each get their own error.
* The unbounded recursion of `process_proto` over nested prototypes becomes
  structural recursion on an explicit `fuel` argument (an embedding artifact;
  exhaustion is the distinguished error `PErr.fuel`).
* Python's mutable `out` buffer / `counter` list become explicit state: every
  walker returns the bytes (or records) it appends together with the new
  cursor position and counter value.
* Text codecs (`shift_jis`, …) are external to the repository; they are
  modelled as parameters: a total decode `dec : List Nat → String`
  (the scripts always fall back to `errors="replace"`, hence total) and a
  strict encode `enc : String → Except PErr (List Nat)` which may fail.
-/

/-- Byte order, from the chunk header's endianness flag
(`"<"` vs `">"` struct prefixes in the source). -/
inductive Endian where
  | little
  | big
deriving DecidableEq

/-- Errors of the embedded scripts.  `range` covers Python `struct.error` /
`IndexError` on out-of-range access, `width` the explicit
`unsupported int size` / `unsupported size_t size` `ValueError`s, `tag` the
`unknown constant type` `ValueError`, `header` the two header `ValueError`s,
`encode` a strict-encoding `UnicodeEncodeError`, `negCount` a negative
byte-count slide (see `Imp.process_proto`), and `fuel` exhaustion of the
recursion bound of the embedding. -/
inductive PErr where
  | range
  | width
  | tag
  | header
  | encode
  | negCount
  | fuel
deriving DecidableEq

/-- Python slice `data[pos : pos + n]` for `pos, n ≥ 0`: clamps at the end of
the buffer, never fails. -/
def pySlice (data : List Nat) (pos n : Nat) : List Nat :=
  (data.drop pos).take n

/-- Python slice `data[i : j]` for `i, j ≥ 0` (clamping). -/
def sliceFT (data : List Nat) (i j : Nat) : List Nat :=
  (data.drop i).take (j - i)

/-- Python `data[pos]` on a `memoryview`: `IndexError` when out of range. -/
def pyIndex (data : List Nat) (pos : Nat) : Except PErr Nat :=
  match data.get? pos with
  | some b => .ok b
  | none => .error .range

/-- Little-endian byte list (length `k`) of `u % 256^k`. -/
def leBytes : Nat → Nat → List Nat
  | 0, _ => []
  | k + 1, u => u % 256 :: leBytes k (u / 256)

/-- Value of a little-endian byte list. -/
def leVal : List Nat → Nat
  | [] => 0
  | b :: bs => b + 256 * leVal bs

/-- Put a little-endian byte list into wire order (identity for little
endian, reversal for big endian), and conversely. -/
def orient (e : Endian) (bs : List Nat) : List Nat :=
  match e with
  | .little => bs
  | .big => bs.reverse

/-- `read_int` (identical in `extract.py` lines 26–33 and `import.py` lines
24–31): signed integer of width 4 (`"i"`) or 8 (`"q"`) via
`struct.unpack_from`, any other width raises `unsupported int size`;
reading past the end of the buffer raises `struct.error`. -/
def read_int (data : List Nat) (e : Endian) (size pos : Nat) :
    Except PErr (Int × Nat) :=
  if size = 4 ∨ size = 8 then
    if pos + size ≤ data.length then
      let u := leVal (orient e (pySlice data pos size))
      let v : Int := if u < 2 ^ (8 * size - 1) then (u : Int) else (u : Int) - 2 ^ (8 * size)
      .ok (v, pos + size)
    else .error .range
  else .error .width

/-- `write_int` (`import.py` lines 34–41): `struct.pack` of a signed value,
width 4 or 8; out-of-range values raise `struct.error`.  The source extends
a mutable buffer; the model returns the bytes to append. -/
def write_int (e : Endian) (size : Nat) (val : Int) : Except PErr (List Nat) :=
  if size = 4 ∨ size = 8 then
    if -(2 : Int) ^ (8 * size - 1) ≤ val ∧ val < 2 ^ (8 * size - 1) then
      .ok (orient e (leBytes size (val % (2 : Int) ^ (8 * size)).toNat))
    else .error .range
  else .error .width

/-- `read_size_t` (identical in both scripts): unsigned (`"I"`/`"Q"`) of
width 4 or 8. -/
def read_size_t (data : List Nat) (e : Endian) (size pos : Nat) :
    Except PErr (Nat × Nat) :=
  if size = 4 ∨ size = 8 then
    if pos + size ≤ data.length then
      .ok (leVal (orient e (pySlice data pos size)), pos + size)
    else .error .range
  else .error .width

/-- `write_size_t` (`import.py` lines 54–61): unsigned pack, width 4 or 8. -/
def write_size_t (e : Endian) (size val : Nat) : Except PErr (List Nat) :=
  if size = 4 ∨ size = 8 then
    if val < 2 ^ (8 * size) then
      .ok (orient e (leBytes size val))
    else .error .range
  else .error .width

/-- `read_lstring` (`import.py` lines 64–70): a stored length `n`, then `n`
payload bytes of which the last (the terminator) is dropped; `n = 0` denotes
an absent string.  `extract.py` lines 46–53 is the same function with two
extra returned components (`raw_pos`, `raw_len`) that its caller ignores.
Python's `data[pos : pos + n]` clamps, hence so does the model. -/
def read_lstring (data : List Nat) (e : Endian) (ssz pos : Nat) :
    Except PErr (Option (List Nat) × Nat) := do
  let (n, pos) ← read_size_t data e ssz pos
  if n = 0 then
    .ok (none, pos)
  else
    .ok (some (pySlice data pos n).dropLast, pos + n)

/-- `write_lstring` (`import.py` lines 73–79): absent ⇒ stored length 0
only; present ⇒ stored length `len + 1`, the payload, then one `0` byte. -/
def write_lstring (e : Endian) (ssz : Nat) (s : Option (List Nat)) :
    Except PErr (List Nat) :=
  match s with
  | none => write_size_t e ssz 0
  | some s => do
    let pre ← write_size_t e ssz (s.length + 1)
    .ok (pre ++ s ++ [0])

/-- `read_header` (identical in both scripts, lines 14–23 / 16–23): checks
the `b"\x1bLua"` signature (on a clamped 4-byte slice, like Python), then the
12-byte minimum length, and returns the endianness and the four declared
widths from bytes 6–10 of the header. -/
def read_header (data : List Nat) :
    Except PErr (Endian × Nat × Nat × Nat × Nat) :=
  if pySlice data 0 4 = [27, 76, 117, 97] then
    if 12 ≤ data.length then
      .ok (if data.getD 6 0 = 1 then .little else .big,
           data.getD 7 0, data.getD 8 0, data.getD 9 0, data.getD 10 0)
    else .error .header
  else .error .header

/-- A parsed chunk context: the immutable byte buffer plus the header
fields that govern every subsequent field width. -/
structure Chk where
  data : List Nat
  endian : Endian
  int_size : Nat
  size_t_size : Nat
  instr_size : Nat
  number_size : Nat

/-- `str.replace(pat, repl)` for a nonempty pattern: one left-to-right
non-overlapping pass.  Structural recursion on a character budget (one
character is consumed per step, so `s.length` suffices). -/
def replaceSubAux (pat repl : List Char) : Nat → List Char → List Char
  | 0, s => s
  | _ + 1, [] => []
  | f + 1, c :: rest =>
    if pat ≠ [] ∧ pat.isPrefixOf (c :: rest) then
      repl ++ replaceSubAux pat repl f ((c :: rest).drop pat.length)
    else
      c :: replaceSubAux pat repl f rest

/-- `s.replace(pat, repl)` (nonempty `pat`; the scripts only use `"\r"`,
`"\n"`, `"\\r"`, `"\\n"`). -/
def replaceSub (pat repl s : List Char) : List Char :=
  replaceSubAux pat repl s.length s

/-- `text.replace("\r", "\\r").replace("\n", "\\n")` — the display form of
a decoded constant (`extract.py` line 95, `import.py` line 91). -/
def escapeDisp (s : String) : String :=
  String.mk (replaceSub ['\n'] ['\\', 'n'] (replaceSub ['\r'] ['\\', 'r'] s.data))

/-- `new.replace("\\r", "\r").replace("\\n", "\n")` (`import.py` line 94). -/
def unescapeDisp (s : String) : String :=
  String.mk (replaceSub ['\\', 'n'] ['\n'] (replaceSub ['\\', 'r'] ['\r'] s.data))

/-- Python `f"{i:05d}"`: decimal, zero-padded to 5 characters (a sign counts
toward the width). -/
def fmt05 (i : Int) : String :=
  let mag := toString i.natAbs
  let width := if i < 0 then 4 else 5
  let padded := String.mk (List.replicate (width - mag.length) '0' ++ mag.data)
  (if i < 0 then "-" else "") ++ padded

/-- Lookup in the model of a Python `dict` built by repeated
`mapping[idx] = txt` assignments, kept as the assignment list in order:
a later assignment to the same key wins. -/
def dictGet : List (Int × String) → Int → Option String
  | [], _ => none
  | (k, v) :: rest, i =>
    match dictGet rest i with
    | some w => some w
    | none => if k = i then some v else none

/-- Equality of `Except` results is decidable (used to evaluate the embedded
scripts on concrete inputs). -/
instance {ε α : Type} [DecidableEq ε] [DecidableEq α] : DecidableEq (Except ε α)
  | .ok a, .ok b =>
    if h : a = b then .isTrue (by rw [h]) else .isFalse (by intro c; cases c; exact h rfl)
  | .ok _, .error _ => .isFalse (by intro c; cases c)
  | .error _, .ok _ => .isFalse (by intro c; cases c)
  | .error e, .error f =>
    if h : e = f then .isTrue (by rw [h]) else .isFalse (by intro c; cases c; exact h rfl)

/-- A count read from the file that is used as a byte distance
(`sizecode * instr_size`, `sizelineinfo * int_size`).  The model rejects a
negative count: CPython would slide the cursor backwards through negative
slice arithmetic there, which no recognizable chunk and no statement below
exercises.  Loop counts (`range(n)`) are taken through `Int.toNat`, which
matches Python exactly (`range` of a negative is empty). -/
def guardCount (i : Int) : Except PErr Nat :=
  if i < 0 then .error .negCount else .ok i.toNat

namespace Ext

/-- Constant-table loop of `extract.py process_proto` (lines 75–99): tag 0
has no payload, tag 1 one byte, tag 3 `number_size` bytes, tag 4 a
length-prefixed string; a present string bumps the counter and appends the
`○`/`●` record pair; any other tag raises `unknown constant type`. -/
def constLoop (c : Chk) (dec : List Nat → String) :
    Nat → Nat → Int → Except PErr (Nat × List String × Int)
  | 0, pos, cnt => .ok (pos, [], cnt)
  | k + 1, pos, cnt => do
    let t ← pyIndex c.data pos
    let pos := pos + 1
    if t = 0 then
      constLoop c dec k pos cnt
    else if t = 1 then
      constLoop c dec k (pos + 1) cnt
    else if t = 3 then
      constLoop c dec k (pos + c.number_size) cnt
    else if t = 4 then do
      let (s, pos) ← read_lstring c.data c.endian c.size_t_size pos
      match s with
      | some raw =>
        let cnt := cnt + 1
        let disp := escapeDisp (dec raw)
        let (p, o, cn) ← constLoop c dec k pos cnt
        .ok (p, ("○" ++ fmt05 cnt ++ "○ " ++ disp) ::
                ("●" ++ fmt05 cnt ++ "● " ++ disp) :: o, cn)
      | none => constLoop c dec k pos cnt
    else .error .tag

/-- Local-variable loop of `extract.py process_proto` (lines 108–110): a
string then an unchecked skip of two ints. -/
def locvarLoop (c : Chk) : Nat → Nat → Except PErr Nat
  | 0, pos => .ok pos
  | k + 1, pos => do
    let (_, pos) ← read_lstring c.data c.endian c.size_t_size pos
    locvarLoop c k (pos + c.int_size * 2)

/-- Upvalue-name loop of `extract.py process_proto` (lines 112–113). -/
def upvalLoop (c : Chk) : Nat → Nat → Except PErr Nat
  | 0, pos => .ok pos
  | k + 1, pos => do
    let (_, pos) ← read_lstring c.data c.endian c.size_t_size pos
    upvalLoop c k pos

/-- Child-prototype loop of `extract.py process_proto` (lines 101–104),
abstracted over the recursive call (which is passed one fuel level down). -/
def childLoop (step : Nat → Int → Except PErr (Nat × List String × Int)) :
    Nat → Nat → Int → Except PErr (Nat × List String × Int)
  | 0, pos, cnt => .ok (pos, [], cnt)
  | n + 1, pos, cnt => do
    let (pos, o1, cnt) ← step pos cnt
    let (pos, o2, cnt) ← childLoop step n pos cnt
    .ok (pos, o1 ++ o2, cnt)

/-- `extract.py process_proto` (lines 56–114): one prototype in traversal
order — source name, two line markers, 4 flag bytes, instructions, constant
table, children, line info, local variables, upvalue names.  Returns the new
cursor, the appended records and the new counter. -/
def process_proto (c : Chk) (dec : List Nat → String) :
    Nat → Nat → Int → Except PErr (Nat × List String × Int)
  | 0, _, _ => .error .fuel
  | fuel + 1, pos, cnt => do
    let (_, pos) ← read_lstring c.data c.endian c.size_t_size pos
    let (_, pos) ← read_int c.data c.endian c.int_size pos
    let (_, pos) ← read_int c.data c.endian c.int_size pos
    let pos := pos + 4
    let (sizecode, pos) ← read_int c.data c.endian c.int_size pos
    let ncode ← guardCount sizecode
    let pos := pos + ncode * c.instr_size
    let (sizek, pos) ← read_int c.data c.endian c.int_size pos
    let (pos, o1, cnt) ← constLoop c dec sizek.toNat pos cnt
    let (sizep, pos) ← read_int c.data c.endian c.int_size pos
    let (pos, o2, cnt) ← childLoop (process_proto c dec fuel) sizep.toNat pos cnt
    let (sizelineinfo, pos) ← read_int c.data c.endian c.int_size pos
    let nli ← guardCount sizelineinfo
    let pos := pos + nli * c.int_size
    let (sizelocvars, pos) ← read_int c.data c.endian c.int_size pos
    let pos ← locvarLoop c sizelocvars.toNat pos
    let (sizeupvalues, pos) ← read_int c.data c.endian c.int_size pos
    let pos ← upvalLoop c sizeupvalues.toNat pos
    .ok (pos, o1 ++ o2, cnt)

/-- The single-file path of `extract.py main` (lines 125–141): parse the
header, then walk one top-level prototype from offset 12 with the counter
seeded at `-1`; the result is the `strings` record list. -/
def extract_file (data : List Nat) (dec : List Nat → String) (fuel : Nat) :
    Except PErr (List String) := do
  let (e, isz, ssz, insz, nsz) ← read_header data
  let (_, recs, _) ← process_proto ⟨data, e, isz, ssz, insz, nsz⟩ dec fuel 12 (-1)
  .ok recs

end Ext

/-- `import.py patch_const_string` (lines 82–95): look the index up in the
mapping; on a miss keep the raw bytes; when the replacement equals the
current display form keep the raw bytes; otherwise un-escape and
strictly encode the replacement. -/
def patch_const_string (raw : List Nat) (idx : Int) (mapping : List (Int × String))
    (dec : List Nat → String) (enc : String → Except PErr (List Nat)) :
    Except PErr (List Nat) :=
  match dictGet mapping idx with
  | none => .ok raw
  | some new =>
    if new = escapeDisp (dec raw) then .ok raw
    else enc (unescapeDisp new)

namespace Imp

/-- Constant-table loop of `import.py process_proto` (lines 130–151): the
tag byte and every payload are copied to the output; a present tag-4 string
bumps the counter, goes through `patch_const_string` and is re-emitted with
`write_lstring`; any other tag raises `unknown constant type`. -/
def constLoop (c : Chk) (mapping : List (Int × String)) (dec : List Nat → String)
    (enc : String → Except PErr (List Nat)) :
    Nat → Nat → Int → Except PErr (Nat × List Nat × Int)
  | 0, pos, cnt => .ok (pos, [], cnt)
  | k + 1, pos, cnt => do
    let t ← pyIndex c.data pos
    let pos := pos + 1
    if t = 0 then do
      let (p, o, cn) ← constLoop c mapping dec enc k pos cnt
      .ok (p, t :: o, cn)
    else if t = 1 then do
      let (p, o, cn) ← constLoop c mapping dec enc k (pos + 1) cnt
      .ok (p, t :: (pySlice c.data pos 1 ++ o), cn)
    else if t = 3 then do
      let (p, o, cn) ← constLoop c mapping dec enc k (pos + c.number_size) cnt
      .ok (p, t :: (pySlice c.data pos c.number_size ++ o), cn)
    else if t = 4 then do
      let (s, pos) ← read_lstring c.data c.endian c.size_t_size pos
      match s with
      | some raw => do
        let cnt := cnt + 1
        let s2 ← patch_const_string raw cnt mapping dec enc
        let w ← write_lstring c.endian c.size_t_size (some s2)
        let (p, o, cn) ← constLoop c mapping dec enc k pos cnt
        .ok (p, t :: (w ++ o), cn)
      | none => do
        let w ← write_lstring c.endian c.size_t_size none
        let (p, o, cn) ← constLoop c mapping dec enc k pos cnt
        .ok (p, t :: (w ++ o), cn)
    else .error .tag

/-- Local-variable loop of `import.py process_proto` (lines 178–184): a
string and two ints, each re-emitted. -/
def locvarLoop (c : Chk) : Nat → Nat → Except PErr (Nat × List Nat)
  | 0, pos => .ok (pos, [])
  | k + 1, pos => do
    let (s, pos) ← read_lstring c.data c.endian c.size_t_size pos
    let w ← write_lstring c.endian c.size_t_size s
    let (a, pos) ← read_int c.data c.endian c.int_size pos
    let (b, pos) ← read_int c.data c.endian c.int_size pos
    let wa ← write_int c.endian c.int_size a
    let wb ← write_int c.endian c.int_size b
    let (p, o) ← locvarLoop c k pos
    .ok (p, w ++ wa ++ wb ++ o)

/-- Upvalue-name loop of `import.py process_proto` (lines 188–190). -/
def upvalLoop (c : Chk) : Nat → Nat → Except PErr (Nat × List Nat)
  | 0, pos => .ok (pos, [])
  | k + 1, pos => do
    let (s, pos) ← read_lstring c.data c.endian c.size_t_size pos
    let w ← write_lstring c.endian c.size_t_size s
    let (p, o) ← upvalLoop c k pos
    .ok (p, w ++ o)

/-- Child-prototype loop of `import.py process_proto` (lines 155–169),
abstracted over the recursive call. -/
def childLoop (step : Nat → Int → Except PErr (Nat × List Nat × Int)) :
    Nat → Nat → Int → Except PErr (Nat × List Nat × Int)
  | 0, pos, cnt => .ok (pos, [], cnt)
  | n + 1, pos, cnt => do
    let (pos, o1, cnt) ← step pos cnt
    let (pos, o2, cnt) ← childLoop step n pos cnt
    .ok (pos, o1 ++ o2, cnt)

/-- `import.py process_proto` (lines 98–191): same traversal as
`Ext.process_proto`, re-emitting every field — name and debug strings via
`write_lstring`, ints via `write_int`, flag/instruction/line-info blocks as
verbatim slices — and patching present string constants. -/
def process_proto (c : Chk) (mapping : List (Int × String)) (dec : List Nat → String)
    (enc : String → Except PErr (List Nat)) :
    Nat → Nat → Int → Except PErr (Nat × List Nat × Int)
  | 0, _, _ => .error .fuel
  | fuel + 1, pos, cnt => do
    let (name, pos) ← read_lstring c.data c.endian c.size_t_size pos
    let wname ← write_lstring c.endian c.size_t_size name
    let (a, pos) ← read_int c.data c.endian c.int_size pos
    let (b, pos) ← read_int c.data c.endian c.int_size pos
    let wa ← write_int c.endian c.int_size a
    let wb ← write_int c.endian c.int_size b
    let flags := pySlice c.data pos 4
    let pos := pos + 4
    let (sizecode, pos) ← read_int c.data c.endian c.int_size pos
    let wsc ← write_int c.endian c.int_size sizecode
    let ncode ← guardCount sizecode
    let code := pySlice c.data pos (ncode * c.instr_size)
    let pos := pos + ncode * c.instr_size
    let (sizek, pos) ← read_int c.data c.endian c.int_size pos
    let wsk ← write_int c.endian c.int_size sizek
    let (pos, oK, cnt) ← constLoop c mapping dec enc sizek.toNat pos cnt
    let (sizep, pos) ← read_int c.data c.endian c.int_size pos
    let wsp ← write_int c.endian c.int_size sizep
    let (pos, oP, cnt) ← childLoop (process_proto c mapping dec enc fuel) sizep.toNat pos cnt
    let (sizelineinfo, pos) ← read_int c.data c.endian c.int_size pos
    let wsli ← write_int c.endian c.int_size sizelineinfo
    let nli ← guardCount sizelineinfo
    let li := pySlice c.data pos (nli * c.int_size)
    let pos := pos + nli * c.int_size
    let (sizelocvars, pos) ← read_int c.data c.endian c.int_size pos
    let wslv ← write_int c.endian c.int_size sizelocvars
    let (pos, oLV) ← locvarLoop c sizelocvars.toNat pos
    let (sizeupvalues, pos) ← read_int c.data c.endian c.int_size pos
    let wsup ← write_int c.endian c.int_size sizeupvalues
    let (pos, oUp) ← upvalLoop c sizeupvalues.toNat pos
    .ok (pos, wname ++ wa ++ wb ++ flags ++ wsc ++ code ++ wsk ++ oK ++
              wsp ++ oP ++ wsli ++ li ++ wslv ++ oLV ++ wsup ++ oUp, cnt)

/-- `import.py patch_file` (lines 194–231): an empty mapping short-circuits
to a verbatim copy; otherwise parse the header, emit the 12 header bytes and
walk the prototype tree (counter seeded at `-1`).  `none` models "no output
file written" — both the caught `UnicodeEncodeError` (lines 221–229) and any
other exception propagating to the caller leave the output unwritten. -/
def patch_file (data : List Nat) (mapping : List (Int × String))
    (dec : List Nat → String) (enc : String → Except PErr (List Nat))
    (fuel : Nat) : Option (List Nat) :=
  if mapping = [] then some data
  else
    match read_header data with
    | .error _ => none
    | .ok (e, isz, ssz, insz, nsz) =>
      match process_proto ⟨data, e, isz, ssz, insz, nsz⟩ mapping dec enc fuel 12 (-1) with
      | .ok (_, delta, _) => some (pySlice data 0 12 ++ delta)
      | .error _ => none

end Imp

/-- The line boundary characters of Python `str.splitlines`: `\n`, `\r`
(with `\r\n` as one boundary), `\v`, `\f`, the separators `\x1c`–`\x1e`,
`\x85`, `\u2028` and `\u2029`. -/
def isLineBreak (ch : Char) : Bool :=
  ch = '\n' ∨ ch = '\r' ∨ ch = '\x0b' ∨ ch = '\x0c' ∨ ch = '\x1c' ∨
  ch = '\x1d' ∨ ch = '\x1e' ∨ ch = '\x85' ∨ ch = '\u2028' ∨ ch = '\u2029'

/-- Python `str.splitlines`: split at every `isLineBreak` character, with
`\r\n` consumed as a single boundary.  Structural recursion on a character
budget (every produced line consumes at least one character). -/
def pySplitlinesAux : Nat → List Char → List (List Char)
  | 0, _ => []
  | _ + 1, [] => []
  | f + 1, c :: cs =>
    let line := (c :: cs).takeWhile (fun ch => !(isLineBreak ch))
    match (c :: cs).drop line.length with
    | [] => [line]
    | b :: r =>
      line :: pySplitlinesAux f (if b = '\r' ∧ r.head? = some '\n' then r.tail else r)

/-- Python `text.splitlines()`. -/
def pySplitlines (s : List Char) : List (List Char) :=
  pySplitlinesAux s.length s

/-- Whitespace stripped by Python `int(str)` (the ASCII part). -/
def pyWs (ch : Char) : Bool :=
  ch = ' ' ∨ ch = '\t' ∨ ch = '\n' ∨ ch = '\r' ∨ ch = '\x0b' ∨ ch = '\x0c'

/-- Value of a nonempty all-ASCII-digit string. -/
def pyDigits (ds : List Char) : Option Nat :=
  if ds ≠ [] ∧ ds.all Char.isDigit then
    some (List.foldl (fun a ch => a * 10 + (ch.toNat - 48)) 0 ds)
  else none

/-- Python `int(head)` as `load_mapping` uses it: optional surrounding
whitespace, an optional sign, then one or more ASCII digits; anything else
raises `ValueError` (modelled as `none`).  Python's underscore digit
separators and non-ASCII digits are not modelled. -/
def pyInt (s : List Char) : Option Int :=
  match ((s.dropWhile pyWs).reverse.dropWhile pyWs).reverse with
  | '+' :: ds => (pyDigits ds).map Int.ofNat
  | '-' :: ds => (pyDigits ds).map (fun n => -(n : Int))
  | ds => (pyDigits ds).map Int.ofNat

/-- `line.split(sep, 1)` for a one-character separator, as used on the part
after the opening marker: `none` when the separator does not occur (so the
two-name unpacking raises and the line is skipped), otherwise the parts
before and after its first occurrence. -/
def splitFirst (sep : Char) : List Char → Option (List Char × List Char)
  | [] => none
  | c :: rest =>
    if c = sep then some ([], rest)
    else (splitFirst sep rest).map (fun p => (c :: p.1, p.2))

/-- Line loop of `import.py load_mapping` (lines 256–267): keep lines
starting with `●`, split the remainder at the next `●`, parse the index with
`int`, strip one optional leading space of the replacement text; any failure
skips the line (`except Exception: continue`); each success performs
`mapping[idx] = txt`.  The assignments are kept in order; `dictGet` gives a
later assignment to the same key priority, like the `dict` it models. -/
def loadLines : List (List Char) → List (Int × String)
  | [] => []
  | line :: rest =>
    if line.head? = some '●' then
      match splitFirst '●' (line.drop 1) with
      | none => loadLines rest
      | some (head, txt) =>
        match pyInt head with
        | none => loadLines rest
        | some idx =>
          let txt := if txt.head? = some ' ' then txt.drop 1 else txt
          (idx, String.mk txt) :: loadLines rest
    else loadLines rest

/-- `import.py load_mapping` (lines 243–268) from the decoded text onward
(reading the file's bytes and choosing a text encoding is an I/O boundary
outside the parser). -/
def load_mapping (text : String) : List (Int × String) :=
  loadLines (pySplitlines text.data)

namespace Ext

/-- `Ext.constLoop` instrumented with the list of `(index, display text)`
pairs it emits records for; everything else is identical. -/
def constLoopT (c : Chk) (dec : List Nat → String) :
    Nat → Nat → Int → Except PErr (Nat × List String × Int × List (Int × String))
  | 0, pos, cnt => .ok (pos, [], cnt, [])
  | k + 1, pos, cnt => do
    let t ← pyIndex c.data pos
    let pos := pos + 1
    if t = 0 then
      constLoopT c dec k pos cnt
    else if t = 1 then
      constLoopT c dec k (pos + 1) cnt
    else if t = 3 then
      constLoopT c dec k (pos + c.number_size) cnt
    else if t = 4 then do
      let (s, pos) ← read_lstring c.data c.endian c.size_t_size pos
      match s with
      | some raw =>
        let cnt := cnt + 1
        let disp := escapeDisp (dec raw)
        let (p, o, cn, tr) ← constLoopT c dec k pos cnt
        .ok (p, ("○" ++ fmt05 cnt ++ "○ " ++ disp) ::
                ("●" ++ fmt05 cnt ++ "● " ++ disp) :: o, cn, (cnt, disp) :: tr)
      | none => constLoopT c dec k pos cnt
    else .error .tag

/-- Traced child loop. -/
def childLoopT
    (step : Nat → Int → Except PErr (Nat × List String × Int × List (Int × String))) :
    Nat → Nat → Int → Except PErr (Nat × List String × Int × List (Int × String))
  | 0, pos, cnt => .ok (pos, [], cnt, [])
  | n + 1, pos, cnt => do
    let (pos, o1, cnt, t1) ← step pos cnt
    let (pos, o2, cnt, t2) ← childLoopT step n pos cnt
    .ok (pos, o1 ++ o2, cnt, t1 ++ t2)

/-- `Ext.process_proto` instrumented with the `(index, display text)`
sequence of its emissions, in emission order. -/
def process_protoT (c : Chk) (dec : List Nat → String) :
    Nat → Nat → Int → Except PErr (Nat × List String × Int × List (Int × String))
  | 0, _, _ => .error .fuel
  | fuel + 1, pos, cnt => do
    let (_, pos) ← read_lstring c.data c.endian c.size_t_size pos
    let (_, pos) ← read_int c.data c.endian c.int_size pos
    let (_, pos) ← read_int c.data c.endian c.int_size pos
    let pos := pos + 4
    let (sizecode, pos) ← read_int c.data c.endian c.int_size pos
    let ncode ← guardCount sizecode
    let pos := pos + ncode * c.instr_size
    let (sizek, pos) ← read_int c.data c.endian c.int_size pos
    let (pos, o1, cnt, t1) ← constLoopT c dec sizek.toNat pos cnt
    let (sizep, pos) ← read_int c.data c.endian c.int_size pos
    let (pos, o2, cnt, t2) ← childLoopT (process_protoT c dec fuel) sizep.toNat pos cnt
    let (sizelineinfo, pos) ← read_int c.data c.endian c.int_size pos
    let nli ← guardCount sizelineinfo
    let pos := pos + nli * c.int_size
    let (sizelocvars, pos) ← read_int c.data c.endian c.int_size pos
    let pos ← locvarLoop c sizelocvars.toNat pos
    let (sizeupvalues, pos) ← read_int c.data c.endian c.int_size pos
    let pos ← upvalLoop c sizeupvalues.toNat pos
    .ok (pos, o1 ++ o2, cnt, t1 ++ t2)

end Ext

namespace Imp

/-- `Imp.constLoop` instrumented with the sequence of indices passed to
`patch_const_string` (the mapping lookups); everything else is identical. -/
def constLoopT (c : Chk) (mapping : List (Int × String)) (dec : List Nat → String)
    (enc : String → Except PErr (List Nat)) :
    Nat → Nat → Int → Except PErr (Nat × List Nat × Int × List Int)
  | 0, pos, cnt => .ok (pos, [], cnt, [])
  | k + 1, pos, cnt => do
    let t ← pyIndex c.data pos
    let pos := pos + 1
    if t = 0 then do
      let (p, o, cn, tr) ← constLoopT c mapping dec enc k pos cnt
      .ok (p, t :: o, cn, tr)
    else if t = 1 then do
      let (p, o, cn, tr) ← constLoopT c mapping dec enc k (pos + 1) cnt
      .ok (p, t :: (pySlice c.data pos 1 ++ o), cn, tr)
    else if t = 3 then do
      let (p, o, cn, tr) ← constLoopT c mapping dec enc k (pos + c.number_size) cnt
      .ok (p, t :: (pySlice c.data pos c.number_size ++ o), cn, tr)
    else if t = 4 then do
      let (s, pos) ← read_lstring c.data c.endian c.size_t_size pos
      match s with
      | some raw => do
        let cnt := cnt + 1
        let s2 ← patch_const_string raw cnt mapping dec enc
        let w ← write_lstring c.endian c.size_t_size (some s2)
        let (p, o, cn, tr) ← constLoopT c mapping dec enc k pos cnt
        .ok (p, t :: (w ++ o), cn, cnt :: tr)
      | none => do
        let w ← write_lstring c.endian c.size_t_size none
        let (p, o, cn, tr) ← constLoopT c mapping dec enc k pos cnt
        .ok (p, t :: (w ++ o), cn, tr)
    else .error .tag

/-- Traced child loop. -/
def childLoopT (step : Nat → Int → Except PErr (Nat × List Nat × Int × List Int)) :
    Nat → Nat → Int → Except PErr (Nat × List Nat × Int × List Int)
  | 0, pos, cnt => .ok (pos, [], cnt, [])
  | n + 1, pos, cnt => do
    let (pos, o1, cnt, t1) ← step pos cnt
    let (pos, o2, cnt, t2) ← childLoopT step n pos cnt
    .ok (pos, o1 ++ o2, cnt, t1 ++ t2)

/-- `Imp.process_proto` instrumented with the sequence of indices its
constant-table passes look up in the mapping. -/
def process_protoT (c : Chk) (mapping : List (Int × String)) (dec : List Nat → String)
    (enc : String → Except PErr (List Nat)) :
    Nat → Nat → Int → Except PErr (Nat × List Nat × Int × List Int)
  | 0, _, _ => .error .fuel
  | fuel + 1, pos, cnt => do
    let (name, pos) ← read_lstring c.data c.endian c.size_t_size pos
    let wname ← write_lstring c.endian c.size_t_size name
    let (a, pos) ← read_int c.data c.endian c.int_size pos
    let (b, pos) ← read_int c.data c.endian c.int_size pos
    let wa ← write_int c.endian c.int_size a
    let wb ← write_int c.endian c.int_size b
    let flags := pySlice c.data pos 4
    let pos := pos + 4
    let (sizecode, pos) ← read_int c.data c.endian c.int_size pos
    let wsc ← write_int c.endian c.int_size sizecode
    let ncode ← guardCount sizecode
    let code := pySlice c.data pos (ncode * c.instr_size)
    let pos := pos + ncode * c.instr_size
    let (sizek, pos) ← read_int c.data c.endian c.int_size pos
    let wsk ← write_int c.endian c.int_size sizek
    let (pos, oK, cnt, t1) ← constLoopT c mapping dec enc sizek.toNat pos cnt
    let (sizep, pos) ← read_int c.data c.endian c.int_size pos
    let wsp ← write_int c.endian c.int_size sizep
    let (pos, oP, cnt, t2) ← childLoopT (process_protoT c mapping dec enc fuel) sizep.toNat pos cnt
    let (sizelineinfo, pos) ← read_int c.data c.endian c.int_size pos
    let wsli ← write_int c.endian c.int_size sizelineinfo
    let nli ← guardCount sizelineinfo
    let li := pySlice c.data pos (nli * c.int_size)
    let pos := pos + nli * c.int_size
    let (sizelocvars, pos) ← read_int c.data c.endian c.int_size pos
    let wslv ← write_int c.endian c.int_size sizelocvars
    let (pos, oLV) ← locvarLoop c sizelocvars.toNat pos
    let (sizeupvalues, pos) ← read_int c.data c.endian c.int_size pos
    let wsup ← write_int c.endian c.int_size sizeupvalues
    let (pos, oUp) ← upvalLoop c sizeupvalues.toNat pos
    .ok (pos, wname ++ wa ++ wb ++ flags ++ wsc ++ code ++ wsk ++ oK ++
              wsp ++ oP ++ wsli ++ li ++ wslv ++ oLV ++ wsup ++ oUp, cnt, t1 ++ t2)

end Imp

/-- One present length-prefixed string field met during a traversal:
`start` is the payload position (right after the stored length), `len` the
stored length `n ≥ 1` (payload including the terminator byte), `isConst`
whether the field is a tag-4 constant (and hence consumes a string index). -/
structure StrF where
  start : Nat
  len : Nat
  isConst : Bool
deriving DecidableEq

/-- A checked cursor advance over an opaque block (`pos + k` must stay
inside the buffer). -/
def skipChecked (c : Chk) (pos k : Nat) : Except PErr Nat :=
  if pos + k ≤ c.data.length then .ok (pos + k) else .error .range

/-- Modelled from the claims' validity precondition: one length-prefixed
string read that additionally requires a present string to lie entirely
inside the buffer and to end in a `0` terminator byte; the field is
recorded. -/
def validString (c : Chk) (isC : Bool) (pos : Nat) :
    Except PErr (Option StrF × Nat) := do
  let (n, pos) ← read_size_t c.data c.endian c.size_t_size pos
  if n = 0 then
    .ok (none, pos)
  else
    if pos + n ≤ c.data.length ∧ c.data.get? (pos + n - 1) = some 0 then
      .ok (some ⟨pos, n, isC⟩, pos + n)
    else .error .range

/-- Modelled from the claims' validity precondition: the constant-table
pass, with every tag in `{0, 1, 3, 4}`, every payload fully in range and
every present string zero-terminated. -/
def validConsts (c : Chk) : Nat → Nat → Except PErr (Nat × List StrF)
  | 0, pos => .ok (pos, [])
  | k + 1, pos => do
    let t ← pyIndex c.data pos
    let pos := pos + 1
    if t = 0 then
      validConsts c k pos
    else if t = 1 then do
      let pos ← skipChecked c pos 1
      validConsts c k pos
    else if t = 3 then do
      let pos ← skipChecked c pos c.number_size
      validConsts c k pos
    else if t = 4 then do
      let (f, pos) ← validString c true pos
      let (p, fs) ← validConsts c k pos
      .ok (p, f.toList ++ fs)
    else .error .tag

/-- Modelled validity pass over the local-variable records. -/
def validLocvars (c : Chk) : Nat → Nat → Except PErr (Nat × List StrF)
  | 0, pos => .ok (pos, [])
  | k + 1, pos => do
    let (f, pos) ← validString c false pos
    let (_, pos) ← read_int c.data c.endian c.int_size pos
    let (_, pos) ← read_int c.data c.endian c.int_size pos
    let (p, fs) ← validLocvars c k pos
    .ok (p, f.toList ++ fs)

/-- Modelled validity pass over the upvalue names. -/
def validUpvals (c : Chk) : Nat → Nat → Except PErr (Nat × List StrF)
  | 0, pos => .ok (pos, [])
  | k + 1, pos => do
    let (f, pos) ← validString c false pos
    let (p, fs) ← validUpvals c k pos
    .ok (p, f.toList ++ fs)

/-- Modelled validity pass over the child prototypes. -/
def validChildren (step : Nat → Except PErr (Nat × List StrF)) :
    Nat → Nat → Except PErr (Nat × List StrF)
  | 0, pos => .ok (pos, [])
  | n + 1, pos => do
    let (pos, f1) ← step pos
    let (p, f2) ← validChildren step n pos
    .ok (p, f1 ++ f2)

/-- Modelled from the claims' "valid chunk" precondition: the walkers'
shared traversal with every read in range, every constant tag known, and
every present string in range and zero-terminated.  Returns the final
cursor and the present string fields in traversal order. -/
def validProto (c : Chk) : Nat → Nat → Except PErr (Nat × List StrF)
  | 0, _ => .error .fuel
  | fuel + 1, pos => do
    let (f0, pos) ← validString c false pos
    let (_, pos) ← read_int c.data c.endian c.int_size pos
    let (_, pos) ← read_int c.data c.endian c.int_size pos
    let pos ← skipChecked c pos 4
    let (sizecode, pos) ← read_int c.data c.endian c.int_size pos
    let ncode ← guardCount sizecode
    let pos ← skipChecked c pos (ncode * c.instr_size)
    let (sizek, pos) ← read_int c.data c.endian c.int_size pos
    let (pos, fK) ← validConsts c sizek.toNat pos
    let (sizep, pos) ← read_int c.data c.endian c.int_size pos
    let (pos, fP) ← validChildren (validProto c fuel) sizep.toNat pos
    let (sizelineinfo, pos) ← read_int c.data c.endian c.int_size pos
    let nli ← guardCount sizelineinfo
    let pos ← skipChecked c pos (nli * c.int_size)
    let (sizelocvars, pos) ← read_int c.data c.endian c.int_size pos
    let (pos, fLV) ← validLocvars c sizelocvars.toNat pos
    let (sizeupvalues, pos) ← read_int c.data c.endian c.int_size pos
    let (pos, fUp) ← validUpvals c sizeupvalues.toNat pos
    .ok (pos, f0.toList ++ fK ++ fP ++ fLV ++ fUp)

/-- Modelled from the claims' "valid chunk": the header parses and the walk
of the top-level prototype from offset 12 succeeds (all reads in range, all
tags known, all present strings zero-terminated) consuming the whole
buffer. -/
def validChunk (data : List Nat) (fuel : Nat) : Prop :=
  ∃ e isz ssz insz nsz fs,
    read_header data = .ok (e, isz, ssz, insz, nsz) ∧
    validProto ⟨data, e, isz, ssz, insz, nsz⟩ fuel 12 = .ok (data.length, fs)

/-- Raw payload (terminator dropped) of a recorded string field. -/
def fieldRaw (data : List Nat) (f : StrF) : List Nat :=
  (pySlice data f.start f.len).dropLast

/-- The `(index, display text)` pairs extraction emits for the tag-4
constants among the fields, with the counter entering at `cnt`. -/
def eTrace (data : List Nat) (dec : List Nat → String) :
    Int → List StrF → List (Int × String)
  | _, [] => []
  | cnt, f :: fs =>
    if f.isConst then
      (cnt + 1, escapeDisp (dec (fieldRaw data f))) :: eTrace data dec (cnt + 1) fs
    else eTrace data dec cnt fs

/-- The record pairs extraction emits for the fields. -/
def eRecs (data : List Nat) (dec : List Nat → String) :
    Int → List StrF → List String
  | _, [] => []
  | cnt, f :: fs =>
    if f.isConst then
      ("○" ++ fmt05 (cnt + 1) ++ "○ " ++ escapeDisp (dec (fieldRaw data f))) ::
      ("●" ++ fmt05 (cnt + 1) ++ "● " ++ escapeDisp (dec (fieldRaw data f))) ::
      eRecs data dec (cnt + 1) fs
    else eRecs data dec cnt fs

/-- Number of index-consuming (tag-4 constant) fields. -/
def nConsts (fs : List StrF) : Nat :=
  (fs.filter (fun f => f.isConst)).length

/-- The frame shape of Patch Mode's output over a field list: between
string fields the input bytes are copied unchanged; each present string
field is re-emitted by `write_lstring` — after `patch_const_string` for the
tag-4 constants, verbatim for the debug strings — together with the final
counter and the lookup index sequence. -/
def spliceRun (c : Chk) (mapping : List (Int × String)) (dec : List Nat → String)
    (enc : String → Except PErr (List Nat)) :
    Int → Nat → Nat → List StrF → Except PErr (List Nat × Int × List Int)
  | cnt, pos, stop, [] => .ok (sliceFT c.data pos stop, cnt, [])
  | cnt, pos, stop, f :: fs =>
    if f.isConst then do
      let s2 ← patch_const_string (fieldRaw c.data f) (cnt + 1) mapping dec enc
      let w ← write_lstring c.endian c.size_t_size (some s2)
      let (o, cn, tr) ← spliceRun c mapping dec enc (cnt + 1) (f.start + f.len) stop fs
      .ok (sliceFT c.data pos (f.start - c.size_t_size) ++ w ++ o, cn, (cnt + 1) :: tr)
    else do
      let w ← write_lstring c.endian c.size_t_size (some (fieldRaw c.data f))
      let (o, cn, tr) ← spliceRun c mapping dec enc cnt (f.start + f.len) stop fs
      .ok (sliceFT c.data pos (f.start - c.size_t_size) ++ w ++ o, cn, tr)

/-- The validated facts about one present string field: its prefix and
payload are in range, the stored length reads back from the prefix bytes,
and the terminator byte is `0`. -/
def fieldOK (c : Chk) (f : StrF) : Prop :=
  c.size_t_size ≤ f.start ∧ 1 ≤ f.len ∧ f.start + f.len ≤ c.data.length ∧
  read_size_t c.data c.endian c.size_t_size (f.start - c.size_t_size) =
    .ok (f.len, f.start) ∧
  c.data.get? (f.start + f.len - 1) = some 0

/-- Chained bounds of a field list: each field's size prefix starts at or
after the current cursor, each field is validated, and the list ends at or
before `stop`. -/
def fsWithin (c : Chk) : Nat → Nat → List StrF → Prop
  | pos, stop, [] => pos ≤ stop
  | pos, stop, f :: fs =>
    pos + c.size_t_size ≤ f.start ∧ fieldOK c f ∧ fsWithin c (f.start + f.len) stop fs

/-- A concrete total byte decoder for witnesses: Latin-1 (byte value as code
point), standing in for the configurable source encoding. -/
def latinDec (bs : List Nat) : String :=
  String.mk (bs.map Char.ofNat)

/-- A concrete strict encoder for witnesses: Latin-1; code points above 255
fail like a `UnicodeEncodeError`. -/
def latinEnc (s : String) : Except PErr (List Nat) :=
  if s.data.all (fun ch => ch.toNat < 256) then .ok (s.data.map Char.toNat)
  else .error .encode

/-- A minimal little-endian chunk (int 4, size_t 4, instr 4, number 8): one
prototype, no code, one string constant `"Hello"`, no children, no debug
data. -/
def helloChunk : List Nat :=
  [27, 76, 117, 97, 81, 0, 1, 4, 4, 4, 8, 0] ++
  [0, 0, 0, 0] ++ [0, 0, 0, 0] ++ [0, 0, 0, 0] ++ [0, 2, 0, 2] ++
  [0, 0, 0, 0] ++ [1, 0, 0, 0] ++
  [4] ++ [6, 0, 0, 0] ++ [72, 101, 108, 108, 111, 0] ++
  [0, 0, 0, 0] ++ [0, 0, 0, 0] ++ [0, 0, 0, 0] ++ [0, 0, 0, 0]

/-- Like `helloChunk` but with two string constants: first one whose stored
length is 0 (absent payload), then `"Hello"`. -/
def absentChunk : List Nat :=
  [27, 76, 117, 97, 81, 0, 1, 4, 4, 4, 8, 0] ++
  [0, 0, 0, 0] ++ [0, 0, 0, 0] ++ [0, 0, 0, 0] ++ [0, 2, 0, 2] ++
  [0, 0, 0, 0] ++ [2, 0, 0, 0] ++
  [4] ++ [0, 0, 0, 0] ++
  [4] ++ [6, 0, 0, 0] ++ [72, 101, 108, 108, 111, 0] ++
  [0, 0, 0, 0] ++ [0, 0, 0, 0] ++ [0, 0, 0, 0] ++ [0, 0, 0, 0]

/-- Like `helloChunk` but with a single string constant `"A"` whose
terminator byte is 9 instead of 0. -/
def badTermChunk : List Nat :=
  [27, 76, 117, 97, 81, 0, 1, 4, 4, 4, 8, 0] ++
  [0, 0, 0, 0] ++ [0, 0, 0, 0] ++ [0, 0, 0, 0] ++ [0, 2, 0, 2] ++
  [0, 0, 0, 0] ++ [1, 0, 0, 0] ++
  [4] ++ [2, 0, 0, 0] ++ [65, 9] ++
  [0, 0, 0, 0] ++ [0, 0, 0, 0] ++ [0, 0, 0, 0] ++ [0, 0, 0, 0]

/-- Like `helloChunk` but with a single constant carrying the unknown tag
byte 5. -/
def badTagChunk : List Nat :=
  [27, 76, 117, 97, 81, 0, 1, 4, 4, 4, 8, 0] ++
  [0, 0, 0, 0] ++ [0, 0, 0, 0] ++ [0, 0, 0, 0] ++ [0, 2, 0, 2] ++
  [0, 0, 0, 0] ++ [1, 0, 0, 0] ++
  [5] ++ [0, 0, 0, 0] ++
  [0, 0, 0, 0] ++ [0, 0, 0, 0] ++ [0, 0, 0, 0] ++ [0, 0, 0, 0]

/-- Modelled from C8's description of "running the walker with the empty
mapping": `import.py patch_file` without its empty-mapping fast path — the
header is always parsed and the prototype tree always walked. -/
def patch_file_walk (data : List Nat) (mapping : List (Int × String))
    (dec : List Nat → String) (enc : String → Except PErr (List Nat))
    (fuel : Nat) : Option (List Nat) :=
  match read_header data with
  | .error _ => none
  | .ok (e, isz, ssz, insz, nsz) =>
    match Imp.process_proto ⟨data, e, isz, ssz, insz, nsz⟩ mapping dec enc fuel 12 (-1) with
    | .ok (_, delta, _) => some (pySlice data 0 12 ++ delta)
    | .error _ => none

theorem bind_ok {α β : Type} (a : α) (f : α → Except PErr β) :
    (Except.ok a >>= f) = f a := rfl

theorem bind_err {α β : Type} (e : PErr) (f : α → Except PErr β) :
    ((Except.error e : Except PErr α) >>= f) = .error e := rfl

theorem leBytes_length (k : Nat) : ∀ u, (leBytes k u).length = k := by
  induction k with
  | zero => intro u; rfl
  | succ k ih => intro u; simp [leBytes, ih]

theorem leBytes_lt (k : Nat) : ∀ u, ∀ b ∈ leBytes k u, b < 256 := by
  induction k with
  | zero => intro u b hb; simp [leBytes] at hb
  | succ k ih =>
    intro u b hb
    simp only [leBytes, List.mem_cons] at hb
    rcases hb with h | h
    · subst h; exact Nat.mod_lt _ (by norm_num)
    · exact ih _ b h

theorem leVal_leBytes (k : Nat) : ∀ u, leVal (leBytes k u) = u % 2 ^ (8 * k) := by
  induction k with
  | zero => intro u; simp [leBytes, leVal, Nat.mod_one]
  | succ k ih =>
    intro u
    have h8 : 2 ^ (8 * (k + 1)) = 256 * 2 ^ (8 * k) := by
      rw [Nat.mul_succ, pow_add]; ring
    rw [h8, Nat.mod_mul]
    simp [leBytes, leVal, ih]

theorem leVal_lt (bs : List Nat) (hb : ∀ b ∈ bs, b < 256) :
    leVal bs < 2 ^ (8 * bs.length) := by
  induction bs with
  | nil => simp [leVal]
  | cons b bs ih =>
    have hb' : b < 256 := hb b (List.mem_cons_self _ _)
    have ih' := ih (fun x hx => hb x (List.mem_cons_of_mem _ hx))
    have h8 : 2 ^ (8 * (b :: bs).length) = 256 * 2 ^ (8 * bs.length) := by
      simp only [List.length_cons]
      rw [Nat.mul_succ, pow_add]; ring
    rw [h8]
    simp only [leVal]
    calc b + 256 * leVal bs < 256 + 256 * leVal bs := by omega
    _ = 256 * (leVal bs + 1) := by ring
    _ ≤ 256 * 2 ^ (8 * bs.length) := by
        exact Nat.mul_le_mul_left _ (by omega)

theorem leBytes_leVal (bs : List Nat) (hb : ∀ b ∈ bs, b < 256) :
    leBytes bs.length (leVal bs) = bs := by
  induction bs with
  | nil => rfl
  | cons b bs ih =>
    have hb' : b < 256 := hb b (List.mem_cons_self _ _)
    simp only [List.length_cons, leBytes, leVal, List.cons.injEq]
    constructor
    · rw [Nat.add_mul_mod_self_left]
      exact Nat.mod_eq_of_lt hb'
    · rw [Nat.add_mul_div_left _ _ (by norm_num : 0 < 256),
          Nat.div_eq_of_lt hb', Nat.zero_add]
      exact ih (fun x hx => hb x (List.mem_cons_of_mem _ hx))

theorem orient_orient (e : Endian) (bs : List Nat) : orient e (orient e bs) = bs := by
  cases e <;> simp [orient]

theorem orient_length (e : Endian) (bs : List Nat) : (orient e bs).length = bs.length := by
  cases e <;> simp [orient]

theorem orient_mem (e : Endian) (bs : List Nat) (b : Nat) (h : b ∈ orient e bs) : b ∈ bs := by
  cases e <;> simpa [orient] using h

theorem pySlice_length (data : List Nat) (pos n : Nat) (h : pos + n ≤ data.length) :
    (pySlice data pos n).length = n := by
  simp [pySlice]; omega

theorem pySlice_eq_sliceFT (data : List Nat) (pos n : Nat) :
    pySlice data pos n = sliceFT data pos (pos + n) := by
  simp [pySlice, sliceFT]

theorem sliceFT_append (data : List Nat) (i j k : Nat) (h1 : i ≤ j) (h2 : j ≤ k) :
    sliceFT data i j ++ sliceFT data j k = sliceFT data i k := by
  have hd : data.drop j = (data.drop i).drop (j - i) := by
    rw [List.drop_drop]; congr 1; omega
  have hk : k - i = (j - i) + (k - j) := by omega
  rw [sliceFT, sliceFT, sliceFT, hd, hk, List.take_add]

theorem pySlice_subset (data : List Nat) (pos n : Nat) :
    ∀ b ∈ pySlice data pos n, b ∈ data := by
  intro b hb
  exact List.mem_of_mem_drop (List.mem_of_mem_take hb)

theorem read_size_t_ok (data : List Nat) (e : Endian) (size pos n pos' : Nat)
    (h : read_size_t data e size pos = .ok (n, pos')) :
    (size = 4 ∨ size = 8) ∧ pos' = pos + size ∧ pos + size ≤ data.length ∧
      n = leVal (orient e (pySlice data pos size)) := by
  unfold read_size_t at h
  split at h
  · split at h
    · cases h
      refine ⟨by assumption, rfl, by assumption, rfl⟩
    · cases h
  · cases h

theorem read_int_ok (data : List Nat) (e : Endian) (size pos : Nat) (v : Int) (pos' : Nat)
    (h : read_int data e size pos = .ok (v, pos')) :
    (size = 4 ∨ size = 8) ∧ pos' = pos + size ∧ pos + size ≤ data.length ∧
      v = (if leVal (orient e (pySlice data pos size)) < 2 ^ (8 * size - 1) then
             (leVal (orient e (pySlice data pos size)) : Int)
           else (leVal (orient e (pySlice data pos size)) : Int) - 2 ^ (8 * size)) := by
  unfold read_int at h
  split at h
  · split at h
    · cases h
      refine ⟨by assumption, rfl, by assumption, rfl⟩
    · cases h
  · cases h

/-- The unsigned value read from a buffer of genuine bytes re-encodes to
exactly the bytes it was read from. -/
theorem write_size_t_slice (data : List Nat) (e : Endian) (size pos n pos' : Nat)
    (HB : ∀ b ∈ data, b < 256)
    (h : read_size_t data e size pos = .ok (n, pos')) :
    write_size_t e size n = .ok (sliceFT data pos pos') ∧ pos' = pos + size ∧
      n < 2 ^ (8 * size) := by
  obtain ⟨hs, hp, hr, hn⟩ := read_size_t_ok data e size pos n pos' h
  have hlen : (orient e (pySlice data pos size)).length = size := by
    rw [orient_length, pySlice_length data pos size hr]
  have hmem : ∀ b ∈ orient e (pySlice data pos size), b < 256 := by
    intro b hb
    exact HB b (pySlice_subset data pos size b (orient_mem e _ b hb))
  have hlt : n < 2 ^ (8 * size) := by
    have h1 := leVal_lt _ hmem
    rw [hlen] at h1
    rw [hn]; exact h1
  have hbytes : leBytes size n = orient e (pySlice data pos size) := by
    have h1 := leBytes_leVal _ hmem
    rw [hlen] at h1
    rw [hn]; exact h1
  refine ⟨?_, hp, hlt⟩
  unfold write_size_t
  rw [if_pos hs, if_pos hlt, hbytes, orient_orient]
  rw [hp, ← pySlice_eq_sliceFT]

/-- Signed reading of an in-range unsigned value, and back. -/
theorem signed_of_unsigned (w : Nat) (hw : 1 ≤ w) (u : Nat) (hu : u < 2 ^ w) :
    (-(2:Int) ^ (w - 1) ≤ (if u < 2 ^ (w - 1) then (u : Int) else (u : Int) - 2 ^ w) ∧
      (if u < 2 ^ (w - 1) then (u : Int) else (u : Int) - 2 ^ w) < 2 ^ (w - 1)) ∧
    (((if u < 2 ^ (w - 1) then (u : Int) else (u : Int) - 2 ^ w) % (2:Int) ^ w).toNat = u) := by
  have h2n : 2 ^ w = 2 * 2 ^ (w - 1) := by
    conv_lhs => rw [show w = (w - 1) + 1 by omega]
    ring
  have h2i : (2:Int) ^ w = 2 * 2 ^ (w - 1) := by
    conv_lhs => rw [show w = (w - 1) + 1 by omega]
    ring
  have hcast : ((2 ^ (w - 1) : Nat) : Int) = (2:Int) ^ (w - 1) := by push_cast; rfl
  have hcastw : ((2 ^ w : Nat) : Int) = (2:Int) ^ w := by push_cast; rfl
  by_cases hlt : u < 2 ^ (w - 1)
  · rw [if_pos hlt]
    have h0 : (0:Int) ≤ (u : Int) := Int.ofNat_nonneg u
    have hub : (u : Int) < (2:Int) ^ w := by
      rw [← hcastw]; exact_mod_cast hu
    constructor
    · constructor
      · have : (0:Int) ≤ (2:Int) ^ (w - 1) := by positivity
        omega
      · rw [← hcast]; exact_mod_cast hlt
    · rw [Int.emod_eq_of_lt h0 hub]
      exact Int.toNat_ofNat u
  · rw [if_neg hlt]
    have hge : 2 ^ (w - 1) ≤ u := Nat.le_of_not_lt hlt
    have hgei : (2:Int) ^ (w - 1) ≤ (u : Int) := by
      rw [← hcast]; exact_mod_cast hge
    have hub : (u : Int) < (2:Int) ^ w := by
      rw [← hcastw]; exact_mod_cast hu
    have hmod : ((u : Int) - 2 ^ w) % (2:Int) ^ w = (u : Int) := by
      have : (u : Int) - 2 ^ w = (u : Int) + 2 ^ w * (-1) := by ring
      rw [this, Int.add_mul_emod_self_left]
      exact Int.emod_eq_of_lt (by omega) hub
    constructor
    · constructor
      · omega
      · omega
    · rw [hmod]
      exact Int.toNat_ofNat u

/-- The signed value read from a buffer of genuine bytes re-encodes to
exactly the bytes it was read from. -/
theorem write_int_slice (data : List Nat) (e : Endian) (size pos : Nat) (v : Int) (pos' : Nat)
    (HB : ∀ b ∈ data, b < 256)
    (h : read_int data e size pos = .ok (v, pos')) :
    write_int e size v = .ok (sliceFT data pos pos') ∧ pos' = pos + size := by
  obtain ⟨hs, hp, hr, hv⟩ := read_int_ok data e size pos v pos' h
  have hlen : (orient e (pySlice data pos size)).length = size := by
    rw [orient_length, pySlice_length data pos size hr]
  have hmem : ∀ b ∈ orient e (pySlice data pos size), b < 256 := by
    intro b hb
    exact HB b (pySlice_subset data pos size b (orient_mem e _ b hb))
  have hu : leVal (orient e (pySlice data pos size)) < 2 ^ (8 * size) := by
    have h1 := leVal_lt _ hmem
    rw [hlen] at h1
    exact h1
  have hw : 1 ≤ 8 * size := by rcases hs with h4 | h8 <;> omega
  obtain ⟨⟨hlo, hhi⟩, hback⟩ := signed_of_unsigned (8 * size) hw _ hu
  rw [← hv] at hlo hhi hback
  have hbytes : leBytes size (v % (2:Int) ^ (8 * size)).toNat =
      orient e (pySlice data pos size) := by
    have h1 := leBytes_leVal _ hmem
    rw [hlen] at h1
    rw [hback]; exact h1
  refine ⟨?_, hp⟩
  unfold write_int
  rw [if_pos hs, if_pos ⟨hlo, hhi⟩, hbytes, orient_orient]
  rw [hp, ← pySlice_eq_sliceFT]

/-- Decoding an in-range signed representative back from its nonnegative
residue. -/
theorem unsigned_of_signed (w : Nat) (hw : 1 ≤ w) (v : Int)
    (h1 : -(2:Int) ^ (w - 1) ≤ v) (h2 : v < 2 ^ (w - 1)) :
    (v % (2:Int) ^ w).toNat < 2 ^ w ∧
    (if (v % (2:Int) ^ w).toNat < 2 ^ (w - 1) then ((v % (2:Int) ^ w).toNat : Int)
     else ((v % (2:Int) ^ w).toNat : Int) - 2 ^ w) = v := by
  have h2i : (2:Int) ^ w = 2 * 2 ^ (w - 1) := by
    conv_lhs => rw [show w = (w - 1) + 1 by omega]
    ring
  have hcast : ((2 ^ (w - 1) : Nat) : Int) = (2:Int) ^ (w - 1) := by push_cast; rfl
  have hcastw : ((2 ^ w : Nat) : Int) = (2:Int) ^ w := by push_cast; rfl
  have hPpos : (0:Int) < 2 ^ (w - 1) := by positivity
  by_cases h0 : 0 ≤ v
  · have hub : v < (2:Int) ^ w := by omega
    have hmod : v % (2:Int) ^ w = v := Int.emod_eq_of_lt h0 hub
    rw [hmod]
    have htn : ((v.toNat : Int)) = v := Int.toNat_of_nonneg h0
    constructor
    · have : (v.toNat : Int) < ((2 ^ w : Nat) : Int) := by rw [htn, hcastw]; omega
      exact_mod_cast this
    · rw [if_pos, htn]
      have : (v.toNat : Int) < ((2 ^ (w - 1) : Nat) : Int) := by rw [htn, hcast]; omega
      exact_mod_cast this
  · have hlt0 : v < 0 := by omega
    have hmod : v % (2:Int) ^ w = v + 2 ^ w := by
      have hrw : v = (v + 2 ^ w) + 2 ^ w * (-1) := by ring
      conv_lhs => rw [hrw]
      rw [Int.add_mul_emod_self_left]
      exact Int.emod_eq_of_lt (by omega) (by omega)
    rw [hmod]
    have hnn : (0:Int) ≤ v + 2 ^ w := by omega
    have htn : (((v + 2 ^ w).toNat : Int)) = v + 2 ^ w := Int.toNat_of_nonneg hnn
    have hge : ¬ (v + 2 ^ w).toNat < 2 ^ (w - 1) := by
      intro hcon
      have : ((v + 2 ^ w).toNat : Int) < ((2 ^ (w - 1) : Nat) : Int) := by exact_mod_cast hcon
      rw [htn, hcast] at this
      omega
    constructor
    · have : ((v + 2 ^ w).toNat : Int) < ((2 ^ w : Nat) : Int) := by
        rw [htn, hcastw]; omega
      exact_mod_cast this
    · rw [if_neg hge, htn]
      ring

/-- Reading back an unsigned value from its own encoding (with arbitrary
following bytes). -/
theorem read_back_size_t (e : Endian) (size n : Nat) (rest : List Nat)
    (hs : size = 4 ∨ size = 8) (hn : n < 2 ^ (8 * size)) :
    read_size_t (orient e (leBytes size n) ++ rest) e size 0 = .ok (n, size) := by
  have hlen : (orient e (leBytes size n)).length = size := by
    rw [orient_length, leBytes_length]
  unfold read_size_t
  rw [if_pos hs, if_pos (by simp [hlen])]
  have hsl : pySlice (orient e (leBytes size n) ++ rest) 0 size = orient e (leBytes size n) := by
    have h := List.take_left (orient e (leBytes size n)) rest
    rw [hlen] at h
    unfold pySlice
    rw [List.drop_zero]
    exact h
  rw [hsl, orient_orient, leVal_leBytes, Nat.mod_eq_of_lt hn]
  simp

/-- Reading back a signed value from its own encoding. -/
theorem read_back_int (e : Endian) (size : Nat) (v : Int)
    (hs : size = 4 ∨ size = 8)
    (h1 : -(2:Int) ^ (8 * size - 1) ≤ v) (h2 : v < 2 ^ (8 * size - 1)) :
    read_int (orient e (leBytes size (v % (2:Int) ^ (8 * size)).toNat)) e size 0 = .ok (v, size) := by
  have hw : 1 ≤ 8 * size := by rcases hs with h | h <;> omega
  obtain ⟨hu, hback⟩ := unsigned_of_signed (8 * size) hw v h1 h2
  have hlen : (orient e (leBytes size (v % (2:Int) ^ (8 * size)).toNat)).length = size := by
    rw [orient_length, leBytes_length]
  unfold read_int
  rw [if_pos hs, if_pos (by simp [hlen])]
  have hsl : pySlice (orient e (leBytes size (v % (2:Int) ^ (8 * size)).toNat)) 0 size =
      orient e (leBytes size (v % (2:Int) ^ (8 * size)).toNat) := by
    unfold pySlice
    rw [List.drop_zero]
    exact List.take_of_length_le (by rw [hlen])
  rw [hsl, orient_orient, leVal_leBytes, Nat.mod_eq_of_lt hu]
  simp only [Nat.zero_add]
  rw [hback]

/-- C7: for every supported width and byte order, a representable signed
integer survives an encode/decode round trip, and so does every string
value — absent (`none`), zero-length present (`some []`) or non-empty — as
long as its stored length fits the width.  The claim's `read_int after
write_int` is the composition below (reading at offset 0 of the emitted
bytes); the string round trip also returns the cursor after the field. -/
theorem C7_primitive_roundtrip (e : Endian) (size : Nat) (v : Int) (s : Option (List Nat))
    (hs : size = 4 ∨ size = 8)
    (hv1 : -(2:Int) ^ (8 * size - 1) ≤ v) (hv2 : v < 2 ^ (8 * size - 1))
    (hstr : ∀ bs, s = some bs → bs.length + 1 < 2 ^ (8 * size)) :
    (write_int e size v >>= fun bs => read_int bs e size 0) = .ok (v, size) ∧
    (write_lstring e size s >>= fun w => read_lstring w e size 0) =
      .ok (s, size + Option.elim s 0 (fun bs => bs.length + 1)) := by
  constructor
  · unfold write_int
    rw [if_pos hs, if_pos ⟨hv1, hv2⟩, bind_ok]
    exact read_back_int e size v hs hv1 hv2
  · cases s with
    | none =>
      unfold write_lstring write_size_t
      rw [if_pos hs, if_pos (by positivity), bind_ok]
      unfold read_lstring
      have h := read_back_size_t e size 0 [] hs (by positivity)
      rw [List.append_nil] at h
      rw [h, bind_ok]
      simp
    | some bs =>
      have hb : bs.length + 1 < 2 ^ (8 * size) := hstr bs rfl
      show (write_size_t e size (bs.length + 1) >>= fun pre =>
              (.ok (pre ++ bs ++ [0]) : Except PErr (List Nat))) >>= (fun w =>
              read_lstring w e size 0) = _
      unfold write_size_t
      rw [if_pos hs, if_pos hb, bind_ok, bind_ok]
      unfold read_lstring
      have hassoc : orient e (leBytes size (bs.length + 1)) ++ bs ++ [0] =
          orient e (leBytes size (bs.length + 1)) ++ (bs ++ [0]) := by
        rw [List.append_assoc]
      rw [hassoc, read_back_size_t e size (bs.length + 1) (bs ++ [0]) hs hb, bind_ok]
      show (if bs.length + 1 = 0 then
              (Except.ok (none, size) : Except PErr (Option (List Nat) × Nat))
            else .ok (some (pySlice (orient e (leBytes size (bs.length + 1)) ++
              (bs ++ [0])) size (bs.length + 1)).dropLast, size + (bs.length + 1))) = _
      rw [if_neg (by omega)]
      have hpre : (orient e (leBytes size (bs.length + 1))).length = size := by
        rw [orient_length, leBytes_length]
      have hsl : pySlice (orient e (leBytes size (bs.length + 1)) ++ (bs ++ [0])) size
          (bs.length + 1) = bs ++ [0] := by
        unfold pySlice
        have hdrop := List.drop_left (orient e (leBytes size (bs.length + 1))) (bs ++ [0])
        rw [hpre] at hdrop
        rw [hdrop]
        exact List.take_of_length_le (by simp)
      rw [hsl]
      have hdl : (bs ++ [0]).dropLast = bs := List.dropLast_concat
      rw [hdl]
      simp

/-- Witness for `C7_primitive_roundtrip`: little-endian width 4, the value
`-5`, and the two-byte present string `"Hi"`. -/
theorem C7_primitive_roundtrip_witness :
    (write_int .little 4 (-5) >>= fun bs => read_int bs .little 4 0) = .ok (-5, 4) ∧
    (write_lstring .little 4 (some [72, 105]) >>= fun w => read_lstring w .little 4 0) =
      .ok (some [72, 105], 4 + Option.elim (some [72, 105]) 0 (fun bs => bs.length + 1)) :=
  C7_primitive_roundtrip .little 4 (-5) (some [72, 105]) (by norm_num) (by norm_num)
    (by norm_num) (by intro bs hbs; cases hbs; norm_num)

/-- C10: a present string field is read without ever inspecting its
terminator byte (the payload is exactly the first `n - 1` bytes after the
size prefix), and re-writing the read payload always emits terminator `0`;
the re-written field reproduces the original field bytes if and only if the
original terminator byte was `0`.  Patch Mode hence silently rewrites a
nonzero terminator to `0` even at constants it does not substitute. -/
theorem C10_terminator_normalization
    (data : List Nat) (e : Endian) (ssz pos n : Nat)
    (HB : ∀ b ∈ data, b < 256)
    (hn : read_size_t data e ssz pos = .ok (n, pos + ssz))
    (h1 : 1 ≤ n) (hr : pos + ssz + n ≤ data.length) :
    ∃ w,
      read_lstring data e ssz pos =
        .ok (some (pySlice data (pos + ssz) (n - 1)), pos + ssz + n) ∧
      write_lstring e ssz (some (pySlice data (pos + ssz) (n - 1))) = .ok w ∧
      w.getLast? = some 0 ∧
      (w = sliceFT data pos (pos + ssz + n) ↔ data.get? (pos + ssz + n - 1) = some 0) := by
  have hrawlen : (pySlice data (pos + ssz) n).length = n :=
    pySlice_length data (pos + ssz) n (by omega)
  have hdrop : (pySlice data (pos + ssz) n).dropLast = pySlice data (pos + ssz) (n - 1) := by
    rw [List.dropLast_eq_take, hrawlen]
    unfold pySlice
    rw [List.take_take]
    congr 1
    omega
  have hslen : (pySlice data (pos + ssz) (n - 1)).length = n - 1 :=
    pySlice_length data (pos + ssz) (n - 1) (by omega)
  obtain ⟨hwst, _, hnlt⟩ := write_size_t_slice data e ssz pos n (pos + ssz) HB hn
  have hread : read_lstring data e ssz pos =
      .ok (some (pySlice data (pos + ssz) (n - 1)), pos + ssz + n) := by
    unfold read_lstring
    rw [hn, bind_ok]
    show (if n = 0 then (Except.ok (none, pos + ssz) : Except PErr (Option (List Nat) × Nat))
          else .ok (some (pySlice data (pos + ssz) n).dropLast, (pos + ssz) + n)) = _
    rw [if_neg (by omega), hdrop]
  have hwrite : write_lstring e ssz (some (pySlice data (pos + ssz) (n - 1))) =
      .ok (sliceFT data pos (pos + ssz) ++ (pySlice data (pos + ssz) (n - 1) ++ [0])) := by
    show (write_size_t e ssz ((pySlice data (pos + ssz) (n - 1)).length + 1) >>= fun pre =>
           (.ok (pre ++ pySlice data (pos + ssz) (n - 1) ++ [0]) :
             Except PErr (List Nat))) = _
    rw [hslen, show n - 1 + 1 = n by omega, hwst, bind_ok, List.append_assoc]
  refine ⟨_, hread, hwrite, ?_, ?_⟩
  · rw [← List.append_assoc]
    exact List.getLast?_concat _
  · have hfield : sliceFT data pos (pos + ssz + n) =
        sliceFT data pos (pos + ssz) ++ pySlice data (pos + ssz) n := by
      rw [pySlice_eq_sliceFT]
      exact (sliceFT_append data pos (pos + ssz) (pos + ssz + n) (by omega) (by omega)).symm
    have hne : pySlice data (pos + ssz) n ≠ [] := by
      intro hcon
      rw [hcon] at hrawlen
      simp at hrawlen
      omega
    have hlast : (pySlice data (pos + ssz) n).getLast? = data.get? (pos + ssz + n - 1) := by
      rw [List.getLast?_eq_get? , hrawlen]
      unfold pySlice
      rw [List.get?_take (by omega), List.get?_drop]
      congr 1
      omega
    have hsplit : pySlice data (pos + ssz) (n - 1) ++ [(pySlice data (pos + ssz) n).getLast hne] =
        pySlice data (pos + ssz) n := by
      rw [← hdrop]
      exact List.dropLast_append_getLast hne
    rw [hfield]
    constructor
    · intro heq
      have h2 : pySlice data (pos + ssz) (n - 1) ++ [0] = pySlice data (pos + ssz) n :=
        List.append_cancel_left heq
      rw [← hsplit] at h2
      have h3 : (0 : Nat) = (pySlice data (pos + ssz) n).getLast hne := by
        have := List.append_cancel_left h2
        simpa using this
      rw [← hlast, List.getLast?_eq_getLast _ hne, ← h3]
    · intro heq
      have h0 : (pySlice data (pos + ssz) n).getLast hne = 0 := by
        rw [List.getLast?_eq_getLast _ hne] at hlast
        rw [heq] at hlast
        exact Option.some_injective _ hlast
      rw [← hsplit, h0]

/-- Witness for `C10_terminator_normalization`: the field `[2, 0, 0, 0, 65, 9]`
(little-endian size_t 4, stored length 2, payload `"A"`, terminator 9)
starting at offset 0 of a buffer; its re-written form differs from the
original bytes exactly because the terminator is not `0`. -/
theorem C10_terminator_normalization_witness :
    ∃ w,
      read_lstring [2, 0, 0, 0, 65, 9] .little 4 0 =
        .ok (some (pySlice [2, 0, 0, 0, 65, 9] (0 + 4) (2 - 1)), 0 + 4 + 2) ∧
      write_lstring .little 4 (some (pySlice [2, 0, 0, 0, 65, 9] (0 + 4) (2 - 1))) = .ok w ∧
      w.getLast? = some 0 ∧
      (w = sliceFT [2, 0, 0, 0, 65, 9] 0 (0 + 4 + 2) ↔
        [2, 0, 0, 0, 65, 9].get? (0 + 4 + 2 - 1) = some 0) :=
  C10_terminator_normalization [2, 0, 0, 0, 65, 9] .little 4 0 2
    (by decide) (by decide) (by decide) (by decide)

theorem takeWhile_all_no_break (line : List Char)
    (hline : ∀ ch ∈ line, isLineBreak ch = false) :
    line.takeWhile (fun ch => !(isLineBreak ch)) = line := by
  induction line with
  | nil => rfl
  | cons c cs ih =>
    have hc := hline c (List.mem_cons_self _ _)
    simp only [List.takeWhile_cons]
    rw [if_pos (by simp [hc])]
    rw [ih (fun ch hch => hline ch (List.mem_cons_of_mem _ hch))]

theorem takeWhile_no_break (line : List Char) (rest : List Char) (b : Char)
    (hb : isLineBreak b = true)
    (hline : ∀ ch ∈ line, isLineBreak ch = false) :
    (line ++ b :: rest).takeWhile (fun ch => !(isLineBreak ch)) = line := by
  induction line with
  | nil =>
    simp only [List.nil_append, List.takeWhile_cons]
    rw [if_neg (by simp [hb])]
  | cons c cs ih =>
    have hc := hline c (List.mem_cons_self _ _)
    simp only [List.cons_append, List.takeWhile_cons]
    rw [if_pos (by simp [hc])]
    rw [ih (fun ch hch => hline ch (List.mem_cons_of_mem _ hch))]

theorem pySplitlinesAux_fuel (f : Nat) : ∀ g s, s.length ≤ f → s.length ≤ g →
    pySplitlinesAux f s = pySplitlinesAux g s := by
  induction f with
  | zero =>
    intro g s hf _
    have hs : s = [] := List.length_eq_zero.mp (by omega)
    subst hs
    cases g <;> rfl
  | succ f ih =>
    intro g s hf hg
    cases s with
    | nil => cases g <;> rfl
    | cons c cs =>
      cases g with
      | zero => simp at hg
      | succ g =>
        show pySplitlinesAux (f + 1) (c :: cs) = pySplitlinesAux (g + 1) (c :: cs)
        unfold pySplitlinesAux
        simp only []
        rcases hdrop : (c :: cs).drop
            ((c :: cs).takeWhile (fun ch => !(isLineBreak ch))).length with _ | ⟨b, r⟩
        · rfl
        · show ((c :: cs).takeWhile (fun ch => !(isLineBreak ch))) ::
              pySplitlinesAux f (if b = '\r' ∧ r.head? = some '\n' then r.tail else r) =
            ((c :: cs).takeWhile (fun ch => !(isLineBreak ch))) ::
              pySplitlinesAux g (if b = '\r' ∧ r.head? = some '\n' then r.tail else r)
          have hr : r.length ≤ cs.length := by
            have hc := congrArg List.length hdrop
            simp only [List.length_drop, List.length_cons] at hc
            omega
          have hx : (if b = '\r' ∧ r.head? = some '\n' then r.tail else r).length ≤
              cs.length := by
            split
            · have ht : r.tail.length ≤ r.length := by cases r <;> simp
              omega
            · exact hr
          have hf2 : cs.length ≤ f := by simp only [List.length_cons] at hf; omega
          have hg2 : cs.length ≤ g := by simp only [List.length_cons] at hg; omega
          rw [ih g _ (le_trans hx hf2) (le_trans hx hg2)]

theorem digit_not_special (ch : Char) (h : ch.isDigit = true) :
    pyWs ch = false ∧ ch ≠ '+' ∧ ch ≠ '-' ∧ ch ≠ '●' := by
  refine ⟨?_, ?_, ?_, ?_⟩
  · simp only [pyWs, decide_eq_false_iff_not]
    push_neg
    refine ⟨?_, ?_, ?_, ?_, ?_, ?_⟩ <;> (intro he; subst he; simp [Char.isDigit] at h)
  all_goals (intro he; subst he; simp [Char.isDigit] at h)

theorem dropWhile_all_false {α : Type} (p : α → Bool) (l : List α)
    (h : ∀ x ∈ l, p x = false) : l.dropWhile p = l := by
  cases l with
  | nil => rfl
  | cons c cs =>
    rw [List.dropWhile_cons, if_neg]
    rw [h c (List.mem_cons_self _ _)]
    simp

theorem pyInt_digits (ds : List Char) (hne : ds ≠ []) (hd : ∀ ch ∈ ds, ch.isDigit) :
    pyInt ds = (pyDigits ds).map Int.ofNat := by
  have hws : ∀ ch ∈ ds, pyWs ch = false :=
    fun ch hch => (digit_not_special ch (hd ch hch)).1
  have hstrip : ((ds.dropWhile pyWs).reverse.dropWhile pyWs).reverse = ds := by
    rw [dropWhile_all_false pyWs ds hws,
        dropWhile_all_false pyWs ds.reverse (fun ch hch => hws ch (List.mem_reverse.mp hch)),
        List.reverse_reverse]
  cases ds with
  | nil => exact absurd rfl hne
  | cons c cs =>
    have hc := digit_not_special c (hd c (List.mem_cons_self _ _))
    unfold pyInt
    rw [hstrip]
    split
    · next heq =>
      rw [List.cons.injEq] at heq
      exact absurd heq.1 hc.2.1
    · next heq =>
      rw [List.cons.injEq] at heq
      exact absurd heq.1 hc.2.2.1
    · rfl

theorem splitFirst_append (sep : Char) (ds rest : List Char) (h : sep ∉ ds) :
    splitFirst sep (ds ++ sep :: rest) = some (ds, rest) := by
  induction ds with
  | nil =>
    simp [splitFirst]
  | cons c cs ih =>
    have hc : c ≠ sep := by
      intro he
      exact h (by rw [he]; exact List.mem_cons_self _ _)
    simp only [List.cons_append, splitFirst]
    rw [if_neg (by intro he; exact hc he)]
    rw [show cs.append (sep :: rest) = cs ++ sep :: rest from rfl]
    rw [ih (fun hm => h (List.mem_cons_of_mem _ hm))]
    rfl

theorem pySplitlines_single (line : List Char) (hne : line ≠ [])
    (hline : ∀ ch ∈ line, isLineBreak ch = false) :
    pySplitlines line = [line] := by
  cases line with
  | nil => exact absurd rfl hne
  | cons c cs =>
    show pySplitlinesAux (c :: cs).length (c :: cs) = [c :: cs]
    rw [List.length_cons]
    unfold pySplitlinesAux
    simp only []
    rw [takeWhile_all_no_break _ hline]
    rw [List.drop_length]

theorem pySplitlines_cons (line rest : List Char)
    (hline : ∀ ch ∈ line, isLineBreak ch = false) :
    pySplitlines (line ++ '\n' :: rest) = line :: pySplitlines rest := by
  cases hl : line with
  | nil =>
    show pySplitlinesAux ('\n' :: rest).length ('\n' :: rest) = [] :: pySplitlines rest
    rw [List.length_cons]
    unfold pySplitlinesAux
    simp only []
    have htw : ('\n' :: rest).takeWhile (fun ch => !(isLineBreak ch)) = [] := by
      rw [List.takeWhile_cons, if_neg (by decide)]
    rw [htw]
    simp only [List.length_nil, List.drop_zero]
    rw [if_neg (by simp)]
    rw [pySplitlinesAux_fuel rest.length rest.length rest (le_refl _) (le_refl _)]
    rfl
  | cons c cs =>
    subst hl
    show pySplitlinesAux ((c :: cs) ++ '\n' :: rest).length ((c :: cs) ++ '\n' :: rest) =
      (c :: cs) :: pySplitlines rest
    rw [List.cons_append]
    rw [show (c :: (cs ++ '\n' :: rest)).length = (cs ++ '\n' :: rest).length + 1 from by simp]
    unfold pySplitlinesAux
    simp only []
    rw [show c :: (cs ++ '\n' :: rest) = (c :: cs) ++ '\n' :: rest from rfl]
    rw [takeWhile_no_break (c :: cs) rest '\n' (by decide) hline]
    rw [List.drop_left]
    show (c :: cs) :: pySplitlinesAux (cs ++ '\n' :: rest).length
        (if ('\n' : Char) = '\r' ∧ rest.head? = some '\n' then rest.tail else rest) =
      (c :: cs) :: pySplitlines rest
    rw [if_neg (by simp)]
    have hfl : rest.length ≤ (cs ++ '\n' :: rest).length := by simp; omega
    rw [pySplitlinesAux_fuel (cs ++ '\n' :: rest).length rest.length rest hfl (le_refl _)]
    rfl

theorem no_break_of_digit (ch : Char) (h : ch.isDigit = true) :
    isLineBreak ch = false := by
  simp only [isLineBreak, decide_eq_false_iff_not]
  push_neg
  refine ⟨?_, ?_, ?_, ?_, ?_, ?_, ?_, ?_, ?_, ?_⟩ <;>
    (intro he; subst he; simp [Char.isDigit] at h)

theorem loadLines_skip (line : List Char) (rest : List (List Char))
    (hlm : line.head? ≠ some '●') :
    loadLines (line :: rest) = loadLines rest := by
  simp only [loadLines]
  rw [if_neg hlm]

theorem loadLines_marker (ds txt : List Char) (rest : List (List Char)) (v : Nat)
    (hne : ds ≠ []) (hd : ∀ ch ∈ ds, ch.isDigit) (hv : pyDigits ds = some v) :
    loadLines (('●' :: ds ++ '●' :: txt) :: rest) =
      ((v : Int), String.mk (if txt.head? = some ' ' then txt.drop 1 else txt)) ::
        loadLines rest := by
  have hsep : '●' ∉ ds := by
    intro hm
    exact (digit_not_special _ (hd _ hm)).2.2.2 rfl
  simp only [loadLines]
  rw [if_pos (show (('●' :: ds ++ '●' :: txt) : List Char).head? = some '●' from rfl)]
  rw [show List.drop 1 ('●' :: ds ++ '●' :: txt) = ds ++ '●' :: txt from rfl]
  rw [splitFirst_append '●' ds txt hsep]
  show (match pyInt ds with
        | none => loadLines rest
        | some idx =>
          (idx, String.mk (if txt.head? = some ' ' then txt.drop 1 else txt)) ::
            loadLines rest) = _
  rw [pyInt_digits ds hne hd, hv]
  rfl

/-- C9: the mapping parser keeps exactly the lines that begin with the `●`
marker; the digits between the two markers give the index; exactly one
optional space after the closing marker is stripped while every further
leading or trailing whitespace of the replacement text is preserved (the
text `txt` below is arbitrary within one line — free of the `splitlines`
boundary characters, since any of those would end the line — so it may
begin or end with spaces or tabs); non-matching lines contribute nothing;
and when an index occurs on several lines the last occurrence wins. -/
theorem C9_load_mapping (ds txt l : List Char) (v : Nat)
    (hne : ds ≠ []) (hd : ∀ ch ∈ ds, ch.isDigit)
    (hval : pyDigits ds = some v)
    (htxt : ∀ ch ∈ txt, isLineBreak ch = false)
    (hl : ∀ ch ∈ l, isLineBreak ch = false) (hlm : l.head? ≠ some '●')
    (hns : txt.head? ≠ some ' ') :
    load_mapping (String.mk ('●' :: ds ++ '●' :: ' ' :: txt)) = [((v : Int), String.mk txt)] ∧
    load_mapping (String.mk ('●' :: ds ++ '●' :: txt)) = [((v : Int), String.mk txt)] ∧
    load_mapping (String.mk (l ++ '\n' :: ('●' :: ds ++ '●' :: ' ' :: txt))) =
      [((v : Int), String.mk txt)] ∧
    dictGet (load_mapping (String.mk (('●' :: ds ++ '●' :: ' ' :: l) ++ '\n' ::
      ('●' :: ds ++ '●' :: ' ' :: txt)))) (v : Int) =
      some (String.mk txt) := by
  have hdsNB : ∀ ch ∈ ds, isLineBreak ch = false :=
    fun ch hch => no_break_of_digit ch (hd ch hch)
  have hm1 : ∀ ch ∈ ('●' :: ds ++ '●' :: ' ' :: txt : List Char), isLineBreak ch = false := by
    intro ch hch
    simp only [List.cons_append, List.mem_cons, List.mem_append] at hch
    rcases hch with h | h | h
    · subst h; decide
    · exact hdsNB ch h
    · rcases h with h | h | h
      · subst h; decide
      · subst h; decide
      · exact htxt ch h
  have hm2 : ∀ ch ∈ ('●' :: ds ++ '●' :: txt : List Char), isLineBreak ch = false := by
    intro ch hch
    simp only [List.cons_append, List.mem_cons, List.mem_append] at hch
    rcases hch with h | h | h
    · subst h; decide
    · exact hdsNB ch h
    · rcases h with h | h
      · subst h; decide
      · exact htxt ch h
  have hm3 : ∀ ch ∈ ('●' :: ds ++ '●' :: ' ' :: l : List Char), isLineBreak ch = false := by
    intro ch hch
    simp only [List.cons_append, List.mem_cons, List.mem_append] at hch
    rcases hch with h | h | h
    · subst h; decide
    · exact hdsNB ch h
    · rcases h with h | h | h
      · subst h; decide
      · subst h; decide
      · exact hl ch h
  have hstrip1 : (if (' ' :: txt : List Char).head? = some ' '
      then (' ' :: txt).drop 1 else ' ' :: txt) = txt := by
    simp
  have hstrip2 : (if txt.head? = some ' ' then txt.drop 1 else txt) = txt := by
    rw [if_neg hns]
  have hstrip3 : (if (' ' :: l : List Char).head? = some ' '
      then (' ' :: l).drop 1 else ' ' :: l) = l := by
    simp
  refine ⟨?_, ?_, ?_, ?_⟩
  · show loadLines (pySplitlines ('●' :: ds ++ '●' :: ' ' :: txt)) = _
    rw [pySplitlines_single _ (by simp) hm1]
    rw [loadLines_marker ds (' ' :: txt) [] v hne hd hval, hstrip1]
    rfl
  · show loadLines (pySplitlines ('●' :: ds ++ '●' :: txt)) = _
    rw [pySplitlines_single _ (by simp) hm2]
    rw [loadLines_marker ds txt [] v hne hd hval, hstrip2]
    rfl
  · show loadLines (pySplitlines (l ++ '\n' :: ('●' :: ds ++ '●' :: ' ' :: txt))) = _
    rw [pySplitlines_cons l _ hl]
    rw [pySplitlines_single _ (by simp) hm1]
    rw [loadLines_skip l _ hlm]
    rw [loadLines_marker ds (' ' :: txt) [] v hne hd hval, hstrip1]
    rfl
  · show dictGet (loadLines (pySplitlines (('●' :: ds ++ '●' :: ' ' :: l) ++ '\n' ::
      ('●' :: ds ++ '●' :: ' ' :: txt)))) (v : Int) = _
    rw [pySplitlines_cons _ _ hm3]
    rw [pySplitlines_single _ (by simp) hm1]
    rw [loadLines_marker ds (' ' :: l) [('●' :: ds ++ '●' :: ' ' :: txt)] v hne hd hval,
        hstrip3]
    rw [loadLines_marker ds (' ' :: txt) [] v hne hd hval, hstrip1]
    simp [dictGet]

/-- Witness for `C9_load_mapping`: index digits `00042`, replacement text
`"hi "` (trailing space preserved), ignored line `"# x"`, duplicate first
value `"old"`. -/
theorem C9_load_mapping_witness :
    load_mapping (String.mk ('●' :: ['0', '0', '0', '4', '2'] ++ '●' :: ' ' ::
      ['h', 'i', ' '])) = [((42 : Int), String.mk ['h', 'i', ' '])] ∧
    load_mapping (String.mk ('●' :: ['0', '0', '0', '4', '2'] ++ '●' ::
      ['h', 'i', ' '])) = [((42 : Int), String.mk ['h', 'i', ' '])] ∧
    load_mapping (String.mk (['#', ' ', 'x'] ++ '\n' :: ('●' :: ['0', '0', '0', '4', '2'] ++
      '●' :: ' ' :: ['h', 'i', ' ']))) = [((42 : Int), String.mk ['h', 'i', ' '])] ∧
    dictGet (load_mapping (String.mk (('●' :: ['0', '0', '0', '4', '2'] ++ '●' :: ' ' ::
      ['o', 'l', 'd']) ++ '\n' :: ('●' :: ['0', '0', '0', '4', '2'] ++ '●' :: ' ' ::
      ['h', 'i', ' '])))) (42 : Int) = some (String.mk ['h', 'i', ' ']) :=
  C9_load_mapping ['0', '0', '0', '4', '2'] ['h', 'i', ' '] ['#', ' ', 'x'] 42
    (by decide) (by decide) (by decide) (by decide) (by decide) (by decide) (by decide)

theorem map_ok {α β : Type} (a : α) (f : α → β) :
    (Except.ok a : Except PErr α).map f = .ok (f a) := rfl

theorem map_err {α β : Type} (e : PErr) (f : α → β) :
    (Except.error e : Except PErr α).map f = .error e := rfl

/-- Peel one shared step off a plain/instrumented bind pair. -/
theorem bind_proj {α β β' : Type} (projB : β' → β) (m : Except PErr α)
    (f : α → Except PErr β) (g : α → Except PErr β')
    (h : ∀ a, f a = (g a).map projB) :
    (m >>= f) = (m >>= g).map projB := by
  cases m with
  | error e => rfl
  | ok a => exact h a

/-- Peel one already-projected step off a plain/instrumented bind pair. -/
theorem map_bind_proj {α α' β β' : Type} (projA : α' → α) (projB : β' → β)
    (mT : Except PErr α') (f : α → Except PErr β) (g : α' → Except PErr β')
    (h : ∀ a, f (projA a) = (g a).map projB) :
    (mT.map projA >>= f) = (mT >>= g).map projB := by
  cases mT with
  | error e => rfl
  | ok a => exact h a

/-- Forget the extraction trace. -/
def projE (r : Nat × List String × Int × List (Int × String)) :
    Nat × List String × Int :=
  (r.1, r.2.1, r.2.2.1)

/-- Forget the lookup trace. -/
def projP (r : Nat × List Nat × Int × List Int) : Nat × List Nat × Int :=
  (r.1, r.2.1, r.2.2.1)

theorem Ext.constLoop_proj (c : Chk) (dec : List Nat → String) :
    ∀ k pos cnt, constLoop c dec k pos cnt = (constLoopT c dec k pos cnt).map projE := by
  intro k
  induction k with
  | zero => intro pos cnt; rfl
  | succ k ih =>
    intro pos cnt
    simp only [constLoop, constLoopT]
    refine bind_proj projE _ _ _ (fun t => ?_)
    by_cases h0 : t = 0
    · rw [if_pos h0, if_pos h0]; exact ih _ _
    rw [if_neg h0, if_neg h0]
    by_cases h1 : t = 1
    · rw [if_pos h1, if_pos h1]; exact ih _ _
    rw [if_neg h1, if_neg h1]
    by_cases h3 : t = 3
    · rw [if_pos h3, if_pos h3]; exact ih _ _
    rw [if_neg h3, if_neg h3]
    by_cases h4 : t = 4
    · rw [if_pos h4, if_pos h4]
      refine bind_proj projE _ _ _ (fun a => ?_)
      obtain ⟨s, pos1⟩ := a
      cases s with
      | none => exact ih _ _
      | some raw =>
        rw [ih]
        refine map_bind_proj projE projE _ _ _ (fun a => ?_)
        obtain ⟨p, o, cn, tr⟩ := a
        rfl
    · rw [if_neg h4, if_neg h4]
      rfl

theorem Ext.childLoop_proj
    (step : Nat → Int → Except PErr (Nat × List String × Int))
    (stepT : Nat → Int → Except PErr (Nat × List String × Int × List (Int × String)))
    (hstep : ∀ pos cnt, step pos cnt = (stepT pos cnt).map projE) :
    ∀ n pos cnt, childLoop step n pos cnt = (childLoopT stepT n pos cnt).map projE := by
  intro n
  induction n with
  | zero => intro pos cnt; rfl
  | succ n ih =>
    intro pos cnt
    simp only [childLoop, childLoopT]
    rw [hstep]
    refine map_bind_proj projE projE _ _ _ (fun a => ?_)
    obtain ⟨pos1, o1, cnt1, t1⟩ := a
    rw [ih]
    refine map_bind_proj projE projE _ _ _ (fun a => ?_)
    obtain ⟨pos2, o2, cnt2, t2⟩ := a
    rfl

theorem Ext.process_proto_proj (c : Chk) (dec : List Nat → String) :
    ∀ fuel pos cnt, process_proto c dec fuel pos cnt =
      (process_protoT c dec fuel pos cnt).map projE := by
  intro fuel
  induction fuel with
  | zero => intro pos cnt; rfl
  | succ fuel ih =>
    intro pos cnt
    simp only [process_proto, process_protoT]
    refine bind_proj projE _ _ _ (fun a => ?_)
    obtain ⟨s0, pos0⟩ := a
    refine bind_proj projE _ _ _ (fun a => ?_)
    obtain ⟨a1, pos1⟩ := a
    refine bind_proj projE _ _ _ (fun a => ?_)
    obtain ⟨a2, pos2⟩ := a
    refine bind_proj projE _ _ _ (fun a => ?_)
    obtain ⟨sizecode, pos3⟩ := a
    refine bind_proj projE _ _ _ (fun ncode => ?_)
    refine bind_proj projE _ _ _ (fun a => ?_)
    obtain ⟨sizek, pos4⟩ := a
    rw [constLoop_proj]
    refine map_bind_proj projE projE _ _ _ (fun a => ?_)
    obtain ⟨pos5, o1, cnt1, t1⟩ := a
    refine bind_proj projE _ _ _ (fun a => ?_)
    obtain ⟨sizep, pos6⟩ := a
    rw [childLoop_proj (process_proto c dec fuel) (process_protoT c dec fuel) (fun p cn => ih p cn)]
    refine map_bind_proj projE projE _ _ _ (fun a => ?_)
    obtain ⟨pos7, o2, cnt2, t2⟩ := a
    refine bind_proj projE _ _ _ (fun a => ?_)
    obtain ⟨sizeli, pos8⟩ := a
    refine bind_proj projE _ _ _ (fun nli => ?_)
    refine bind_proj projE _ _ _ (fun a => ?_)
    obtain ⟨sizelv, pos9⟩ := a
    refine bind_proj projE _ _ _ (fun pos10 => ?_)
    refine bind_proj projE _ _ _ (fun a => ?_)
    obtain ⟨sizeup, pos11⟩ := a
    refine bind_proj projE _ _ _ (fun pos12 => ?_)
    rfl

theorem Imp.constLoop_projP (c : Chk) (mapping : List (Int × String))
    (dec : List Nat → String) (enc : String → Except PErr (List Nat)) :
    ∀ k pos cnt, constLoop c mapping dec enc k pos cnt =
      (constLoopT c mapping dec enc k pos cnt).map projP := by
  intro k
  induction k with
  | zero => intro pos cnt; rfl
  | succ k ih =>
    intro pos cnt
    simp only [constLoop, constLoopT]
    refine bind_proj projP _ _ _ (fun t => ?_)
    by_cases h0 : t = 0
    · rw [if_pos h0, if_pos h0]
      rw [ih]
      refine map_bind_proj projP projP _ _ _ (fun a => ?_)
      obtain ⟨p, o, cn, tr⟩ := a
      rfl
    rw [if_neg h0, if_neg h0]
    by_cases h1 : t = 1
    · rw [if_pos h1, if_pos h1]
      rw [ih]
      refine map_bind_proj projP projP _ _ _ (fun a => ?_)
      obtain ⟨p, o, cn, tr⟩ := a
      rfl
    rw [if_neg h1, if_neg h1]
    by_cases h3 : t = 3
    · rw [if_pos h3, if_pos h3]
      rw [ih]
      refine map_bind_proj projP projP _ _ _ (fun a => ?_)
      obtain ⟨p, o, cn, tr⟩ := a
      rfl
    rw [if_neg h3, if_neg h3]
    by_cases h4 : t = 4
    · rw [if_pos h4, if_pos h4]
      refine bind_proj projP _ _ _ (fun a => ?_)
      obtain ⟨s, pos1⟩ := a
      cases s with
      | none =>
        refine bind_proj projP _ _ _ (fun w => ?_)
        rw [ih]
        refine map_bind_proj projP projP _ _ _ (fun a => ?_)
        obtain ⟨p, o, cn, tr⟩ := a
        rfl
      | some raw =>
        refine bind_proj projP _ _ _ (fun s2 => ?_)
        refine bind_proj projP _ _ _ (fun w => ?_)
        rw [ih]
        refine map_bind_proj projP projP _ _ _ (fun a => ?_)
        obtain ⟨p, o, cn, tr⟩ := a
        rfl
    · rw [if_neg h4, if_neg h4]
      rfl

theorem Imp.childLoop_projP
    (step : Nat → Int → Except PErr (Nat × List Nat × Int))
    (stepT : Nat → Int → Except PErr (Nat × List Nat × Int × List Int))
    (hstep : ∀ pos cnt, step pos cnt = (stepT pos cnt).map projP) :
    ∀ n pos cnt, childLoop step n pos cnt = (childLoopT stepT n pos cnt).map projP := by
  intro n
  induction n with
  | zero => intro pos cnt; rfl
  | succ n ih =>
    intro pos cnt
    simp only [childLoop, childLoopT]
    rw [hstep]
    refine map_bind_proj projP projP _ _ _ (fun a => ?_)
    obtain ⟨pos1, o1, cnt1, t1⟩ := a
    rw [ih]
    refine map_bind_proj projP projP _ _ _ (fun a => ?_)
    obtain ⟨pos2, o2, cnt2, t2⟩ := a
    rfl

theorem Imp.process_proto_projP (c : Chk) (mapping : List (Int × String))
    (dec : List Nat → String) (enc : String → Except PErr (List Nat)) :
    ∀ fuel pos cnt, process_proto c mapping dec enc fuel pos cnt =
      (process_protoT c mapping dec enc fuel pos cnt).map projP := by
  intro fuel
  induction fuel with
  | zero => intro pos cnt; rfl
  | succ fuel ih =>
    intro pos cnt
    simp only [process_proto, process_protoT]
    refine bind_proj projP _ _ _ (fun a => ?_)
    obtain ⟨name, pos0⟩ := a
    refine bind_proj projP _ _ _ (fun wname => ?_)
    refine bind_proj projP _ _ _ (fun a => ?_)
    obtain ⟨a1, pos1⟩ := a
    refine bind_proj projP _ _ _ (fun a => ?_)
    obtain ⟨a2, pos2⟩ := a
    refine bind_proj projP _ _ _ (fun wa => ?_)
    refine bind_proj projP _ _ _ (fun wb => ?_)
    refine bind_proj projP _ _ _ (fun a => ?_)
    obtain ⟨sizecode, pos3⟩ := a
    refine bind_proj projP _ _ _ (fun wsc => ?_)
    refine bind_proj projP _ _ _ (fun ncode => ?_)
    refine bind_proj projP _ _ _ (fun a => ?_)
    obtain ⟨sizek, pos4⟩ := a
    refine bind_proj projP _ _ _ (fun wsk => ?_)
    rw [Imp.constLoop_projP]
    refine map_bind_proj projP projP _ _ _ (fun a => ?_)
    obtain ⟨pos5, oK, cnt1, t1⟩ := a
    refine bind_proj projP _ _ _ (fun a => ?_)
    obtain ⟨sizep, pos6⟩ := a
    refine bind_proj projP _ _ _ (fun wsp => ?_)
    rw [Imp.childLoop_projP (process_proto c mapping dec enc fuel)
          (process_protoT c mapping dec enc fuel) (fun p cn => ih p cn)]
    refine map_bind_proj projP projP _ _ _ (fun a => ?_)
    obtain ⟨pos7, oP, cnt2, t2⟩ := a
    refine bind_proj projP _ _ _ (fun a => ?_)
    obtain ⟨sizeli, pos8⟩ := a
    refine bind_proj projP _ _ _ (fun wsli => ?_)
    refine bind_proj projP _ _ _ (fun nli => ?_)
    refine bind_proj projP _ _ _ (fun a => ?_)
    obtain ⟨sizelv, pos9⟩ := a
    refine bind_proj projP _ _ _ (fun wslv => ?_)
    refine bind_proj projP _ _ _ (fun a => ?_)
    obtain ⟨pos10, oLV⟩ := a
    refine bind_proj projP _ _ _ (fun a => ?_)
    obtain ⟨sizeup, pos11⟩ := a
    refine bind_proj projP _ _ _ (fun wsup => ?_)
    refine bind_proj projP _ _ _ (fun a => ?_)
    obtain ⟨pos12, oUp⟩ := a
    rfl

/-- On a constant table both walkers advance their cursor and counter in
lockstep, and the patch pass looks up exactly the indices the extraction
pass emits. -/
theorem trace_agree_consts (c : Chk) (dec : List Nat → String)
    (m : List (Int × String)) (enc : String → Except PErr (List Nat)) :
    ∀ k pos cnt p1 o1 c1 t1 p2 o2 c2 t2,
      Ext.constLoopT c dec k pos cnt = .ok (p1, o1, c1, t1) →
      Imp.constLoopT c m dec enc k pos cnt = .ok (p2, o2, c2, t2) →
      p2 = p1 ∧ c2 = c1 ∧ t2 = t1.map Prod.fst := by
  intro k
  induction k with
  | zero =>
    intro pos cnt p1 o1 c1 t1 p2 o2 c2 t2 hE hP
    simp only [Ext.constLoopT, Except.ok.injEq, Prod.mk.injEq] at hE
    simp only [Imp.constLoopT, Except.ok.injEq, Prod.mk.injEq] at hP
    obtain ⟨e1, _, e2, e3⟩ := hE
    obtain ⟨f1, _, f2, f3⟩ := hP
    subst e1; subst e2; subst e3; subst f1; subst f2; subst f3
    exact ⟨rfl, rfl, rfl⟩
  | succ k ih =>
    intro pos cnt p1 o1 c1 t1 p2 o2 c2 t2 hE hP
    simp only [Ext.constLoopT] at hE
    simp only [Imp.constLoopT] at hP
    cases ht : pyIndex c.data pos with
    | error e => rw [ht, bind_err] at hE; simp at hE
    | ok t =>
      rw [ht, bind_ok] at hE hP
      by_cases h0 : t = 0
      · rw [if_pos h0] at hE hP
        cases hK : Imp.constLoopT c m dec enc k (pos + 1) cnt with
        | error e => rw [hK, bind_err] at hP; simp at hP
        | ok r =>
          obtain ⟨p, o, cn, tr⟩ := r
          rw [hK, bind_ok] at hP
          simp only [Except.ok.injEq, Prod.mk.injEq] at hP
          obtain ⟨hp2, _, hc2, ht2⟩ := hP
          subst hp2; subst hc2; subst ht2
          exact ih _ _ _ _ _ _ _ _ _ _ hE hK
      rw [if_neg h0] at hE hP
      by_cases h1 : t = 1
      · rw [if_pos h1] at hE hP
        cases hK : Imp.constLoopT c m dec enc k (pos + 1 + 1) cnt with
        | error e => rw [hK, bind_err] at hP; simp at hP
        | ok r =>
          obtain ⟨p, o, cn, tr⟩ := r
          rw [hK, bind_ok] at hP
          simp only [Except.ok.injEq, Prod.mk.injEq] at hP
          obtain ⟨hp2, _, hc2, ht2⟩ := hP
          subst hp2; subst hc2; subst ht2
          exact ih _ _ _ _ _ _ _ _ _ _ hE hK
      rw [if_neg h1] at hE hP
      by_cases h3 : t = 3
      · rw [if_pos h3] at hE hP
        cases hK : Imp.constLoopT c m dec enc k (pos + 1 + c.number_size) cnt with
        | error e => rw [hK, bind_err] at hP; simp at hP
        | ok r =>
          obtain ⟨p, o, cn, tr⟩ := r
          rw [hK, bind_ok] at hP
          simp only [Except.ok.injEq, Prod.mk.injEq] at hP
          obtain ⟨hp2, _, hc2, ht2⟩ := hP
          subst hp2; subst hc2; subst ht2
          exact ih _ _ _ _ _ _ _ _ _ _ hE hK
      rw [if_neg h3] at hE hP
      by_cases h4 : t = 4
      · rw [if_pos h4] at hE hP
        cases hs : read_lstring c.data c.endian c.size_t_size (pos + 1) with
        | error e => rw [hs, bind_err] at hE; simp at hE
        | ok a =>
          obtain ⟨s, pos1⟩ := a
          rw [hs, bind_ok] at hE hP
          cases s with
          | none =>
            simp only [] at hE hP
            cases hw : write_lstring c.endian c.size_t_size none with
            | error e => rw [hw, bind_err] at hP; simp at hP
            | ok w =>
              rw [hw, bind_ok] at hP
              cases hK : Imp.constLoopT c m dec enc k pos1 cnt with
              | error e => rw [hK, bind_err] at hP; simp at hP
              | ok r =>
                obtain ⟨p, o, cn, tr⟩ := r
                rw [hK, bind_ok] at hP
                simp only [Except.ok.injEq, Prod.mk.injEq] at hP
                obtain ⟨hp2, _, hc2, ht2⟩ := hP
                subst hp2; subst hc2; subst ht2
                exact ih _ _ _ _ _ _ _ _ _ _ hE hK
          | some raw =>
            simp only [] at hE hP
            cases hpc : patch_const_string raw (cnt + 1) m dec enc with
            | error e => rw [hpc, bind_err] at hP; simp at hP
            | ok s2 =>
              rw [hpc, bind_ok] at hP
              cases hw : write_lstring c.endian c.size_t_size (some s2) with
              | error e => rw [hw, bind_err] at hP; simp at hP
              | ok w =>
                rw [hw, bind_ok] at hP
                cases hKE : Ext.constLoopT c dec k pos1 (cnt + 1) with
                | error e => rw [hKE, bind_err] at hE; simp at hE
                | ok rE =>
                  obtain ⟨pE, oE, cnE, trE⟩ := rE
                  rw [hKE, bind_ok] at hE
                  cases hK : Imp.constLoopT c m dec enc k pos1 (cnt + 1) with
                  | error e => rw [hK, bind_err] at hP; simp at hP
                  | ok r =>
                    obtain ⟨p, o, cn, tr⟩ := r
                    rw [hK, bind_ok] at hP
                    simp only [Except.ok.injEq, Prod.mk.injEq] at hE hP
                    obtain ⟨he1, _, he2, he3⟩ := hE
                    obtain ⟨hp2, _, hc2, ht2⟩ := hP
                    subst he1; subst he2; subst he3
                    subst hp2; subst hc2; subst ht2
                    obtain ⟨g1, g2, g3⟩ := ih _ _ _ _ _ _ _ _ _ _ hKE hK
                    subst g1; subst g2; subst g3
                    exact ⟨rfl, rfl, rfl⟩
      · rw [if_neg h4] at hE
        simp at hE

/-- Both walkers advance identically over the local-variable records (the
extraction pass skips the two ints unchecked, the patch pass reads them). -/
theorem trace_agree_locvars (c : Chk) :
    ∀ k pos p1 p2 o,
      Ext.locvarLoop c k pos = .ok p1 →
      Imp.locvarLoop c k pos = .ok (p2, o) → p2 = p1 := by
  intro k
  induction k with
  | zero =>
    intro pos p1 p2 o hE hP
    simp only [Ext.locvarLoop, Except.ok.injEq] at hE
    simp only [Imp.locvarLoop, Except.ok.injEq, Prod.mk.injEq] at hP
    omega
  | succ k ih =>
    intro pos p1 p2 o hE hP
    simp only [Ext.locvarLoop] at hE
    simp only [Imp.locvarLoop] at hP
    cases hs : read_lstring c.data c.endian c.size_t_size pos with
    | error e => rw [hs, bind_err] at hE; simp at hE
    | ok a =>
      obtain ⟨s, pos1⟩ := a
      rw [hs, bind_ok] at hE hP
      cases hw : write_lstring c.endian c.size_t_size s with
      | error e => rw [hw, bind_err] at hP; simp at hP
      | ok w =>
        rw [hw, bind_ok] at hP
        cases hr1 : read_int c.data c.endian c.int_size pos1 with
        | error e => rw [hr1, bind_err] at hP; simp at hP
        | ok a =>
          obtain ⟨a1, pos2⟩ := a
          rw [hr1, bind_ok] at hP
          cases hr2 : read_int c.data c.endian c.int_size pos2 with
          | error e => rw [hr2, bind_err] at hP; simp at hP
          | ok a =>
            obtain ⟨a2, pos3⟩ := a
            rw [hr2, bind_ok] at hP
            cases hwa : write_int c.endian c.int_size a1 with
            | error e => rw [hwa, bind_err] at hP; simp at hP
            | ok wa =>
              rw [hwa, bind_ok] at hP
              cases hwb : write_int c.endian c.int_size a2 with
              | error e => rw [hwb, bind_err] at hP; simp at hP
              | ok wb =>
                rw [hwb, bind_ok] at hP
                cases hK : Imp.locvarLoop c k pos3 with
                | error e => rw [hK, bind_err] at hP; simp at hP
                | ok r =>
                  obtain ⟨p, o2⟩ := r
                  rw [hK, bind_ok] at hP
                  simp only [Except.ok.injEq, Prod.mk.injEq] at hP
                  obtain ⟨hp2, _⟩ := hP
                  subst hp2
                  obtain ⟨_, e1, _⟩ := read_int_ok _ _ _ _ _ _ hr1
                  obtain ⟨_, e2, _⟩ := read_int_ok _ _ _ _ _ _ hr2
                  have hpe : pos1 + c.int_size * 2 = pos3 := by omega
                  rw [hpe] at hE
                  exact ih _ _ _ _ hE hK

/-- Both walkers advance identically over the upvalue names. -/
theorem trace_agree_upvals (c : Chk) :
    ∀ k pos p1 p2 o,
      Ext.upvalLoop c k pos = .ok p1 →
      Imp.upvalLoop c k pos = .ok (p2, o) → p2 = p1 := by
  intro k
  induction k with
  | zero =>
    intro pos p1 p2 o hE hP
    simp only [Ext.upvalLoop, Except.ok.injEq] at hE
    simp only [Imp.upvalLoop, Except.ok.injEq, Prod.mk.injEq] at hP
    omega
  | succ k ih =>
    intro pos p1 p2 o hE hP
    simp only [Ext.upvalLoop] at hE
    simp only [Imp.upvalLoop] at hP
    cases hs : read_lstring c.data c.endian c.size_t_size pos with
    | error e => rw [hs, bind_err] at hE; simp at hE
    | ok a =>
      obtain ⟨s, pos1⟩ := a
      rw [hs, bind_ok] at hE hP
      cases hw : write_lstring c.endian c.size_t_size s with
      | error e => rw [hw, bind_err] at hP; simp at hP
      | ok w =>
        rw [hw, bind_ok] at hP
        cases hK : Imp.upvalLoop c k pos1 with
        | error e => rw [hK, bind_err] at hP; simp at hP
        | ok r =>
          obtain ⟨p, o2⟩ := r
          rw [hK, bind_ok] at hP
          simp only [Except.ok.injEq, Prod.mk.injEq] at hP
          obtain ⟨hp2, _⟩ := hP
          subst hp2
          exact ih _ _ _ _ hE hK

/-- Child loops of the two walkers stay in lockstep when every child does. -/
theorem trace_agree_children
    (stepE : Nat → Int → Except PErr (Nat × List String × Int × List (Int × String)))
    (stepP : Nat → Int → Except PErr (Nat × List Nat × Int × List Int))
    (hstep : ∀ pos cnt p1 o1 c1 t1 p2 o2 c2 t2,
      stepE pos cnt = .ok (p1, o1, c1, t1) → stepP pos cnt = .ok (p2, o2, c2, t2) →
      p2 = p1 ∧ c2 = c1 ∧ t2 = t1.map Prod.fst) :
    ∀ n pos cnt p1 o1 c1 t1 p2 o2 c2 t2,
      Ext.childLoopT stepE n pos cnt = .ok (p1, o1, c1, t1) →
      Imp.childLoopT stepP n pos cnt = .ok (p2, o2, c2, t2) →
      p2 = p1 ∧ c2 = c1 ∧ t2 = t1.map Prod.fst := by
  intro n
  induction n with
  | zero =>
    intro pos cnt p1 o1 c1 t1 p2 o2 c2 t2 hE hP
    simp only [Ext.childLoopT, Except.ok.injEq, Prod.mk.injEq] at hE
    simp only [Imp.childLoopT, Except.ok.injEq, Prod.mk.injEq] at hP
    obtain ⟨e1, _, e2, e3⟩ := hE
    obtain ⟨f1, _, f2, f3⟩ := hP
    subst e1; subst e2; subst e3; subst f1; subst f2; subst f3
    exact ⟨rfl, rfl, rfl⟩
  | succ n ih =>
    intro pos cnt p1 o1 c1 t1 p2 o2 c2 t2 hE hP
    simp only [Ext.childLoopT] at hE
    simp only [Imp.childLoopT] at hP
    cases hsE : stepE pos cnt with
    | error e => rw [hsE, bind_err] at hE; simp at hE
    | ok rE =>
      obtain ⟨posE, oE, cntE, trE⟩ := rE
      rw [hsE, bind_ok] at hE
      cases hsP : stepP pos cnt with
      | error e => rw [hsP, bind_err] at hP; simp at hP
      | ok rP =>
        obtain ⟨posP, oP, cntP, trP⟩ := rP
        rw [hsP, bind_ok] at hP
        obtain ⟨g1, g2, g3⟩ := hstep _ _ _ _ _ _ _ _ _ _ hsE hsP
        subst g1; subst g2; subst g3
        cases hKE : Ext.childLoopT stepE n posP cntP with
        | error e => rw [hKE, bind_err] at hE; simp at hE
        | ok rE2 =>
          obtain ⟨pE2, oE2, cE2, tE2⟩ := rE2
          rw [hKE, bind_ok] at hE
          cases hKP : Imp.childLoopT stepP n posP cntP with
          | error e => rw [hKP, bind_err] at hP; simp at hP
          | ok rP2 =>
            obtain ⟨pP2, oP2, cP2, tP2⟩ := rP2
            rw [hKP, bind_ok] at hP
            simp only [Except.ok.injEq, Prod.mk.injEq] at hE hP
            obtain ⟨he1, _, he2, he3⟩ := hE
            obtain ⟨hf1, _, hf2, hf3⟩ := hP
            subst he1; subst he2; subst he3
            subst hf1; subst hf2; subst hf3
            obtain ⟨g1, g2, g3⟩ := ih _ _ _ _ _ _ _ _ _ _ hKE hKP
            subst g1; subst g2; subst g3
            simp

/-- Core of the index-stability invariant: whenever both walkers complete on
the same chunk region from the same start state, they end at the same
cursor with the same counter, and the patch walker's lookup sequence is
exactly the index sequence of the extraction walker's emissions. -/
theorem trace_agree_proto (c : Chk) (dec : List Nat → String)
    (m : List (Int × String)) (enc : String → Except PErr (List Nat)) :
    ∀ f1 f2 pos cnt p1 o1 c1 t1 p2 o2 c2 t2,
      Ext.process_protoT c dec f1 pos cnt = .ok (p1, o1, c1, t1) →
      Imp.process_protoT c m dec enc f2 pos cnt = .ok (p2, o2, c2, t2) →
      p2 = p1 ∧ c2 = c1 ∧ t2 = t1.map Prod.fst := by
  intro f1
  induction f1 with
  | zero =>
    intro f2 pos cnt p1 o1 c1 t1 p2 o2 c2 t2 hE hP
    simp only [Ext.process_protoT] at hE
    simp at hE
  | succ f1 ih =>
    intro f2 pos cnt p1 o1 c1 t1 p2 o2 c2 t2 hE hP
    cases f2 with
    | zero => simp only [Imp.process_protoT] at hP; simp at hP
    | succ f2 =>
      simp only [Ext.process_protoT] at hE
      simp only [Imp.process_protoT] at hP
      cases h1 : read_lstring c.data c.endian c.size_t_size pos with
      | error e => rw [h1, bind_err] at hE; simp at hE
      | ok a =>
        obtain ⟨name, pos0⟩ := a
        rw [h1, bind_ok] at hE hP
        cases h2 : write_lstring c.endian c.size_t_size name with
        | error e => rw [h2, bind_err] at hP; simp at hP
        | ok wname =>
          rw [h2, bind_ok] at hP
          cases h3 : read_int c.data c.endian c.int_size pos0 with
          | error e => rw [h3, bind_err] at hE; simp at hE
          | ok a =>
            obtain ⟨av1, pos1⟩ := a
            rw [h3, bind_ok] at hE hP
            cases h4 : read_int c.data c.endian c.int_size pos1 with
            | error e => rw [h4, bind_err] at hE; simp at hE
            | ok a =>
              obtain ⟨av2, pos2⟩ := a
              rw [h4, bind_ok] at hE hP
              cases h5 : write_int c.endian c.int_size av1 with
              | error e => rw [h5, bind_err] at hP; simp at hP
              | ok wa =>
                rw [h5, bind_ok] at hP
                cases h6 : write_int c.endian c.int_size av2 with
                | error e => rw [h6, bind_err] at hP; simp at hP
                | ok wb =>
                  rw [h6, bind_ok] at hP
                  cases h7 : read_int c.data c.endian c.int_size (pos2 + 4) with
                  | error e => rw [h7, bind_err] at hE; simp at hE
                  | ok a =>
                    obtain ⟨sizecode, pos3⟩ := a
                    rw [h7, bind_ok] at hE hP
                    cases h8 : write_int c.endian c.int_size sizecode with
                    | error e => rw [h8, bind_err] at hP; simp at hP
                    | ok wsc =>
                      rw [h8, bind_ok] at hP
                      cases h9 : guardCount sizecode with
                      | error e => rw [h9, bind_err] at hE; simp at hE
                      | ok ncode =>
                        rw [h9, bind_ok] at hE hP
                        cases h10 : read_int c.data c.endian c.int_size
                            (pos3 + ncode * c.instr_size) with
                        | error e => rw [h10, bind_err] at hE; simp at hE
                        | ok a =>
                          obtain ⟨sizek, pos4⟩ := a
                          rw [h10, bind_ok] at hE hP
                          cases h11 : write_int c.endian c.int_size sizek with
                          | error e => rw [h11, bind_err] at hP; simp at hP
                          | ok wsk =>
                            rw [h11, bind_ok] at hP
                            cases hKE : Ext.constLoopT c dec sizek.toNat pos4 cnt with
                            | error e => rw [hKE, bind_err] at hE; simp at hE
                            | ok rE =>
                              obtain ⟨posE5, oE1, cntE5, trE1⟩ := rE
                              rw [hKE, bind_ok] at hE
                              cases hKP : Imp.constLoopT c m dec enc sizek.toNat pos4 cnt with
                              | error e => rw [hKP, bind_err] at hP; simp at hP
                              | ok rP =>
                                obtain ⟨posP5, oP1, cntP5, trP1⟩ := rP
                                rw [hKP, bind_ok] at hP
                                obtain ⟨g1, g2, g3⟩ :=
                                  trace_agree_consts c dec m enc _ _ _ _ _ _ _ _ _ _ _ hKE hKP
                                subst g1; subst g2; subst g3
                                cases h12 : read_int c.data c.endian c.int_size posP5 with
                                | error e => rw [h12, bind_err] at hE; simp at hE
                                | ok a =>
                                  obtain ⟨sizep, pos6⟩ := a
                                  rw [h12, bind_ok] at hE hP
                                  cases h13 : write_int c.endian c.int_size sizep with
                                  | error e => rw [h13, bind_err] at hP; simp at hP
                                  | ok wsp =>
                                    rw [h13, bind_ok] at hP
                                    cases hCE : Ext.childLoopT (Ext.process_protoT c dec f1)
                                        sizep.toNat pos6 cntP5 with
                                    | error e => rw [hCE, bind_err] at hE; simp at hE
                                    | ok rE2 =>
                                      obtain ⟨posE7, oE2, cntE7, trE2⟩ := rE2
                                      rw [hCE, bind_ok] at hE
                                      cases hCP : Imp.childLoopT
                                          (Imp.process_protoT c m dec enc f2)
                                          sizep.toNat pos6 cntP5 with
                                      | error e => rw [hCP, bind_err] at hP; simp at hP
                                      | ok rP2 =>
                                        obtain ⟨posP7, oP2, cntP7, trP2⟩ := rP2
                                        rw [hCP, bind_ok] at hP
                                        obtain ⟨g1, g2, g3⟩ := trace_agree_children
                                          (Ext.process_protoT c dec f1)
                                          (Imp.process_protoT c m dec enc f2)
                                          (fun ps cn q1 u1 d1 s1 q2 u2 d2 s2 he hp =>
                                            ih f2 ps cn q1 u1 d1 s1 q2 u2 d2 s2 he hp)
                                          _ _ _ _ _ _ _ _ _ _ _ hCE hCP
                                        subst g1; subst g2; subst g3
                                        cases h14 : read_int c.data c.endian c.int_size posP7 with
                                        | error e => rw [h14, bind_err] at hE; simp at hE
                                        | ok a =>
                                          obtain ⟨sizeli, pos8⟩ := a
                                          rw [h14, bind_ok] at hE hP
                                          cases h15 : write_int c.endian c.int_size sizeli with
                                          | error e => rw [h15, bind_err] at hP; simp at hP
                                          | ok wsli =>
                                            rw [h15, bind_ok] at hP
                                            cases h16 : guardCount sizeli with
                                            | error e => rw [h16, bind_err] at hE; simp at hE
                                            | ok nli =>
                                              rw [h16, bind_ok] at hE hP
                                              cases h17 : read_int c.data c.endian c.int_size
                                                  (pos8 + nli * c.int_size) with
                                              | error e => rw [h17, bind_err] at hE; simp at hE
                                              | ok a =>
                                                obtain ⟨sizelv, pos9⟩ := a
                                                rw [h17, bind_ok] at hE hP
                                                cases h18 : write_int c.endian c.int_size sizelv with
                                                | error e => rw [h18, bind_err] at hP; simp at hP
                                                | ok wslv =>
                                                  rw [h18, bind_ok] at hP
                                                  cases hLE : Ext.locvarLoop c sizelv.toNat pos9 with
                                                  | error e => rw [hLE, bind_err] at hE; simp at hE
                                                  | ok posE10 =>
                                                    rw [hLE, bind_ok] at hE
                                                    cases hLP : Imp.locvarLoop c sizelv.toNat pos9 with
                                                    | error e => rw [hLP, bind_err] at hP; simp at hP
                                                    | ok rLP =>
                                                      obtain ⟨posP10, oLV⟩ := rLP
                                                      rw [hLP, bind_ok] at hP
                                                      have g1 := trace_agree_locvars c _ _ _ _ _ hLE hLP
                                                      subst g1
                                                      cases h19 : read_int c.data c.endian c.int_size posP10 with
                                                      | error e => rw [h19, bind_err] at hE; simp at hE
                                                      | ok a =>
                                                        obtain ⟨sizeup, pos11⟩ := a
                                                        rw [h19, bind_ok] at hE hP
                                                        cases h20 : write_int c.endian c.int_size sizeup with
                                                        | error e => rw [h20, bind_err] at hP; simp at hP
                                                        | ok wsup =>
                                                          rw [h20, bind_ok] at hP
                                                          cases hUE : Ext.upvalLoop c sizeup.toNat pos11 with
                                                          | error e => rw [hUE, bind_err] at hE; simp at hE
                                                          | ok posE12 =>
                                                            rw [hUE, bind_ok] at hE
                                                            cases hUP : Imp.upvalLoop c sizeup.toNat pos11 with
                                                            | error e => rw [hUP, bind_err] at hP; simp at hP
                                                            | ok rUP =>
                                                              obtain ⟨posP12, oUp⟩ := rUP
                                                              rw [hUP, bind_ok] at hP
                                                              have g1 := trace_agree_upvals c _ _ _ _ _ hUE hUP
                                                              subst g1
                                                              simp only [Except.ok.injEq, Prod.mk.injEq] at hE hP
                                                              obtain ⟨he1, _, he2, he3⟩ := hE
                                                              obtain ⟨hf1, _, hf2, hf3⟩ := hP
                                                              subst he1; subst he2; subst he3
                                                              subst hf1; subst hf2; subst hf3
                                                              refine ⟨rfl, rfl, ?_⟩
                                                              rw [List.map_append]

/-- C2: on every chunk on which both walkers complete (both scripts parse
the same header from the same bytes, hence the shared context `c`; both
drivers start at offset 12 with the counter seeded at `-1`), the sequence
of indices for which Extraction Mode emits records — the first components
of the extraction walker's emission trace — is identical, in order and
length, to the sequence of indices Patch Mode's visitor looks up in the
mapping; the walkers also agree on the final cursor and counter. -/
theorem C2_index_stability (c : Chk) (dec : List Nat → String)
    (m : List (Int × String)) (enc : String → Except PErr (List Nat))
    (f1 f2 p1 : Nat) (recs : List String) (c1 : Int)
    (p2 : Nat) (out : List Nat) (c2 : Int)
    (hE : Ext.process_proto c dec f1 12 (-1) = .ok (p1, recs, c1))
    (hP : Imp.process_proto c m dec enc f2 12 (-1) = .ok (p2, out, c2)) :
    ∃ tr, Ext.process_protoT c dec f1 12 (-1) = .ok (p1, recs, c1, tr) ∧
      Imp.process_protoT c m dec enc f2 12 (-1) = .ok (p2, out, c2, tr.map Prod.fst) ∧
      p2 = p1 ∧ c2 = c1 := by
  rw [Ext.process_proto_proj] at hE
  rw [Imp.process_proto_projP] at hP
  cases hTE : Ext.process_protoT c dec f1 12 (-1) with
  | error e => rw [hTE] at hE; simp [map_err] at hE
  | ok rE =>
    obtain ⟨q1, o1, d1, trE⟩ := rE
    rw [hTE, map_ok] at hE
    simp only [projE, Except.ok.injEq, Prod.mk.injEq] at hE
    obtain ⟨e1, e2, e3⟩ := hE
    subst e1; subst e2; subst e3
    cases hTP : Imp.process_protoT c m dec enc f2 12 (-1) with
    | error e => rw [hTP] at hP; simp [map_err] at hP
    | ok rP =>
      obtain ⟨q2, o2, d2, trP⟩ := rP
      rw [hTP, map_ok] at hP
      simp only [projP, Except.ok.injEq, Prod.mk.injEq] at hP
      obtain ⟨f1', f2', f3'⟩ := hP
      subst f1'; subst f2'; subst f3'
      obtain ⟨g1, g2, g3⟩ := trace_agree_proto c dec m enc _ _ _ _ _ _ _ _ _ _ _ _ hTE hTP
      exact ⟨trE, rfl, by rw [g3], g1, g2⟩

/-- Witness for `C2_index_stability`: the `"Hello"` chunk with a mapping
that rewrites index 0. -/
theorem C2_index_stability_witness :
    ∃ tr, Ext.process_protoT ⟨helloChunk, .little, 4, 4, 4, 8⟩ latinDec 2 12 (-1) =
        .ok (helloChunk.length, ["○00000○ Hello", "●00000● Hello"], 0, tr) ∧
      Imp.process_protoT ⟨helloChunk, .little, 4, 4, 4, 8⟩ [((0 : Int), "Hi")] latinDec
          latinEnc 2 12 (-1) =
        .ok (helloChunk.length,
          (Imp.process_protoT ⟨helloChunk, .little, 4, 4, 4, 8⟩ [((0 : Int), "Hi")]
            latinDec latinEnc 2 12 (-1)).toOption.elim [] (fun r => r.2.1),
          0, tr.map Prod.fst) ∧
      helloChunk.length = helloChunk.length ∧ (0 : Int) = 0 :=
  C2_index_stability ⟨helloChunk, .little, 4, 4, 4, 8⟩ latinDec [((0 : Int), "Hi")]
    latinEnc 2 2 helloChunk.length ["○00000○ Hello", "●00000● Hello"] 0
    helloChunk.length
    ((Imp.process_protoT ⟨helloChunk, .little, 4, 4, 4, 8⟩ [((0 : Int), "Hi")]
      latinDec latinEnc 2 12 (-1)).toOption.elim [] (fun r => r.2.1)) 0
    (by decide) (by decide)

/-- Unpack a successful `validString`. -/
theorem validString_ok (c : Chk) (isC : Bool) (pos : Nat) (of : Option StrF) (pos' : Nat)
    (h : validString c isC pos = .ok (of, pos')) :
    read_lstring c.data c.endian c.size_t_size pos =
      .ok (Option.map (fieldRaw c.data) of, pos') ∧
    ((of = none ∧ pos' = pos + c.size_t_size ∧
        read_size_t c.data c.endian c.size_t_size pos = .ok (0, pos + c.size_t_size)) ∨
      (∃ f, of = some f ∧ f.start = pos + c.size_t_size ∧ f.isConst = isC ∧
        pos' = f.start + f.len ∧ fieldOK c f)) := by
  unfold validString at h
  cases hn : read_size_t c.data c.endian c.size_t_size pos with
  | error e => rw [hn, bind_err] at h; simp at h
  | ok a =>
    obtain ⟨n, pos1⟩ := a
    rw [hn, bind_ok] at h
    simp only [] at h
    obtain ⟨hw, hp1, hr, _⟩ := read_size_t_ok _ _ _ _ _ _ hn
    subst hp1
    by_cases h0 : n = 0
    · rw [if_pos h0] at h
      simp only [Except.ok.injEq, Prod.mk.injEq] at h
      obtain ⟨hof, hpos⟩ := h
      subst hof; subst hpos
      subst h0
      refine ⟨?_, Or.inl ⟨rfl, rfl, ?_⟩⟩
      · unfold read_lstring
        rw [hn, bind_ok]
        simp only []
        simp
      · rfl
    · rw [if_neg h0] at h
      split at h
      · next hcond =>
        simp only [Except.ok.injEq, Prod.mk.injEq] at h
        obtain ⟨hof, hpos⟩ := h
        subst hof; subst hpos
        constructor
        · unfold read_lstring
          rw [hn, bind_ok]
          simp only []
          rw [if_neg h0]
          rfl
        · right
          refine ⟨⟨pos + c.size_t_size, n, isC⟩, rfl, rfl, rfl, rfl, ?_⟩
          unfold fieldOK
          simp only []
          refine ⟨by omega, by omega, hcond.1, ?_, hcond.2⟩
          rw [show pos + c.size_t_size - c.size_t_size = pos by omega]
          exact hn
      · simp at h

/-- A validated present field re-emits, via `write_lstring`, exactly its
original bytes (size prefix, payload and `0` terminator). -/
theorem field_write (c : Chk) (f : StrF) (HB : ∀ b ∈ c.data, b < 256)
    (hf : fieldOK c f) :
    write_lstring c.endian c.size_t_size (some (fieldRaw c.data f)) =
      .ok (sliceFT c.data (f.start - c.size_t_size) (f.start + f.len)) := by
  obtain ⟨hssz, hlen1, hrange, hpre, hterm⟩ := hf
  have hrawlen : (pySlice c.data f.start f.len).length = f.len :=
    pySlice_length _ _ _ hrange
  have hne : pySlice c.data f.start f.len ≠ [] := by
    intro hcon
    rw [hcon] at hrawlen
    simp at hrawlen
    omega
  obtain ⟨hwst, _, _⟩ := write_size_t_slice c.data c.endian c.size_t_size
    (f.start - c.size_t_size) f.len f.start HB hpre
  have hdllen : (fieldRaw c.data f).length = f.len - 1 := by
    unfold fieldRaw
    rw [List.length_dropLast, hrawlen]
  have hlast : (pySlice c.data f.start f.len).getLast hne = 0 := by
    have h1 : (pySlice c.data f.start f.len).getLast? = c.data.get? (f.start + f.len - 1) := by
      rw [List.getLast?_eq_get? , hrawlen]
      unfold pySlice
      rw [List.get?_take (by omega), List.get?_drop]
      congr 1
      omega
    rw [List.getLast?_eq_getLast _ hne, hterm] at h1
    exact Option.some_injective _ h1
  have hsplit : fieldRaw c.data f ++ [0] = pySlice c.data f.start f.len := by
    unfold fieldRaw
    rw [← hlast]
    exact List.dropLast_append_getLast hne
  show (write_size_t c.endian c.size_t_size ((fieldRaw c.data f).length + 1) >>= fun pre =>
          (.ok (pre ++ fieldRaw c.data f ++ [0]) : Except PErr (List Nat))) = _
  rw [hdllen, show f.len - 1 + 1 = f.len by omega, hwst, bind_ok]
  rw [List.append_assoc, hsplit]
  rw [pySlice_eq_sliceFT]
  rw [sliceFT_append c.data (f.start - c.size_t_size) f.start (f.start + f.len)
    (by omega) (by omega)]

theorem skipChecked_ok (c : Chk) (pos k p : Nat) (h : skipChecked c pos k = .ok p) :
    p = pos + k ∧ pos + k ≤ c.data.length := by
  unfold skipChecked at h
  split at h
  · cases h; exact ⟨rfl, by assumption⟩
  · cases h

theorem guardCount_ok (i : Int) (n : Nat) (h : guardCount i = .ok n) : n = i.toNat := by
  unfold guardCount at h
  split at h
  · cases h
  · cases h; rfl

theorem fsWithin_le (c : Chk) : ∀ fs pos stop, fsWithin c pos stop fs → pos ≤ stop := by
  intro fs
  induction fs with
  | nil => intro pos stop h; exact h
  | cons f fs ih =>
    intro pos stop h
    obtain ⟨h1, h2, h3⟩ := h
    have := ih _ _ h3
    omega

theorem fsWithin_mono_left (c : Chk) (fs : List StrF) (pos mid stop : Nat)
    (hle : pos ≤ mid) (h : fsWithin c mid stop fs) : fsWithin c pos stop fs := by
  cases fs with
  | nil => exact le_trans hle h
  | cons f fs =>
    obtain ⟨h1, h2, h3⟩ := h
    exact ⟨by omega, h2, h3⟩

theorem fsWithin_append (c : Chk) : ∀ fs1 fs2 pos mid stop,
    fsWithin c pos mid fs1 → fsWithin c mid stop fs2 →
    fsWithin c pos stop (fs1 ++ fs2) := by
  intro fs1
  induction fs1 with
  | nil =>
    intro fs2 pos mid stop h1 h2
    exact fsWithin_mono_left c fs2 pos mid stop h1 h2
  | cons f fs ih =>
    intro fs2 pos mid stop h1 h2
    obtain ⟨ha, hb, hc⟩ := h1
    exact ⟨ha, hb, ih fs2 _ mid stop hc h2⟩

theorem validConsts_within (c : Chk) : ∀ k pos p' fs,
    validConsts c k pos = .ok (p', fs) → fsWithin c pos p' fs := by
  intro k
  induction k with
  | zero =>
    intro pos p' fs h
    simp only [validConsts, Except.ok.injEq, Prod.mk.injEq] at h
    obtain ⟨h1, h2⟩ := h
    subst h1; subst h2
    exact le_refl pos
  | succ k ih =>
    intro pos p' fs h
    simp only [validConsts] at h
    cases ht : pyIndex c.data pos with
    | error e => rw [ht, bind_err] at h; simp at h
    | ok t =>
      rw [ht, bind_ok] at h
      by_cases h0 : t = 0
      · rw [if_pos h0] at h
        exact fsWithin_mono_left c fs pos (pos + 1) p' (by omega) (ih _ _ _ h)
      rw [if_neg h0] at h
      by_cases h1 : t = 1
      · rw [if_pos h1] at h
        cases hsk : skipChecked c (pos + 1) 1 with
        | error e => rw [hsk, bind_err] at h; simp at h
        | ok pos2 =>
          rw [hsk, bind_ok] at h
          obtain ⟨he, _⟩ := skipChecked_ok _ _ _ _ hsk
          subst he
          exact fsWithin_mono_left c fs pos (pos + 1 + 1) p' (by omega) (ih _ _ _ h)
      rw [if_neg h1] at h
      by_cases h3 : t = 3
      · rw [if_pos h3] at h
        cases hsk : skipChecked c (pos + 1) c.number_size with
        | error e => rw [hsk, bind_err] at h; simp at h
        | ok pos2 =>
          rw [hsk, bind_ok] at h
          obtain ⟨he, _⟩ := skipChecked_ok _ _ _ _ hsk
          subst he
          exact fsWithin_mono_left c fs pos (pos + 1 + c.number_size) p' (by omega) (ih _ _ _ h)
      rw [if_neg h3] at h
      by_cases h4 : t = 4
      · rw [if_pos h4] at h
        cases hvs : validString c true (pos + 1) with
        | error e => rw [hvs, bind_err] at h; simp at h
        | ok a =>
          obtain ⟨of, pos1⟩ := a
          rw [hvs, bind_ok] at h
          cases hK : validConsts c k pos1 with
          | error e => rw [hK, bind_err] at h; simp at h
          | ok r =>
            obtain ⟨p2, fs2⟩ := r
            rw [hK, bind_ok] at h
            simp only [Except.ok.injEq, Prod.mk.injEq] at h
            obtain ⟨hp, hfs⟩ := h
            subst hp; subst hfs
            obtain ⟨_, hc⟩ := validString_ok c true (pos + 1) of pos1 hvs
            rcases hc with ⟨hnone, hpos, _⟩ | ⟨f, hsome, hstart, _, hpos, hfok⟩
            · subst hnone
              exact fsWithin_mono_left c fs2 pos pos1 p2 (by omega) (ih _ _ _ hK)
            · subst hsome
              refine ⟨by omega, hfok, ?_⟩
              rw [← hpos]
              exact ih _ _ _ hK
      · rw [if_neg h4] at h
        simp at h

theorem validLocvars_within (c : Chk) : ∀ k pos p' fs,
    validLocvars c k pos = .ok (p', fs) → fsWithin c pos p' fs := by
  intro k
  induction k with
  | zero =>
    intro pos p' fs h
    simp only [validLocvars, Except.ok.injEq, Prod.mk.injEq] at h
    obtain ⟨h1, h2⟩ := h
    subst h1; subst h2
    exact le_refl pos
  | succ k ih =>
    intro pos p' fs h
    simp only [validLocvars] at h
    cases hvs : validString c false pos with
    | error e => rw [hvs, bind_err] at h; simp at h
    | ok a =>
      obtain ⟨of, pos1⟩ := a
      rw [hvs, bind_ok] at h
      cases hr1 : read_int c.data c.endian c.int_size pos1 with
      | error e => rw [hr1, bind_err] at h; simp at h
      | ok a =>
        obtain ⟨a1, pos2⟩ := a
        rw [hr1, bind_ok] at h
        cases hr2 : read_int c.data c.endian c.int_size pos2 with
        | error e => rw [hr2, bind_err] at h; simp at h
        | ok a =>
          obtain ⟨a2, pos3⟩ := a
          rw [hr2, bind_ok] at h
          cases hK : validLocvars c k pos3 with
          | error e => rw [hK, bind_err] at h; simp at h
          | ok r =>
            obtain ⟨p2, fs2⟩ := r
            rw [hK, bind_ok] at h
            simp only [Except.ok.injEq, Prod.mk.injEq] at h
            obtain ⟨hp, hfs⟩ := h
            subst hp; subst hfs
            obtain ⟨_, e1, _⟩ := read_int_ok _ _ _ _ _ _ hr1
            obtain ⟨_, e2, _⟩ := read_int_ok _ _ _ _ _ _ hr2
            obtain ⟨_, hc⟩ := validString_ok c false pos of pos1 hvs
            rcases hc with ⟨hnone, hpos, _⟩ | ⟨f, hsome, hstart, _, hpos, hfok⟩
            · subst hnone
              exact fsWithin_mono_left c fs2 pos pos3 p2 (by omega) (ih _ _ _ hK)
            · subst hsome
              refine ⟨by omega, hfok, ?_⟩
              exact fsWithin_mono_left c fs2 (f.start + f.len) pos3 p2 (by omega)
                (ih _ _ _ hK)
      
theorem validUpvals_within (c : Chk) : ∀ k pos p' fs,
    validUpvals c k pos = .ok (p', fs) → fsWithin c pos p' fs := by
  intro k
  induction k with
  | zero =>
    intro pos p' fs h
    simp only [validUpvals, Except.ok.injEq, Prod.mk.injEq] at h
    obtain ⟨h1, h2⟩ := h
    subst h1; subst h2
    exact le_refl pos
  | succ k ih =>
    intro pos p' fs h
    simp only [validUpvals] at h
    cases hvs : validString c false pos with
    | error e => rw [hvs, bind_err] at h; simp at h
    | ok a =>
      obtain ⟨of, pos1⟩ := a
      rw [hvs, bind_ok] at h
      cases hK : validUpvals c k pos1 with
      | error e => rw [hK, bind_err] at h; simp at h
      | ok r =>
        obtain ⟨p2, fs2⟩ := r
        rw [hK, bind_ok] at h
        simp only [Except.ok.injEq, Prod.mk.injEq] at h
        obtain ⟨hp, hfs⟩ := h
        subst hp; subst hfs
        obtain ⟨_, hc⟩ := validString_ok c false pos of pos1 hvs
        rcases hc with ⟨hnone, hpos, _⟩ | ⟨f, hsome, hstart, _, hpos, hfok⟩
        · subst hnone
          exact fsWithin_mono_left c fs2 pos pos1 p2 (by omega) (ih _ _ _ hK)
        · subst hsome
          refine ⟨by omega, hfok, ?_⟩
          rw [← hpos]
          exact ih _ _ _ hK

theorem validChildren_within (c : Chk) (step : Nat → Except PErr (Nat × List StrF))
    (hstep : ∀ pos p' fs, step pos = .ok (p', fs) → fsWithin c pos p' fs) :
    ∀ n pos p' fs, validChildren step n pos = .ok (p', fs) → fsWithin c pos p' fs := by
  intro n
  induction n with
  | zero =>
    intro pos p' fs h
    simp only [validChildren, Except.ok.injEq, Prod.mk.injEq] at h
    obtain ⟨h1, h2⟩ := h
    subst h1; subst h2
    exact le_refl pos
  | succ n ih =>
    intro pos p' fs h
    simp only [validChildren] at h
    cases hs : step pos with
    | error e => rw [hs, bind_err] at h; simp at h
    | ok r =>
      obtain ⟨pos1, fs1⟩ := r
      rw [hs, bind_ok] at h
      cases hK : validChildren step n pos1 with
      | error e => rw [hK, bind_err] at h; simp at h
      | ok r2 =>
        obtain ⟨p2, fs2⟩ := r2
        rw [hK, bind_ok] at h
        simp only [Except.ok.injEq, Prod.mk.injEq] at h
        obtain ⟨hp, hfs⟩ := h
        subst hp; subst hfs
        exact fsWithin_append c fs1 fs2 pos pos1 p2 (hstep _ _ _ hs) (ih _ _ _ hK)

/-- The fields recorded by a successful validity walk are chained and
validated between the start and end cursors. -/
theorem validProto_within (c : Chk) : ∀ fuel pos p' fs,
    validProto c fuel pos = .ok (p', fs) → fsWithin c pos p' fs := by
  intro fuel
  induction fuel with
  | zero =>
    intro pos p' fs h
    simp only [validProto] at h
    simp at h
  | succ fuel ih =>
    intro pos p' fs h
    simp only [validProto] at h
    cases hvs : validString c false pos with
    | error e => rw [hvs, bind_err] at h; simp at h
    | ok a =>
      obtain ⟨f0, pos0⟩ := a
      rw [hvs, bind_ok] at h
      cases hr1 : read_int c.data c.endian c.int_size pos0 with
      | error e => rw [hr1, bind_err] at h; simp at h
      | ok a =>
        obtain ⟨a1, pos1⟩ := a
        rw [hr1, bind_ok] at h
        cases hr2 : read_int c.data c.endian c.int_size pos1 with
        | error e => rw [hr2, bind_err] at h; simp at h
        | ok a =>
          obtain ⟨a2, pos2⟩ := a
          rw [hr2, bind_ok] at h
          cases hsk4 : skipChecked c pos2 4 with
          | error e => rw [hsk4, bind_err] at h; simp at h
          | ok pos3 =>
            rw [hsk4, bind_ok] at h
            cases hrc : read_int c.data c.endian c.int_size pos3 with
            | error e => rw [hrc, bind_err] at h; simp at h
            | ok a =>
              obtain ⟨sizecode, pos4⟩ := a
              rw [hrc, bind_ok] at h
              cases hg : guardCount sizecode with
              | error e => rw [hg, bind_err] at h; simp at h
              | ok ncode =>
                rw [hg, bind_ok] at h
                cases hskc : skipChecked c pos4 (ncode * c.instr_size) with
                | error e => rw [hskc, bind_err] at h; simp at h
                | ok pos5 =>
                  rw [hskc, bind_ok] at h
                  cases hrk : read_int c.data c.endian c.int_size pos5 with
                  | error e => rw [hrk, bind_err] at h; simp at h
                  | ok a =>
                    obtain ⟨sizek, pos6⟩ := a
                    rw [hrk, bind_ok] at h
                    cases hVK : validConsts c sizek.toNat pos6 with
                    | error e => rw [hVK, bind_err] at h; simp at h
                    | ok r =>
                      obtain ⟨pos7, fsK⟩ := r
                      rw [hVK, bind_ok] at h
                      cases hrp : read_int c.data c.endian c.int_size pos7 with
                      | error e => rw [hrp, bind_err] at h; simp at h
                      | ok a =>
                        obtain ⟨sizep, pos8⟩ := a
                        rw [hrp, bind_ok] at h
                        cases hVC : validChildren (validProto c fuel) sizep.toNat pos8 with
                        | error e => rw [hVC, bind_err] at h; simp at h
                        | ok r =>
                          obtain ⟨pos9, fsP⟩ := r
                          rw [hVC, bind_ok] at h
                          cases hrli : read_int c.data c.endian c.int_size pos9 with
                          | error e => rw [hrli, bind_err] at h; simp at h
                          | ok a =>
                            obtain ⟨sizeli, pos10⟩ := a
                            rw [hrli, bind_ok] at h
                            cases hgli : guardCount sizeli with
                            | error e => rw [hgli, bind_err] at h; simp at h
                            | ok nli =>
                              rw [hgli, bind_ok] at h
                              cases hskli : skipChecked c pos10 (nli * c.int_size) with
                              | error e => rw [hskli, bind_err] at h; simp at h
                              | ok pos11 =>
                                rw [hskli, bind_ok] at h
                                cases hrlv : read_int c.data c.endian c.int_size pos11 with
                                | error e => rw [hrlv, bind_err] at h; simp at h
                                | ok a =>
                                  obtain ⟨sizelv, pos12⟩ := a
                                  rw [hrlv, bind_ok] at h
                                  cases hVL : validLocvars c sizelv.toNat pos12 with
                                  | error e => rw [hVL, bind_err] at h; simp at h
                                  | ok r =>
                                    obtain ⟨pos13, fsLV⟩ := r
                                    rw [hVL, bind_ok] at h
                                    cases hrup : read_int c.data c.endian c.int_size pos13 with
                                    | error e => rw [hrup, bind_err] at h; simp at h
                                    | ok a =>
                                      obtain ⟨sizeup, pos14⟩ := a
                                      rw [hrup, bind_ok] at h
                                      cases hVU : validUpvals c sizeup.toNat pos14 with
                                      | error e => rw [hVU, bind_err] at h; simp at h
                                      | ok r =>
                                        obtain ⟨pos15, fsUp⟩ := r
                                        rw [hVU, bind_ok] at h
                                        simp only [Except.ok.injEq, Prod.mk.injEq] at h
                                        obtain ⟨hp, hfs⟩ := h
                                        subst hp; subst hfs
                                        obtain ⟨_, e1, _⟩ := read_int_ok _ _ _ _ _ _ hr1
                                        obtain ⟨_, e2, _⟩ := read_int_ok _ _ _ _ _ _ hr2
                                        obtain ⟨e3, _⟩ := skipChecked_ok _ _ _ _ hsk4
                                        obtain ⟨_, e4, _⟩ := read_int_ok _ _ _ _ _ _ hrc
                                        obtain ⟨e5, _⟩ := skipChecked_ok _ _ _ _ hskc
                                        obtain ⟨_, e6, _⟩ := read_int_ok _ _ _ _ _ _ hrk
                                        obtain ⟨_, e7, _⟩ := read_int_ok _ _ _ _ _ _ hrp
                                        obtain ⟨_, e8, _⟩ := read_int_ok _ _ _ _ _ _ hrli
                                        obtain ⟨e9, _⟩ := skipChecked_ok _ _ _ _ hskli
                                        obtain ⟨_, e10, _⟩ := read_int_ok _ _ _ _ _ _ hrlv
                                        obtain ⟨_, e11, _⟩ := read_int_ok _ _ _ _ _ _ hrup
                                        have wU := validUpvals_within c _ _ _ _ hVU
                                        have wL := validLocvars_within c _ _ _ _ hVL
                                        have wC := validChildren_within c (validProto c fuel)
                                          (fun ps q g hh => ih ps q g hh) _ _ _ _ hVC
                                        have wK := validConsts_within c _ _ _ _ hVK
                                        have h5 : fsWithin c pos12 pos15 (fsLV ++ fsUp) :=
                                          fsWithin_append c fsLV fsUp pos12 pos13 pos15 wL
                                            (fsWithin_mono_left c fsUp pos13 pos14 pos15
                                              (by omega) wU)
                                        have h4 : fsWithin c pos8 pos15 (fsP ++ (fsLV ++ fsUp)) :=
                                          fsWithin_append c fsP _ pos8 pos9 pos15 wC
                                            (fsWithin_mono_left c _ pos9 pos12 pos15
                                              (by omega) h5)
                                        have h3 : fsWithin c pos6 pos15
                                            (fsK ++ (fsP ++ (fsLV ++ fsUp))) :=
                                          fsWithin_append c fsK _ pos6 pos7 pos15 wK
                                            (fsWithin_mono_left c _ pos7 pos8 pos15
                                              (by omega) h4)
                                        obtain ⟨_, hc⟩ := validString_ok c false pos f0 pos0 hvs
                                        rcases hc with ⟨hnone, hpos, _⟩ |
                                            ⟨f, hsome, hstart, _, hpos, hfok⟩
                                        · subst hnone
                                          have hres : fsWithin c pos pos15
                                              (fsK ++ (fsP ++ (fsLV ++ fsUp))) :=
                                            fsWithin_mono_left c _ pos pos6 pos15
                                              (by omega) h3
                                          simpa [Option.toList, List.append_assoc] using hres
                                        · subst hsome
                                          have hres : fsWithin c pos pos15
                                              (f :: (fsK ++ (fsP ++ (fsLV ++ fsUp)))) :=
                                            ⟨by omega, hfok,
                                              fsWithin_mono_left c _ (f.start + f.len) pos6
                                                pos15 (by omega) h3⟩
                                          simpa [Option.toList, List.append_assoc] using hres

theorem nConsts_cons (f : StrF) (fs : List StrF) :
    nConsts (f :: fs) = if f.isConst then nConsts fs + 1 else nConsts fs := by
  unfold nConsts
  rw [List.filter_cons]
  split
  · simp
  · rfl

theorem eTrace_append (data : List Nat) (dec : List Nat → String) :
    ∀ fs1 fs2 cnt, eTrace data dec cnt (fs1 ++ fs2) =
      eTrace data dec cnt fs1 ++ eTrace data dec (cnt + (nConsts fs1 : Int)) fs2 := by
  intro fs1
  induction fs1 with
  | nil =>
    intro fs2 cnt
    simp [eTrace, nConsts]
  | cons f fs ih =>
    intro fs2 cnt
    rw [List.cons_append]
    by_cases hc : f.isConst
    · simp only [eTrace, if_pos hc]
      rw [ih fs2 (cnt + 1), nConsts_cons, if_pos hc]
      rw [List.cons_append]
      congr 3
      push_cast
      ring
    · simp only [eTrace, if_neg hc]
      rw [ih fs2 cnt, nConsts_cons, if_neg hc]

theorem eRecs_append (data : List Nat) (dec : List Nat → String) :
    ∀ fs1 fs2 cnt, eRecs data dec cnt (fs1 ++ fs2) =
      eRecs data dec cnt fs1 ++ eRecs data dec (cnt + (nConsts fs1 : Int)) fs2 := by
  intro fs1
  induction fs1 with
  | nil =>
    intro fs2 cnt
    simp [eRecs, nConsts]
  | cons f fs ih =>
    intro fs2 cnt
    rw [List.cons_append]
    by_cases hc : f.isConst
    · simp only [eRecs, if_pos hc]
      rw [ih fs2 (cnt + 1), nConsts_cons, if_pos hc]
      rw [List.cons_append, List.cons_append]
      congr 4
      push_cast
      ring
    · simp only [eRecs, if_neg hc]
      rw [ih fs2 cnt, nConsts_cons, if_neg hc]

theorem eRecs_nonconst (data : List Nat) (dec : List Nat → String) :
    ∀ fs, (∀ f ∈ fs, f.isConst = false) → ∀ cnt,
      eRecs data dec cnt fs = [] ∧ eTrace data dec cnt fs = [] ∧ nConsts fs = 0 := by
  intro fs
  induction fs with
  | nil => intro _ cnt; exact ⟨rfl, rfl, rfl⟩
  | cons f fs ih =>
    intro h cnt
    have hf : f.isConst = false := h f (List.mem_cons_self _ _)
    have ih' := ih (fun g hg => h g (List.mem_cons_of_mem _ hg)) cnt
    refine ⟨?_, ?_, ?_⟩
    · simpa [eRecs, hf] using ih'.1
    · simpa [eTrace, hf] using ih'.2.1
    · simpa [nConsts_cons, hf] using ih'.2.2

/-- On a validated constant table the extraction walker succeeds and its
records, counter and trace are exactly the canonical ones of the recorded
fields. -/
theorem validConsts_extract (c : Chk) (dec : List Nat → String) : ∀ k pos p' fs,
    validConsts c k pos = .ok (p', fs) → ∀ cnt,
    Ext.constLoopT c dec k pos cnt =
      .ok (p', eRecs c.data dec cnt fs, cnt + (nConsts fs : Int),
           eTrace c.data dec cnt fs) := by
  intro k
  induction k with
  | zero =>
    intro pos p' fs h cnt
    simp only [validConsts, Except.ok.injEq, Prod.mk.injEq] at h
    obtain ⟨h1, h2⟩ := h
    subst h1; subst h2
    simp [Ext.constLoopT, eRecs, eTrace, nConsts]
  | succ k ih =>
    intro pos p' fs h cnt
    simp only [validConsts] at h
    simp only [Ext.constLoopT]
    cases ht : pyIndex c.data pos with
    | error e => rw [ht, bind_err] at h; simp at h
    | ok t =>
      rw [ht, bind_ok] at h
      rw [bind_ok]
      by_cases h0 : t = 0
      · rw [if_pos h0] at h ⊢
        exact ih _ _ _ h cnt
      rw [if_neg h0] at h ⊢
      by_cases h1 : t = 1
      · rw [if_pos h1] at h ⊢
        cases hsk : skipChecked c (pos + 1) 1 with
        | error e => rw [hsk, bind_err] at h; simp at h
        | ok pos2 =>
          rw [hsk, bind_ok] at h
          obtain ⟨he, _⟩ := skipChecked_ok _ _ _ _ hsk
          subst he
          exact ih _ _ _ h cnt
      rw [if_neg h1] at h ⊢
      by_cases h3 : t = 3
      · rw [if_pos h3] at h ⊢
        cases hsk : skipChecked c (pos + 1) c.number_size with
        | error e => rw [hsk, bind_err] at h; simp at h
        | ok pos2 =>
          rw [hsk, bind_ok] at h
          obtain ⟨he, _⟩ := skipChecked_ok _ _ _ _ hsk
          subst he
          exact ih _ _ _ h cnt
      rw [if_neg h3] at h ⊢
      by_cases h4 : t = 4
      · rw [if_pos h4] at h ⊢
        cases hvs : validString c true (pos + 1) with
        | error e => rw [hvs, bind_err] at h; simp at h
        | ok a =>
          obtain ⟨of, pos1⟩ := a
          rw [hvs, bind_ok] at h
          cases hK : validConsts c k pos1 with
          | error e => rw [hK, bind_err] at h; simp at h
          | ok r =>
            obtain ⟨p2, fs2⟩ := r
            rw [hK, bind_ok] at h
            simp only [Except.ok.injEq, Prod.mk.injEq] at h
            obtain ⟨hp, hfs⟩ := h
            subst hp; subst hfs
            obtain ⟨hread, hc⟩ := validString_ok c true (pos + 1) of pos1 hvs
            rw [hread, bind_ok]
            rcases hc with ⟨hnone, hpos, _⟩ | ⟨f, hsome, hstart, hisc, hpos, hfok⟩
            · subst hnone
              simp only [Option.map_none']
              exact ih _ _ _ hK cnt
            · subst hsome
              simp only [Option.map_some']
              rw [ih _ _ _ hK (cnt + 1), bind_ok]
              have hconst : f.isConst = true := hisc
              simp only [Option.toList_some, List.singleton_append]
              simp only [Except.ok.injEq, Prod.mk.injEq]
              refine ⟨trivial, ?_, ?_, ?_⟩
              · simp [eRecs, hconst]
              · rw [nConsts_cons, if_pos (by simp [hconst])]
                push_cast
                ring
              · simp [eTrace, hconst]
      · rw [if_neg h4] at h
        simp at h

/-- On validated local-variable records the extraction walker succeeds and
ends at the validity walker's cursor; the recorded fields are all
non-constant. -/
theorem validLocvars_extract (c : Chk) : ∀ k pos p' fs,
    validLocvars c k pos = .ok (p', fs) →
    Ext.locvarLoop c k pos = .ok p' ∧ ∀ f ∈ fs, f.isConst = false := by
  intro k
  induction k with
  | zero =>
    intro pos p' fs h
    simp only [validLocvars, Except.ok.injEq, Prod.mk.injEq] at h
    obtain ⟨h1, h2⟩ := h
    subst h1; subst h2
    exact ⟨rfl, by simp⟩
  | succ k ih =>
    intro pos p' fs h
    simp only [validLocvars] at h
    simp only [Ext.locvarLoop]
    cases hvs : validString c false pos with
    | error e => rw [hvs, bind_err] at h; simp at h
    | ok a =>
      obtain ⟨of, pos1⟩ := a
      rw [hvs, bind_ok] at h
      cases hr1 : read_int c.data c.endian c.int_size pos1 with
      | error e => rw [hr1, bind_err] at h; simp at h
      | ok a =>
        obtain ⟨a1, pos2⟩ := a
        rw [hr1, bind_ok] at h
        cases hr2 : read_int c.data c.endian c.int_size pos2 with
        | error e => rw [hr2, bind_err] at h; simp at h
        | ok a =>
          obtain ⟨a2, pos3⟩ := a
          rw [hr2, bind_ok] at h
          cases hK : validLocvars c k pos3 with
          | error e => rw [hK, bind_err] at h; simp at h
          | ok r =>
            obtain ⟨p2, fs2⟩ := r
            rw [hK, bind_ok] at h
            simp only [Except.ok.injEq, Prod.mk.injEq] at h
            obtain ⟨hp, hfs⟩ := h
            subst hp; subst hfs
            obtain ⟨hread, hc⟩ := validString_ok c false pos of pos1 hvs
            rw [hread, bind_ok]
            obtain ⟨_, e1, _⟩ := read_int_ok _ _ _ _ _ _ hr1
            obtain ⟨_, e2, _⟩ := read_int_ok _ _ _ _ _ _ hr2
            obtain ⟨ihE, ihN⟩ := ih _ _ _ hK
            have hpe : pos1 + c.int_size * 2 = pos3 := by omega
            rw [hpe, ihE]
            refine ⟨rfl, ?_⟩
            intro f hf
            rcases hc with ⟨hnone, _, _⟩ | ⟨g, hsome, _, hisc, _, _⟩
            · subst hnone
              simp only [Option.toList_none, List.nil_append] at hf
              exact ihN f hf
            · subst hsome
              simp only [Option.toList_some, List.singleton_append, List.mem_cons] at hf
              rcases hf with hf | hf
              · subst hf; exact hisc
              · exact ihN f hf

/-- On validated upvalue names the extraction walker succeeds; the recorded
fields are all non-constant. -/
theorem validUpvals_extract (c : Chk) : ∀ k pos p' fs,
    validUpvals c k pos = .ok (p', fs) →
    Ext.upvalLoop c k pos = .ok p' ∧ ∀ f ∈ fs, f.isConst = false := by
  intro k
  induction k with
  | zero =>
    intro pos p' fs h
    simp only [validUpvals, Except.ok.injEq, Prod.mk.injEq] at h
    obtain ⟨h1, h2⟩ := h
    subst h1; subst h2
    exact ⟨rfl, by simp⟩
  | succ k ih =>
    intro pos p' fs h
    simp only [validUpvals] at h
    simp only [Ext.upvalLoop]
    cases hvs : validString c false pos with
    | error e => rw [hvs, bind_err] at h; simp at h
    | ok a =>
      obtain ⟨of, pos1⟩ := a
      rw [hvs, bind_ok] at h
      cases hK : validUpvals c k pos1 with
      | error e => rw [hK, bind_err] at h; simp at h
      | ok r =>
        obtain ⟨p2, fs2⟩ := r
        rw [hK, bind_ok] at h
        simp only [Except.ok.injEq, Prod.mk.injEq] at h
        obtain ⟨hp, hfs⟩ := h
        subst hp; subst hfs
        obtain ⟨hread, hc⟩ := validString_ok c false pos of pos1 hvs
        rw [hread, bind_ok]
        obtain ⟨ihE, ihN⟩ := ih _ _ _ hK
        rw [ihE]
        refine ⟨rfl, ?_⟩
        intro f hf
        rcases hc with ⟨hnone, _, _⟩ | ⟨g, hsome, _, hisc, _, _⟩
        · subst hnone
          simp only [Option.toList_none, List.nil_append] at hf
          exact ihN f hf
        · subst hsome
          simp only [Option.toList_some, List.singleton_append, List.mem_cons] at hf
          rcases hf with hf | hf
          · subst hf; exact hisc
          · exact ihN f hf

/-- On validated children the traced extraction child loop succeeds with
the canonical records and trace. -/
theorem validChildren_extract (c : Chk) (dec : List Nat → String)
    (vstep : Nat → Except PErr (Nat × List StrF))
    (estep : Nat → Int → Except PErr (Nat × List String × Int × List (Int × String)))
    (hstep : ∀ pos p' fs, vstep pos = .ok (p', fs) → ∀ cnt,
      estep pos cnt = .ok (p', eRecs c.data dec cnt fs, cnt + (nConsts fs : Int),
        eTrace c.data dec cnt fs)) :
    ∀ n pos p' fs, validChildren vstep n pos = .ok (p', fs) → ∀ cnt,
      Ext.childLoopT estep n pos cnt =
        .ok (p', eRecs c.data dec cnt fs, cnt + (nConsts fs : Int),
          eTrace c.data dec cnt fs) := by
  intro n
  induction n with
  | zero =>
    intro pos p' fs h cnt
    simp only [validChildren, Except.ok.injEq, Prod.mk.injEq] at h
    obtain ⟨h1, h2⟩ := h
    subst h1; subst h2
    simp [Ext.childLoopT, eRecs, eTrace, nConsts]
  | succ n ih =>
    intro pos p' fs h cnt
    simp only [validChildren] at h
    simp only [Ext.childLoopT]
    cases hs : vstep pos with
    | error e => rw [hs, bind_err] at h; simp at h
    | ok r =>
      obtain ⟨pos1, fs1⟩ := r
      rw [hs, bind_ok] at h
      cases hK : validChildren vstep n pos1 with
      | error e => rw [hK, bind_err] at h; simp at h
      | ok r2 =>
        obtain ⟨p2, fs2⟩ := r2
        rw [hK, bind_ok] at h
        simp only [Except.ok.injEq, Prod.mk.injEq] at h
        obtain ⟨hp, hfs⟩ := h
        subst hp; subst hfs
        rw [hstep _ _ _ hs cnt, bind_ok]
        rw [ih _ _ _ hK (cnt + (nConsts fs1 : Int)), bind_ok]
        simp only [Except.ok.injEq, Prod.mk.injEq]
        refine ⟨trivial, ?_, ?_, ?_⟩
        · rw [eRecs_append]
        · have hn : nConsts (fs1 ++ fs2) = nConsts fs1 + nConsts fs2 := by
            unfold nConsts
            rw [List.filter_append, List.length_append]
          rw [hn]
          push_cast
          ring
        · rw [eTrace_append]

theorem nConsts_append (fs1 fs2 : List StrF) :
    nConsts (fs1 ++ fs2) = nConsts fs1 + nConsts fs2 := by
  unfold nConsts
  rw [List.filter_append, List.length_append]

/-- On a valid prototype the traced extraction walker succeeds and produces
exactly the canonical records, final counter and trace of the validated
fields. -/
theorem validProto_extract (c : Chk) (dec : List Nat → String) : ∀ fuel pos p' fs,
    validProto c fuel pos = .ok (p', fs) → ∀ cnt,
    Ext.process_protoT c dec fuel pos cnt =
      .ok (p', eRecs c.data dec cnt fs, cnt + (nConsts fs : Int),
        eTrace c.data dec cnt fs) := by
  intro fuel
  induction fuel with
  | zero =>
    intro pos p' fs h cnt
    simp only [validProto] at h
    simp at h
  | succ fuel ih =>
    intro pos p' fs h cnt
    simp only [validProto] at h
    simp only [Ext.process_protoT]
    cases hvs : validString c false pos with
    | error e => rw [hvs, bind_err] at h; simp at h
    | ok a =>
      obtain ⟨f0, pos0⟩ := a
      rw [hvs, bind_ok] at h
      try simp only [] at h
      obtain ⟨hread, hc0⟩ := validString_ok c false pos f0 pos0 hvs
      rw [hread, bind_ok]
      try simp only []
      cases hr1 : read_int c.data c.endian c.int_size pos0 with
      | error e => rw [hr1, bind_err] at h; simp at h
      | ok a =>
        obtain ⟨a1, pos1⟩ := a
        rw [hr1, bind_ok] at h
        try simp only [] at h
        rw [bind_ok]
        try simp only []
        cases hr2 : read_int c.data c.endian c.int_size pos1 with
        | error e => rw [hr2, bind_err] at h; simp at h
        | ok a =>
          obtain ⟨a2, pos2⟩ := a
          rw [hr2, bind_ok] at h
          try simp only [] at h
          rw [bind_ok]
          try simp only []
          cases hsk4 : skipChecked c pos2 4 with
          | error e => rw [hsk4, bind_err] at h; simp at h
          | ok pos3 =>
            rw [hsk4, bind_ok] at h
            try simp only [] at h
            obtain ⟨e3, _⟩ := skipChecked_ok _ _ _ _ hsk4
            rw [← e3]
            cases hrc : read_int c.data c.endian c.int_size pos3 with
            | error e => rw [hrc, bind_err] at h; simp at h
            | ok a =>
              obtain ⟨sizecode, pos4⟩ := a
              rw [hrc, bind_ok] at h
              try simp only [] at h
              rw [bind_ok]
              try simp only []
              cases hg : guardCount sizecode with
              | error e => rw [hg, bind_err] at h; simp at h
              | ok ncode =>
                rw [hg, bind_ok] at h
                try simp only [] at h
                rw [bind_ok]
                try simp only []
                cases hskc : skipChecked c pos4 (ncode * c.instr_size) with
                | error e => rw [hskc, bind_err] at h; simp at h
                | ok pos5 =>
                  rw [hskc, bind_ok] at h
                  try simp only [] at h
                  obtain ⟨e5, _⟩ := skipChecked_ok _ _ _ _ hskc
                  rw [← e5]
                  cases hrk : read_int c.data c.endian c.int_size pos5 with
                  | error e => rw [hrk, bind_err] at h; simp at h
                  | ok a =>
                    obtain ⟨sizek, pos6⟩ := a
                    rw [hrk, bind_ok] at h
                    try simp only [] at h
                    rw [bind_ok]
                    try simp only []
                    cases hVK : validConsts c sizek.toNat pos6 with
                    | error e => rw [hVK, bind_err] at h; simp at h
                    | ok r =>
                      obtain ⟨pos7, fsK⟩ := r
                      rw [hVK, bind_ok] at h
                      try simp only [] at h
                      rw [validConsts_extract c dec _ _ _ _ hVK cnt, bind_ok]
                      try simp only []
                      cases hrp : read_int c.data c.endian c.int_size pos7 with
                      | error e => rw [hrp, bind_err] at h; simp at h
                      | ok a =>
                        obtain ⟨sizep, pos8⟩ := a
                        rw [hrp, bind_ok] at h
                        try simp only [] at h
                        rw [bind_ok]
                        try simp only []
                        cases hVC : validChildren (validProto c fuel) sizep.toNat pos8 with
                        | error e => rw [hVC, bind_err] at h; simp at h
                        | ok r =>
                          obtain ⟨pos9, fsP⟩ := r
                          rw [hVC, bind_ok] at h
                          try simp only [] at h
                          rw [validChildren_extract c dec (validProto c fuel)
                              (Ext.process_protoT c dec fuel)
                              (fun ps q g hh cn => ih ps q g hh cn) _ _ _ _ hVC
                              (cnt + (nConsts fsK : Int)), bind_ok]
                          try simp only []
                          cases hrli : read_int c.data c.endian c.int_size pos9 with
                          | error e => rw [hrli, bind_err] at h; simp at h
                          | ok a =>
                            obtain ⟨sizeli, pos10⟩ := a
                            rw [hrli, bind_ok] at h
                            try simp only [] at h
                            rw [bind_ok]
                            try simp only []
                            cases hgli : guardCount sizeli with
                            | error e => rw [hgli, bind_err] at h; simp at h
                            | ok nli =>
                              rw [hgli, bind_ok] at h
                              try simp only [] at h
                              rw [bind_ok]
                              try simp only []
                              cases hskli : skipChecked c pos10 (nli * c.int_size) with
                              | error e => rw [hskli, bind_err] at h; simp at h
                              | ok pos11 =>
                                rw [hskli, bind_ok] at h
                                try simp only [] at h
                                obtain ⟨e9, _⟩ := skipChecked_ok _ _ _ _ hskli
                                rw [← e9]
                                cases hrlv : read_int c.data c.endian c.int_size pos11 with
                                | error e => rw [hrlv, bind_err] at h; simp at h
                                | ok a =>
                                  obtain ⟨sizelv, pos12⟩ := a
                                  rw [hrlv, bind_ok] at h
                                  try simp only [] at h
                                  rw [bind_ok]
                                  try simp only []
                                  cases hVL : validLocvars c sizelv.toNat pos12 with
                                  | error e => rw [hVL, bind_err] at h; simp at h
                                  | ok r =>
                                    obtain ⟨pos13, fsLV⟩ := r
                                    rw [hVL, bind_ok] at h
                                    try simp only [] at h
                                    obtain ⟨hLE, hLN⟩ := validLocvars_extract c _ _ _ _ hVL
                                    rw [hLE, bind_ok]
                                    try simp only []
                                    cases hrup : read_int c.data c.endian c.int_size pos13 with
                                    | error e => rw [hrup, bind_err] at h; simp at h
                                    | ok a =>
                                      obtain ⟨sizeup, pos14⟩ := a
                                      rw [hrup, bind_ok] at h
                                      try simp only [] at h
                                      rw [bind_ok]
                                      try simp only []
                                      cases hVU : validUpvals c sizeup.toNat pos14 with
                                      | error e => rw [hVU, bind_err] at h; simp at h
                                      | ok r =>
                                        obtain ⟨pos15, fsUp⟩ := r
                                        rw [hVU, bind_ok] at h
                                        try simp only [] at h
                                        obtain ⟨hUE, hUN⟩ := validUpvals_extract c _ _ _ _ hVU
                                        rw [hUE, bind_ok]
                                        try simp only []
                                        simp only [Except.ok.injEq, Prod.mk.injEq] at h
                                        obtain ⟨hp, hfs⟩ := h
                                        subst hp; subst hfs
                                        have hb0 : ∀ f ∈ f0.toList, f.isConst = false := by
                                          rcases hc0 with ⟨hnone, _, _⟩ |
                                              ⟨g, hsome, _, hisc, _, _⟩
                                          · subst hnone; simp
                                          · subst hsome
                                            intro f hf
                                            simp only [Option.toList_some,
                                              List.mem_singleton] at hf
                                            subst hf
                                            exact hisc
                                        obtain ⟨r0, t0, n0⟩ :=
                                          eRecs_nonconst c.data dec f0.toList hb0 cnt
                                        simp only [Except.ok.injEq, Prod.mk.injEq]
                                        have hNtot : (nConsts (f0.toList ++ fsK ++ fsP ++
                                            fsLV ++ fsUp) : Int) =
                                            (nConsts fsK : Int) + (nConsts fsP : Int) := by
                                          rw [nConsts_append, nConsts_append, nConsts_append,
                                              nConsts_append, n0]
                                          rw [(eRecs_nonconst c.data dec fsLV hLN 0).2.2,
                                              (eRecs_nonconst c.data dec fsUp hUN 0).2.2]
                                          push_cast
                                          ring
                                        have hLU : ∀ f ∈ fsLV ++ fsUp, f.isConst = false := by
                                          intro f hf
                                          rcases List.mem_append.mp hf with hf | hf
                                          · exact hLN f hf
                                          · exact hUN f hf
                                        refine ⟨trivial, ?_, ?_, ?_⟩
                                        · simp only [List.append_assoc]
                                          rw [eRecs_append, r0, List.nil_append, n0]
                                          simp only [Nat.cast_zero, add_zero]
                                          rw [eRecs_append]
                                          congr 1
                                          rw [eRecs_append]
                                          rw [(eRecs_nonconst c.data dec (fsLV ++ fsUp)
                                            hLU _).1]
                                          rw [List.append_nil]
                                        · rw [hNtot]
                                          ring
                                        · simp only [List.append_assoc]
                                          rw [eTrace_append, t0, List.nil_append, n0]
                                          simp only [Nat.cast_zero, add_zero]
                                          rw [eTrace_append]
                                          congr 1
                                          rw [eTrace_append]
                                          rw [(eRecs_nonconst c.data dec (fsLV ++ fsUp)
                                            hLU _).2.1]
                                          rw [List.append_nil]

theorem get_slice_singleton (data : List Nat) (pos t : Nat) (h : data.get? pos = some t) :
    sliceFT data pos (pos + 1) = [t] := by
  unfold sliceFT
  rw [show pos + 1 - pos = 1 by omega]
  have hlt : pos < data.length := by
    by_contra hc
    rw [List.get?_eq_none.mpr (by omega)] at h
    cases h
  rcases hd : data.drop pos with _ | ⟨b, rest⟩
  · have := congrArg List.length hd
    simp only [List.length_drop, List.length_nil] at this
    omega
  · have hb : data.get? pos = some b := by
      have := congrArg List.head? hd
      rw [List.head?_drop] at this
      simpa using this
    rw [h] at hb
    cases hb
    simp

theorem pyIndex_ok (data : List Nat) (pos t : Nat) (h : pyIndex data pos = .ok t) :
    data.get? pos = some t := by
  unfold pyIndex at h
  split at h
  · cases h; assumption
  · cases h


/-- Prepending a copied region to a splice over later fields. -/
theorem spliceRun_prepend_ok (c : Chk) (m : List (Int × String)) (dec : List Nat → String)
    (enc : String → Except PErr (List Nat)) (fs : List StrF) (cnt : Int)
    (pos pos' stop : Nat) (o : List Nat) (cn : Int) (tr : List Int)
    (hle : pos ≤ pos') (hw : fsWithin c pos' stop fs)
    (h : spliceRun c m dec enc cnt pos' stop fs = .ok (o, cn, tr)) :
    spliceRun c m dec enc cnt pos stop fs = .ok (sliceFT c.data pos pos' ++ o, cn, tr) := by
  cases fs with
  | nil =>
    simp only [spliceRun, Except.ok.injEq, Prod.mk.injEq] at h ⊢
    obtain ⟨h1, h2, h3⟩ := h
    subst h2; subst h3
    refine ⟨?_, rfl, rfl⟩
    rw [← h1]
    exact (sliceFT_append c.data pos pos' stop hle hw).symm
  | cons f fs =>
    obtain ⟨hb, hfok, _⟩ := hw
    simp only [spliceRun] at h ⊢
    by_cases hc : f.isConst
    · rw [if_pos hc] at h ⊢
      cases hpc : patch_const_string (fieldRaw c.data f) (cnt + 1) m dec enc with
      | error e => simp only [hpc, bind_err] at h; simp at h
      | ok s2 =>
        rw [hpc, bind_ok] at h; rw [bind_ok]
        cases hwl : write_lstring c.endian c.size_t_size (some s2) with
        | error e => simp only [hwl, bind_err] at h; simp at h
        | ok w =>
          rw [hwl, bind_ok] at h; rw [bind_ok]
          cases hr : spliceRun c m dec enc (cnt + 1) (f.start + f.len) stop fs with
          | error e => simp only [hr, bind_err] at h; simp at h
          | ok r =>
            obtain ⟨o1, c1, t1⟩ := r
            rw [hr, bind_ok] at h; rw [bind_ok]
            simp only [Except.ok.injEq, Prod.mk.injEq] at h ⊢
            obtain ⟨h1, h2, h3⟩ := h
            subst h2; subst h3
            refine ⟨?_, rfl, rfl⟩
            rw [← h1, ← List.append_assoc, ← List.append_assoc]
            congr 2
            exact (sliceFT_append c.data pos pos' (f.start - c.size_t_size) hle (by omega)).symm
    · rw [if_neg hc] at h ⊢
      cases hwl : write_lstring c.endian c.size_t_size (some (fieldRaw c.data f)) with
      | error e => simp only [hwl, bind_err] at h; simp at h
      | ok w =>
        rw [hwl, bind_ok] at h; rw [bind_ok]
        cases hr : spliceRun c m dec enc cnt (f.start + f.len) stop fs with
        | error e => simp only [hr, bind_err] at h; simp at h
        | ok r =>
          obtain ⟨o1, c1, t1⟩ := r
          rw [hr, bind_ok] at h; rw [bind_ok]
          simp only [Except.ok.injEq, Prod.mk.injEq] at h ⊢
          obtain ⟨h1, h2, h3⟩ := h
          subst h2; subst h3
          refine ⟨?_, rfl, rfl⟩
          rw [← h1, ← List.append_assoc, ← List.append_assoc]
          congr 2
          exact (sliceFT_append c.data pos pos' (f.start - c.size_t_size) hle (by omega)).symm

/-- Splicing over a concatenation of two chained field lists. -/
theorem spliceRun_append_ok (c : Chk) (m : List (Int × String)) (dec : List Nat → String)
    (enc : String → Except PErr (List Nat)) :
    ∀ fs1 fs2 cnt pos mid stop o1 c1 t1 o2 c2 t2,
    fsWithin c pos mid fs1 → fsWithin c mid stop fs2 →
    spliceRun c m dec enc cnt pos mid fs1 = .ok (o1, c1, t1) →
    spliceRun c m dec enc c1 mid stop fs2 = .ok (o2, c2, t2) →
    spliceRun c m dec enc cnt pos stop (fs1 ++ fs2) = .ok (o1 ++ o2, c2, t1 ++ t2) := by
  intro fs1
  induction fs1 with
  | nil =>
    intro fs2 cnt pos mid stop o1 c1 t1 o2 c2 t2 hw1 hw2 h1 h2
    simp only [spliceRun, Except.ok.injEq, Prod.mk.injEq] at h1
    obtain ⟨e1, e2, e3⟩ := h1
    subst e2; subst e3
    rw [List.nil_append, List.nil_append]
    rw [spliceRun_prepend_ok c m dec enc fs2 cnt pos mid stop o2 c2 t2 hw1 hw2 h2, ← e1]
  | cons f fs ih =>
    intro fs2 cnt pos mid stop o1 c1 t1 o2 c2 t2 hw1 hw2 h1 h2
    obtain ⟨hb, hfok, hw1'⟩ := hw1
    rw [List.cons_append]
    simp only [spliceRun] at h1 ⊢
    by_cases hc : f.isConst
    · rw [if_pos hc] at h1 ⊢
      cases hpc : patch_const_string (fieldRaw c.data f) (cnt + 1) m dec enc with
      | error e => simp only [hpc, bind_err] at h1; simp at h1
      | ok s2 =>
        rw [hpc, bind_ok] at h1; rw [bind_ok]
        cases hwl : write_lstring c.endian c.size_t_size (some s2) with
        | error e => simp only [hwl, bind_err] at h1; simp at h1
        | ok w =>
          rw [hwl, bind_ok] at h1; rw [bind_ok]
          cases hr : spliceRun c m dec enc (cnt + 1) (f.start + f.len) mid fs with
          | error e => simp only [hr, bind_err] at h1; simp at h1
          | ok r =>
            obtain ⟨o3, c3, t3⟩ := r
            rw [hr, bind_ok] at h1
            simp only [Except.ok.injEq, Prod.mk.injEq] at h1
            obtain ⟨e1, e2, e3⟩ := h1
            subst e2; subst e3
            rw [ih fs2 (cnt + 1) (f.start + f.len) mid stop o3 c3 t3 o2 c2 t2 hw1' hw2 hr h2,
              bind_ok]
            rw [← e1]
            simp [List.append_assoc]
    · rw [if_neg hc] at h1 ⊢
      cases hwl : write_lstring c.endian c.size_t_size (some (fieldRaw c.data f)) with
      | error e => simp only [hwl, bind_err] at h1; simp at h1
      | ok w =>
        rw [hwl, bind_ok] at h1; rw [bind_ok]
        cases hr : spliceRun c m dec enc cnt (f.start + f.len) mid fs with
        | error e => simp only [hr, bind_err] at h1; simp at h1
        | ok r =>
          obtain ⟨o3, c3, t3⟩ := r
          rw [hr, bind_ok] at h1
          simp only [Except.ok.injEq, Prod.mk.injEq] at h1
          obtain ⟨e1, e2, e3⟩ := h1
          subst e2; subst e3
          rw [ih fs2 cnt (f.start + f.len) mid stop o3 c3 t3 o2 c2 t2 hw1' hw2 hr h2,
            bind_ok]
          rw [← e1]
          simp [List.append_assoc]

/-- Over validated non-constant fields the splice is the identity copy: the
mapping is never consulted and every field re-emits its own bytes. -/
theorem spliceRun_nonconst (c : Chk) (m : List (Int × String)) (dec : List Nat → String)
    (enc : String → Except PErr (List Nat)) (HB : ∀ b ∈ c.data, b < 256) :
    ∀ fs cnt pos stop, fsWithin c pos stop fs → (∀ f ∈ fs, f.isConst = false) →
    spliceRun c m dec enc cnt pos stop fs = .ok (sliceFT c.data pos stop, cnt, []) := by
  intro fs
  induction fs with
  | nil => intro cnt pos stop _ _; rfl
  | cons f fs ih =>
    intro cnt pos stop hw hnc
    obtain ⟨hb, hfok, hw'⟩ := hw
    have hfc : f.isConst = false := hnc f (by simp)
    have hssz : c.size_t_size ≤ f.start := hfok.1
    have hstop : f.start + f.len ≤ stop := fsWithin_le c fs _ _ hw'
    simp only [spliceRun, hfc, if_neg (by simp : ¬ (false = true))]
    rw [field_write c f HB hfok, bind_ok]
    rw [ih cnt (f.start + f.len) stop hw' (fun g hg => hnc g (by simp [hg])), bind_ok]
    simp only []
    rw [sliceFT_append c.data pos (f.start - c.size_t_size) (f.start + f.len)
      (by omega) (by omega)]
    rw [sliceFT_append c.data pos (f.start + f.len) stop (by omega) hstop]

/-- A splice error does not depend on the left copy boundary. -/
theorem spliceRun_prepend_err (c : Chk) (m : List (Int × String)) (dec : List Nat → String)
    (enc : String → Except PErr (List Nat)) (fs : List StrF) (cnt : Int)
    (pos pos' stop : Nat) (e : PErr)
    (h : spliceRun c m dec enc cnt pos' stop fs = .error e) :
    spliceRun c m dec enc cnt pos stop fs = .error e := by
  cases fs with
  | nil => simp only [spliceRun] at h; simp at h
  | cons f fs =>
    simp only [spliceRun] at h ⊢
    by_cases hc : f.isConst
    · rw [if_pos hc] at h ⊢
      cases hpc : patch_const_string (fieldRaw c.data f) (cnt + 1) m dec enc with
      | error e2 => simp only [hpc, bind_err] at h ⊢; exact h
      | ok s2 =>
        simp only [hpc, bind_ok] at h ⊢
        cases hwl : write_lstring c.endian c.size_t_size (some s2) with
        | error e2 => simp only [hwl, bind_err] at h ⊢; exact h
        | ok w =>
          simp only [hwl, bind_ok] at h ⊢
          cases hr : spliceRun c m dec enc (cnt + 1) (f.start + f.len) stop fs with
          | error e2 => simp only [hr, bind_err] at h ⊢; exact h
          | ok r => simp only [hr, bind_ok] at h; simp at h
    · rw [if_neg hc] at h ⊢
      cases hwl : write_lstring c.endian c.size_t_size (some (fieldRaw c.data f)) with
      | error e2 => simp only [hwl, bind_err] at h ⊢; exact h
      | ok w =>
        simp only [hwl, bind_ok] at h ⊢
        cases hr : spliceRun c m dec enc cnt (f.start + f.len) stop fs with
        | error e2 => simp only [hr, bind_err] at h ⊢; exact h
        | ok r => simp only [hr, bind_ok] at h; simp at h

/-- Moving the left copy boundary of a splice backwards prepends the copied
slice to its output. -/
theorem spliceRun_prepend_eq (c : Chk) (m : List (Int × String)) (dec : List Nat → String)
    (enc : String → Except PErr (List Nat)) (fs : List StrF) (cnt : Int)
    (pos pos' stop : Nat) (hle : pos ≤ pos') (hw : fsWithin c pos' stop fs) :
    spliceRun c m dec enc cnt pos stop fs =
      (spliceRun c m dec enc cnt pos' stop fs).map
        (fun r => (sliceFT c.data pos pos' ++ r.1, r.2)) := by
  cases hres : spliceRun c m dec enc cnt pos' stop fs with
  | error e => rw [map_err]; exact spliceRun_prepend_err c m dec enc fs cnt pos pos' stop e hres
  | ok r =>
    obtain ⟨o, cn, tr⟩ := r
    rw [map_ok]
    exact spliceRun_prepend_ok c m dec enc fs cnt pos pos' stop o cn tr hle hw hres

/-- Splitting a splice over a concatenation of chained field lists at the
boundary cursor, in full program-equality form. -/
theorem spliceRun_split_eq (c : Chk) (m : List (Int × String)) (dec : List Nat → String)
    (enc : String → Except PErr (List Nat)) : ∀ fs1 fs2 cnt pos mid stop,
    fsWithin c pos mid fs1 → fsWithin c mid stop fs2 →
    spliceRun c m dec enc cnt pos stop (fs1 ++ fs2) =
      (do
        let (o1, c1, t1) ← spliceRun c m dec enc cnt pos mid fs1
        let (o2, c2, t2) ← spliceRun c m dec enc c1 mid stop fs2
        .ok (o1 ++ o2, c2, t1 ++ t2)) := by
  intro fs1
  induction fs1 with
  | nil =>
    intro fs2 cnt pos mid stop hw1 hw2
    rw [List.nil_append]
    rw [spliceRun_prepend_eq c m dec enc fs2 cnt pos mid stop hw1 hw2]
    show _ = (Except.ok (sliceFT c.data pos mid, cnt, []) >>= _)
    rw [bind_ok]
    simp only []
    cases hres : spliceRun c m dec enc cnt mid stop fs2 with
    | error e => rw [map_err, bind_err]
    | ok r =>
      obtain ⟨o2, c2, t2⟩ := r
      rw [map_ok, bind_ok]
      simp
  | cons f fs ih =>
    intro fs2 cnt pos mid stop hw1 hw2
    obtain ⟨hb, hfok, hw1'⟩ := hw1
    rw [List.cons_append]
    simp only [spliceRun]
    by_cases hc : f.isConst
    · rw [if_pos hc, if_pos hc]
      cases hpc : patch_const_string (fieldRaw c.data f) (cnt + 1) m dec enc with
      | error e => simp only [hpc, bind_err]
      | ok s2 =>
        simp only [hpc, bind_ok]
        cases hwl : write_lstring c.endian c.size_t_size (some s2) with
        | error e => simp only [hwl, bind_err]
        | ok w =>
          simp only [hwl, bind_ok]
          rw [ih fs2 (cnt + 1) (f.start + f.len) mid stop hw1' hw2]
          cases hr : spliceRun c m dec enc (cnt + 1) (f.start + f.len) mid fs with
          | error e => simp only [hr, bind_err]
          | ok r =>
            obtain ⟨o3, c3, t3⟩ := r
            simp only [hr, bind_ok]
            cases hr2 : spliceRun c m dec enc c3 mid stop fs2 with
            | error e => simp only [hr2, bind_err]
            | ok r2 =>
              obtain ⟨o2, c2, t2⟩ := r2
              simp only [hr2, bind_ok]
              simp [List.append_assoc]
    · rw [if_neg hc, if_neg hc]
      cases hwl : write_lstring c.endian c.size_t_size (some (fieldRaw c.data f)) with
      | error e => simp only [hwl, bind_err]
      | ok w =>
        simp only [hwl, bind_ok]
        rw [ih fs2 cnt (f.start + f.len) mid stop hw1' hw2]
        cases hr : spliceRun c m dec enc cnt (f.start + f.len) mid fs with
        | error e => simp only [hr, bind_err]
        | ok r =>
          obtain ⟨o3, c3, t3⟩ := r
          simp only [hr, bind_ok]
          cases hr2 : spliceRun c m dec enc c3 mid stop fs2 with
          | error e => simp only [hr2, bind_err]
          | ok r2 =>
            obtain ⟨o2, c2, t2⟩ := r2
            simp only [hr2, bind_ok]
            simp [List.append_assoc]

/-- On a validated constant table the traced patch loop equals the splice
over the recorded fields from the same counter between the same cursors. -/
theorem validConsts_patch (c : Chk) (m : List (Int × String)) (dec : List Nat → String)
    (enc : String → Except PErr (List Nat)) (HB : ∀ b ∈ c.data, b < 256) :
    ∀ k pos p' fs, validConsts c k pos = .ok (p', fs) → ∀ cnt,
    Imp.constLoopT c m dec enc k pos cnt =
      (spliceRun c m dec enc cnt pos p' fs).map (fun r => (p', r.1, r.2.1, r.2.2)) := by
  intro k
  induction k with
  | zero =>
    intro pos p' fs h cnt
    simp only [validConsts, Except.ok.injEq, Prod.mk.injEq] at h
    obtain ⟨h1, h2⟩ := h
    subst h1; subst h2
    simp [Imp.constLoopT, spliceRun, sliceFT, map_ok]
  | succ k ih =>
    intro pos p' fs h cnt
    simp only [validConsts] at h
    simp only [Imp.constLoopT]
    cases ht : pyIndex c.data pos with
    | error e => rw [ht, bind_err] at h; simp at h
    | ok t =>
      rw [ht, bind_ok] at h
      rw [bind_ok]
      have hsl1 : sliceFT c.data pos (pos + 1) = [t] :=
        get_slice_singleton c.data pos t (pyIndex_ok c.data pos t ht)
      by_cases h0 : t = 0
      · rw [if_pos h0] at h ⊢
        rw [ih _ _ _ h cnt]
        rw [spliceRun_prepend_eq c m dec enc fs cnt pos (pos + 1) p'
          (by omega) (validConsts_within c k (pos + 1) p' fs h)]
        cases hsp : spliceRun c m dec enc cnt (pos + 1) p' fs with
        | error e => rw [map_err, map_err, bind_err, map_err]
        | ok r =>
          obtain ⟨o, cn, tr⟩ := r
          rw [map_ok, map_ok, bind_ok, map_ok]
          simp [hsl1, h0]
      rw [if_neg h0] at h ⊢
      by_cases h1 : t = 1
      · rw [if_pos h1] at h ⊢
        cases hsk : skipChecked c (pos + 1) 1 with
        | error e => rw [hsk, bind_err] at h; simp at h
        | ok pos2 =>
          rw [hsk, bind_ok] at h
          obtain ⟨he, hle⟩ := skipChecked_ok _ _ _ _ hsk
          subst he
          rw [ih _ _ _ h cnt]
          rw [spliceRun_prepend_eq c m dec enc fs cnt pos (pos + 1 + 1) p'
            (by omega) (validConsts_within c k (pos + 1 + 1) p' fs h)]
          have hsl2 : sliceFT c.data pos (pos + 1 + 1) = [t] ++ pySlice c.data (pos + 1) 1 := by
            rw [pySlice_eq_sliceFT, ← hsl1]
            exact (sliceFT_append c.data pos (pos + 1) (pos + 1 + 1) (by omega) (by omega)).symm
          cases hsp : spliceRun c m dec enc cnt (pos + 1 + 1) p' fs with
          | error e => rw [map_err, map_err, bind_err, map_err]
          | ok r =>
            obtain ⟨o, cn, tr⟩ := r
            rw [map_ok, map_ok, bind_ok, map_ok]
            simp [hsl2, h1]
      rw [if_neg h1] at h ⊢
      by_cases h3 : t = 3
      · rw [if_pos h3] at h ⊢
        cases hsk : skipChecked c (pos + 1) c.number_size with
        | error e => rw [hsk, bind_err] at h; simp at h
        | ok pos2 =>
          rw [hsk, bind_ok] at h
          obtain ⟨he, hle⟩ := skipChecked_ok _ _ _ _ hsk
          subst he
          rw [ih _ _ _ h cnt]
          rw [spliceRun_prepend_eq c m dec enc fs cnt pos (pos + 1 + c.number_size) p'
            (by omega) (validConsts_within c k (pos + 1 + c.number_size) p' fs h)]
          have hsl2 : sliceFT c.data pos (pos + 1 + c.number_size) =
              [t] ++ pySlice c.data (pos + 1) c.number_size := by
            rw [pySlice_eq_sliceFT, ← hsl1]
            exact (sliceFT_append c.data pos (pos + 1) (pos + 1 + c.number_size)
              (by omega) (by omega)).symm
          cases hsp : spliceRun c m dec enc cnt (pos + 1 + c.number_size) p' fs with
          | error e => rw [map_err, map_err, bind_err, map_err]
          | ok r =>
            obtain ⟨o, cn, tr⟩ := r
            rw [map_ok, map_ok, bind_ok, map_ok]
            simp [hsl2, h3]
      rw [if_neg h3] at h ⊢
      by_cases h4 : t = 4
      · rw [if_pos h4] at h ⊢
        cases hvs : validString c true (pos + 1) with
        | error e => rw [hvs, bind_err] at h; simp at h
        | ok a =>
          obtain ⟨of, pos1⟩ := a
          rw [hvs, bind_ok] at h
          cases hK : validConsts c k pos1 with
          | error e => rw [hK, bind_err] at h; simp at h
          | ok r =>
            obtain ⟨p2, fs2⟩ := r
            rw [hK, bind_ok] at h
            simp only [Except.ok.injEq, Prod.mk.injEq] at h
            obtain ⟨hp, hfs⟩ := h
            subst hp; subst hfs
            obtain ⟨hread, hc⟩ := validString_ok c true (pos + 1) of pos1 hvs
            rw [hread, bind_ok]
            rcases hc with ⟨hnone, hpos, hrs⟩ | ⟨f, hsome, hstart, hisc, hpos, hfok⟩
            · subst hnone
              subst hpos
              simp only [Option.map_none', Option.toList_none, List.nil_append]
              obtain ⟨hw0, _, _⟩ := write_size_t_slice c.data c.endian c.size_t_size
                (pos + 1) 0 (pos + 1 + c.size_t_size) HB hrs
              show (write_lstring c.endian c.size_t_size none >>= _) = _
              rw [show write_lstring c.endian c.size_t_size none =
                    write_size_t c.endian c.size_t_size 0 from rfl, hw0, bind_ok]
              rw [ih _ _ _ hK cnt]
              rw [spliceRun_prepend_eq c m dec enc fs2 cnt pos (pos + 1 + c.size_t_size) p2
                (by omega) (validConsts_within c k (pos + 1 + c.size_t_size) p2 fs2 hK)]
              have hsl2 : sliceFT c.data pos (pos + 1 + c.size_t_size) =
                  [t] ++ sliceFT c.data (pos + 1) (pos + 1 + c.size_t_size) := by
                rw [← hsl1]
                exact (sliceFT_append c.data pos (pos + 1) (pos + 1 + c.size_t_size)
                  (by omega) (by omega)).symm
              cases hsp : spliceRun c m dec enc cnt (pos + 1 + c.size_t_size) p2 fs2 with
              | error e => rw [map_err, map_err, bind_err, map_err]
              | ok r =>
                obtain ⟨o, cn, tr⟩ := r
                rw [map_ok, map_ok, bind_ok, map_ok]
                simp [hsl2]
            · subst hsome
              subst hpos
              simp only [Option.map_some', Option.toList_some, List.singleton_append]
              simp only [spliceRun]
              rw [if_pos hisc]
              cases hpc : patch_const_string (fieldRaw c.data f) (cnt + 1) m dec enc with
              | error e => simp only [hpc, bind_err, map_err]
              | ok s2 =>
                simp only [hpc, bind_ok]
                cases hwl : write_lstring c.endian c.size_t_size (some s2) with
                | error e => simp only [hwl, bind_err, map_err]
                | ok w =>
                  simp only [hwl, bind_ok]
                  rw [ih _ _ _ hK (cnt + 1)]
                  cases hsp : spliceRun c m dec enc (cnt + 1) (f.start + f.len) p2 fs2 with
                  | error e => simp only [hsp, bind_err, map_err, bind_err]
                  | ok r =>
                    obtain ⟨o, cn, tr⟩ := r
                    simp only [hsp, bind_ok, map_ok, bind_ok]
                    have hsl2 : sliceFT c.data pos (f.start - c.size_t_size) = [t] := by
                      rw [hstart, show pos + 1 + c.size_t_size - c.size_t_size = pos + 1 by omega]
                      exact hsl1
                    simp [hsl2]
      · rw [if_neg h4] at h
        simp at h

/-- On validated local-variable records the patch walker re-emits exactly
the input slice. -/
theorem validLocvars_patch (c : Chk) (HB : ∀ b ∈ c.data, b < 256) : ∀ k pos p' fs,
    validLocvars c k pos = .ok (p', fs) →
    Imp.locvarLoop c k pos = .ok (p', sliceFT c.data pos p') := by
  intro k
  induction k with
  | zero =>
    intro pos p' fs h
    simp only [validLocvars, Except.ok.injEq, Prod.mk.injEq] at h
    obtain ⟨h1, h2⟩ := h
    subst h1; subst h2
    simp [Imp.locvarLoop, sliceFT]
  | succ k ih =>
    intro pos p' fs h
    simp only [validLocvars] at h
    simp only [Imp.locvarLoop]
    cases hvs : validString c false pos with
    | error e => rw [hvs, bind_err] at h; simp at h
    | ok a =>
      obtain ⟨of, pos1⟩ := a
      rw [hvs, bind_ok] at h
      cases hr1 : read_int c.data c.endian c.int_size pos1 with
      | error e => rw [hr1, bind_err] at h; simp at h
      | ok a =>
        obtain ⟨a1, pos2⟩ := a
        rw [hr1, bind_ok] at h
        cases hr2 : read_int c.data c.endian c.int_size pos2 with
        | error e => rw [hr2, bind_err] at h; simp at h
        | ok a =>
          obtain ⟨a2, pos3⟩ := a
          rw [hr2, bind_ok] at h
          cases hK : validLocvars c k pos3 with
          | error e => rw [hK, bind_err] at h; simp at h
          | ok r =>
            obtain ⟨p2, fs2⟩ := r
            rw [hK, bind_ok] at h
            simp only [Except.ok.injEq, Prod.mk.injEq] at h
            obtain ⟨hp, hfs⟩ := h
            subst hp; subst hfs
            obtain ⟨hread, hc⟩ := validString_ok c false pos of pos1 hvs
            rw [hread, bind_ok]
            have hw : write_lstring c.endian c.size_t_size
                (Option.map (fieldRaw c.data) of) = .ok (sliceFT c.data pos pos1) ∧
                pos ≤ pos1 := by
              rcases hc with ⟨hnone, hpos, hrs⟩ | ⟨f, hsome, hstart, _, hpos, hfok⟩
              · subst hnone; subst hpos
                obtain ⟨hw0, _, _⟩ := write_size_t_slice c.data c.endian c.size_t_size
                  pos 0 (pos + c.size_t_size) HB hrs
                exact ⟨hw0, by omega⟩
              · subst hsome; subst hpos
                have := field_write c f HB hfok
                rw [Option.map_some', this]
                have hssz : c.size_t_size ≤ f.start := hfok.1
                rw [hstart, show pos + c.size_t_size - c.size_t_size = pos by omega]
                exact ⟨rfl, by omega⟩
            rw [hw.1, bind_ok]
            simp only []
            rw [hr1, bind_ok]
            simp only []
            rw [hr2, bind_ok]
            simp only []
            obtain ⟨hwa, e1⟩ := write_int_slice c.data c.endian c.int_size pos1 a1 pos2 HB hr1
            obtain ⟨hwb, e2⟩ := write_int_slice c.data c.endian c.int_size pos2 a2 pos3 HB hr2
            rw [hwa, bind_ok, hwb, bind_ok]
            try simp only []
            rw [ih _ _ _ hK, bind_ok]
            have hle : pos3 ≤ p2 := fsWithin_le c fs2 _ _ (validLocvars_within c k pos3 p2 fs2 hK)
            simp only [Except.ok.injEq, Prod.mk.injEq]
            refine ⟨trivial, ?_⟩
            rw [sliceFT_append c.data pos pos1 pos2 hw.2 (by omega)]
            rw [sliceFT_append c.data pos pos2 pos3 (by omega) (by omega)]
            rw [sliceFT_append c.data pos pos3 p2 (by omega) hle]

/-- On validated upvalue names the patch walker re-emits exactly the input
slice. -/
theorem validUpvals_patch (c : Chk) (HB : ∀ b ∈ c.data, b < 256) : ∀ k pos p' fs,
    validUpvals c k pos = .ok (p', fs) →
    Imp.upvalLoop c k pos = .ok (p', sliceFT c.data pos p') := by
  intro k
  induction k with
  | zero =>
    intro pos p' fs h
    simp only [validUpvals, Except.ok.injEq, Prod.mk.injEq] at h
    obtain ⟨h1, h2⟩ := h
    subst h1; subst h2
    simp [Imp.upvalLoop, sliceFT]
  | succ k ih =>
    intro pos p' fs h
    simp only [validUpvals] at h
    simp only [Imp.upvalLoop]
    cases hvs : validString c false pos with
    | error e => rw [hvs, bind_err] at h; simp at h
    | ok a =>
      obtain ⟨of, pos1⟩ := a
      rw [hvs, bind_ok] at h
      cases hK : validUpvals c k pos1 with
      | error e => rw [hK, bind_err] at h; simp at h
      | ok r =>
        obtain ⟨p2, fs2⟩ := r
        rw [hK, bind_ok] at h
        simp only [Except.ok.injEq, Prod.mk.injEq] at h
        obtain ⟨hp, hfs⟩ := h
        subst hp; subst hfs
        obtain ⟨hread, hc⟩ := validString_ok c false pos of pos1 hvs
        rw [hread, bind_ok]
        have hw : write_lstring c.endian c.size_t_size
            (Option.map (fieldRaw c.data) of) = .ok (sliceFT c.data pos pos1) ∧
            pos ≤ pos1 := by
          rcases hc with ⟨hnone, hpos, hrs⟩ | ⟨f, hsome, hstart, _, hpos, hfok⟩
          · subst hnone; subst hpos
            obtain ⟨hw0, _, _⟩ := write_size_t_slice c.data c.endian c.size_t_size
              pos 0 (pos + c.size_t_size) HB hrs
            exact ⟨hw0, by omega⟩
          · subst hsome; subst hpos
            have := field_write c f HB hfok
            rw [Option.map_some', this]
            have hssz : c.size_t_size ≤ f.start := hfok.1
            rw [hstart, show pos + c.size_t_size - c.size_t_size = pos by omega]
            exact ⟨rfl, by omega⟩
        rw [hw.1, bind_ok]
        simp only []
        rw [ih _ _ _ hK, bind_ok]
        have hle : pos1 ≤ p2 := fsWithin_le c fs2 _ _ (validUpvals_within c k pos1 p2 fs2 hK)
        simp only [Except.ok.injEq, Prod.mk.injEq]
        refine ⟨trivial, ?_⟩
        rw [sliceFT_append c.data pos pos1 p2 hw.2 hle]

/-- On validated children the traced patch child loop equals the splice over
the concatenated child fields. -/
theorem validChildren_patch (c : Chk) (m : List (Int × String)) (dec : List Nat → String)
    (enc : String → Except PErr (List Nat))
    (vstep : Nat → Except PErr (Nat × List StrF))
    (pstep : Nat → Int → Except PErr (Nat × List Nat × Int × List Int))
    (hwstep : ∀ pos p' fs, vstep pos = .ok (p', fs) → fsWithin c pos p' fs)
    (hstep : ∀ pos p' fs, vstep pos = .ok (p', fs) → ∀ cnt,
      pstep pos cnt =
        (spliceRun c m dec enc cnt pos p' fs).map (fun r => (p', r.1, r.2.1, r.2.2))) :
    ∀ n pos p' fs, validChildren vstep n pos = .ok (p', fs) → ∀ cnt,
      Imp.childLoopT pstep n pos cnt =
        (spliceRun c m dec enc cnt pos p' fs).map (fun r => (p', r.1, r.2.1, r.2.2)) := by
  intro n
  induction n with
  | zero =>
    intro pos p' fs h cnt
    simp only [validChildren, Except.ok.injEq, Prod.mk.injEq] at h
    obtain ⟨h1, h2⟩ := h
    subst h1; subst h2
    simp [Imp.childLoopT, spliceRun, sliceFT, map_ok]
  | succ n ih =>
    intro pos p' fs h cnt
    simp only [validChildren] at h
    simp only [Imp.childLoopT]
    cases hs : vstep pos with
    | error e => rw [hs, bind_err] at h; simp at h
    | ok r =>
      obtain ⟨pos1, fs1⟩ := r
      rw [hs, bind_ok] at h
      cases hK : validChildren vstep n pos1 with
      | error e => rw [hK, bind_err] at h; simp at h
      | ok r2 =>
        obtain ⟨p2, fs2⟩ := r2
        rw [hK, bind_ok] at h
        simp only [Except.ok.injEq, Prod.mk.injEq] at h
        obtain ⟨hp, hfs⟩ := h
        subst hp; subst hfs
        rw [hstep _ _ _ hs cnt]
        rw [spliceRun_split_eq c m dec enc fs1 fs2 cnt pos pos1 p2
          (hwstep _ _ _ hs) (validChildren_within c vstep hwstep n pos1 p2 fs2 hK)]
        cases hsp1 : spliceRun c m dec enc cnt pos pos1 fs1 with
        | error e => simp only [map_err, bind_err]
        | ok r =>
          obtain ⟨o1, c1, t1⟩ := r
          simp only [map_ok, bind_ok]
          try simp only []
          rw [ih _ _ _ hK c1]
          cases hsp2 : spliceRun c m dec enc c1 pos1 p2 fs2 with
          | error e => simp only [map_err, bind_err]
          | ok r2 =>
            obtain ⟨o2, c2, t2⟩ := r2
            simp only [map_ok, bind_ok]

/-- Assembly step of `validProto_patch`: with every sub-walk validated and
all cursors named, one prototype node of the traced patch walker equals the
splice over its concatenated fields. -/
theorem validProto_patch_core (c : Chk) (m : List (Int × String)) (dec : List Nat → String)
    (enc : String → Except PErr (List Nat)) (HB : ∀ b ∈ c.data, b < 256) (fuel : Nat)
    (ih : ∀ pos p' fs, validProto c fuel pos = .ok (p', fs) → ∀ cnt,
      Imp.process_protoT c m dec enc fuel pos cnt =
        (spliceRun c m dec enc cnt pos p' fs).map (fun r => (p', r.1, r.2.1, r.2.2)))
    (pos pos0 pos1 pos2 pos3 pos4 pos5 pos6 pos7 pos8
      pos9 pos10 pos11 pos12 pos13 pos14 pos15 : Nat)
    (f0 : Option StrF) (a1 a2 sizecode : Int) (ncode : Nat) (sizek : Int)
    (fsK : List StrF) (sizep : Int) (fsP : List StrF)
    (sizeli : Int) (nli : Nat) (sizelv : Int) (fsLV : List StrF)
    (sizeup : Int) (fsUp : List StrF) (cnt : Int)
    (hvs : validString c false pos = .ok (f0, pos0))
    (hr1 : read_int c.data c.endian c.int_size pos0 = .ok (a1, pos1))
    (hr2 : read_int c.data c.endian c.int_size pos1 = .ok (a2, pos2))
    (hsk4 : skipChecked c pos2 4 = .ok pos3)
    (hrc : read_int c.data c.endian c.int_size pos3 = .ok (sizecode, pos4))
    (hg : guardCount sizecode = .ok ncode)
    (hskc : skipChecked c pos4 (ncode * c.instr_size) = .ok pos5)
    (hrk : read_int c.data c.endian c.int_size pos5 = .ok (sizek, pos6))
    (hVK : validConsts c sizek.toNat pos6 = .ok (pos7, fsK))
    (hrp : read_int c.data c.endian c.int_size pos7 = .ok (sizep, pos8))
    (hVC : validChildren (validProto c fuel) sizep.toNat pos8 = .ok (pos9, fsP))
    (hrli : read_int c.data c.endian c.int_size pos9 = .ok (sizeli, pos10))
    (hgli : guardCount sizeli = .ok nli)
    (hskli : skipChecked c pos10 (nli * c.int_size) = .ok pos11)
    (hrlv : read_int c.data c.endian c.int_size pos11 = .ok (sizelv, pos12))
    (hVL : validLocvars c sizelv.toNat pos12 = .ok (pos13, fsLV))
    (hrup : read_int c.data c.endian c.int_size pos13 = .ok (sizeup, pos14))
    (hVU : validUpvals c sizeup.toNat pos14 = .ok (pos15, fsUp)) :
    Imp.process_protoT c m dec enc (fuel + 1) pos cnt =
      (spliceRun c m dec enc cnt pos pos15
          (f0.toList ++ fsK ++ fsP ++ fsLV ++ fsUp)).map
        (fun r => (pos15, r.1, r.2.1, r.2.2)) := by
  obtain ⟨hread, hc0⟩ := validString_ok c false pos f0 pos0 hvs
  have hwname : write_lstring c.endian c.size_t_size
      (Option.map (fieldRaw c.data) f0) = .ok (sliceFT c.data pos pos0) ∧
      pos ≤ pos0 := by
    rcases hc0 with ⟨hnone, hpos, hrs⟩ | ⟨f, hsome, hstart, _, hpos, hfok⟩
    · subst hnone; subst hpos
      obtain ⟨hw0, _, _⟩ := write_size_t_slice c.data c.endian c.size_t_size
        pos 0 (pos + c.size_t_size) HB hrs
      exact ⟨hw0, by omega⟩
    · subst hsome; subst hpos
      have := field_write c f HB hfok
      rw [Option.map_some', this]
      have hssz : c.size_t_size ≤ f.start := hfok.1
      rw [hstart, show pos + c.size_t_size - c.size_t_size = pos by omega]
      exact ⟨rfl, by omega⟩
  have hb0 : ∀ f ∈ f0.toList, f.isConst = false := by
    rcases hc0 with ⟨hnone, _, _⟩ | ⟨g, hsome, _, hisc, _, _⟩
    · subst hnone; simp
    · subst hsome
      intro f hf
      simp only [Option.toList_some, List.mem_singleton] at hf
      subst hf
      exact hisc
  have hw0 : fsWithin c pos pos0 f0.toList := by
    rcases hc0 with ⟨hnone, hpos, _⟩ | ⟨g, hsome, hstart, _, hpos, hfok⟩
    · subst hnone
      show pos ≤ pos0
      omega
    · subst hsome
      exact ⟨by omega, hfok, show g.start + g.len ≤ pos0 by omega⟩
  obtain ⟨hwa, e1⟩ := write_int_slice c.data c.endian c.int_size pos0 a1 pos1 HB hr1
  obtain ⟨hwb, e2⟩ := write_int_slice c.data c.endian c.int_size pos1 a2 pos2 HB hr2
  obtain ⟨e3, _⟩ := skipChecked_ok _ _ _ _ hsk4
  obtain ⟨hwsc, e4⟩ := write_int_slice c.data c.endian c.int_size pos3 sizecode pos4 HB hrc
  obtain ⟨e5, _⟩ := skipChecked_ok _ _ _ _ hskc
  obtain ⟨hwsk, e6⟩ := write_int_slice c.data c.endian c.int_size pos5 sizek pos6 HB hrk
  have hWK : fsWithin c pos6 pos7 fsK := validConsts_within c _ _ _ _ hVK
  have l7 : pos6 ≤ pos7 := fsWithin_le c fsK _ _ hWK
  obtain ⟨hwsp, e8⟩ := write_int_slice c.data c.endian c.int_size pos7 sizep pos8 HB hrp
  have hWP : fsWithin c pos8 pos9 fsP :=
    validChildren_within c (validProto c fuel)
      (fun ps q g hh => validProto_within c fuel ps q g hh) _ _ _ _ hVC
  have l9 : pos8 ≤ pos9 := fsWithin_le c fsP _ _ hWP
  obtain ⟨hwsli, e10⟩ := write_int_slice c.data c.endian c.int_size pos9 sizeli pos10 HB hrli
  obtain ⟨e11, _⟩ := skipChecked_ok _ _ _ _ hskli
  obtain ⟨hwslv, e12⟩ := write_int_slice c.data c.endian c.int_size pos11 sizelv pos12 HB hrlv
  have hWL : fsWithin c pos12 pos13 fsLV := validLocvars_within c _ _ _ _ hVL
  have l13 : pos12 ≤ pos13 := fsWithin_le c fsLV _ _ hWL
  obtain ⟨hwsup, e14⟩ := write_int_slice c.data c.endian c.int_size pos13 sizeup pos14 HB hrup
  have hWU : fsWithin c pos14 pos15 fsUp := validUpvals_within c _ _ _ _ hVU
  have l15 : pos14 ≤ pos15 := fsWithin_le c fsUp _ _ hWU
  obtain ⟨hLN⟩ := And.intro (validLocvars_extract c _ _ _ _ hVL).2 trivial
  obtain ⟨hUN⟩ := And.intro (validUpvals_extract c _ _ _ _ hVU).2 trivial
  have hLVp : Imp.locvarLoop c sizelv.toNat pos12 =
      .ok (pos13, sliceFT c.data pos12 pos13) := validLocvars_patch c HB _ _ _ _ hVL
  have hUPp : Imp.upvalLoop c sizeup.toNat pos14 =
      .ok (pos15, sliceFT c.data pos14 pos15) := validUpvals_patch c HB _ _ _ _ hVU
  have hWK0 : fsWithin c pos0 pos7 fsK :=
    fsWithin_mono_left c fsK pos0 pos6 pos7 (by omega) hWK
  have hWP7 : fsWithin c pos7 pos9 fsP :=
    fsWithin_mono_left c fsP pos7 pos8 pos9 (by omega) hWP
  have hWL9 : fsWithin c pos9 pos13 fsLV :=
    fsWithin_mono_left c fsLV pos9 pos12 pos13 (by omega) hWL
  have hWU13 : fsWithin c pos13 pos15 fsUp :=
    fsWithin_mono_left c fsUp pos13 pos14 pos15 (by omega) hWU
  have hwR3 : fsWithin c pos9 pos15 (fsLV ++ fsUp) :=
    fsWithin_append c fsLV fsUp pos9 pos13 pos15 hWL9 hWU13
  have hwR2 : fsWithin c pos7 pos15 (fsP ++ (fsLV ++ fsUp)) :=
    fsWithin_append c fsP (fsLV ++ fsUp) pos7 pos9 pos15 hWP7 hwR3
  have hwR1 : fsWithin c pos0 pos15 (fsK ++ (fsP ++ (fsLV ++ fsUp))) :=
    fsWithin_append c fsK (fsP ++ (fsLV ++ fsUp)) pos0 pos7 pos15 hWK0 hwR2
  have hsplit06 : sliceFT c.data pos0 pos6 =
      sliceFT c.data pos0 pos1 ++ sliceFT c.data pos1 pos2 ++ sliceFT c.data pos2 pos3 ++
      sliceFT c.data pos3 pos4 ++ sliceFT c.data pos4 pos5 ++ sliceFT c.data pos5 pos6 := by
    rw [sliceFT_append c.data pos0 pos1 pos2 (by omega) (by omega),
        sliceFT_append c.data pos0 pos2 pos3 (by omega) (by omega),
        sliceFT_append c.data pos0 pos3 pos4 (by omega) (by omega),
        sliceFT_append c.data pos0 pos4 pos5 (by omega) (by omega),
        sliceFT_append c.data pos0 pos5 pos6 (by omega) (by omega)]
  have hsplit913 : sliceFT c.data pos9 pos13 =
      sliceFT c.data pos9 pos10 ++ sliceFT c.data pos10 pos11 ++
      sliceFT c.data pos11 pos12 ++ sliceFT c.data pos12 pos13 := by
    rw [sliceFT_append c.data pos9 pos10 pos11 (by omega) (by omega),
        sliceFT_append c.data pos9 pos11 pos12 (by omega) (by omega),
        sliceFT_append c.data pos9 pos12 pos13 (by omega) (by omega)]
  have hsplit1315 : sliceFT c.data pos13 pos15 =
      sliceFT c.data pos13 pos14 ++ sliceFT c.data pos14 pos15 := by
    rw [sliceFT_append c.data pos13 pos14 pos15 (by omega) (by omega)]
  simp only [Imp.process_protoT]
  rw [hread, bind_ok]
  try simp only []
  rw [hwname.1, bind_ok]
  try simp only []
  rw [hr1, bind_ok]
  try simp only []
  rw [hr2, bind_ok]
  try simp only []
  rw [hwa, bind_ok]
  try simp only []
  rw [hwb, bind_ok]
  try simp only []
  rw [← e3]
  rw [hrc, bind_ok]
  try simp only []
  rw [hwsc, bind_ok]
  try simp only []
  rw [hg, bind_ok]
  try simp only []
  rw [← e5]
  rw [hrk, bind_ok]
  try simp only []
  rw [hwsk, bind_ok]
  try simp only []
  rw [validConsts_patch c m dec enc HB _ _ _ _ hVK cnt]
  simp only [List.append_assoc]
  rw [spliceRun_split_eq c m dec enc f0.toList (fsK ++ (fsP ++ (fsLV ++ fsUp)))
      cnt pos pos0 pos15 hw0 hwR1]
  rw [spliceRun_nonconst c m dec enc HB f0.toList cnt pos pos0 hw0 hb0, bind_ok]
  try simp only []
  rw [spliceRun_split_eq c m dec enc fsK (fsP ++ (fsLV ++ fsUp))
      cnt pos0 pos7 pos15 hWK0 hwR2]
  rw [spliceRun_prepend_eq c m dec enc fsK cnt pos0 pos6 pos7 (by omega) hWK]
  cases hspK : spliceRun c m dec enc cnt pos6 pos7 fsK with
  | error e => simp only [map_err, bind_err]
  | ok rK =>
    obtain ⟨oK, cK, tK⟩ := rK
    simp only [map_ok, bind_ok]
    try simp only []
    rw [hrp, bind_ok]
    try simp only []
    rw [hwsp, bind_ok]
    try simp only []
    rw [validChildren_patch c m dec enc (validProto c fuel)
        (Imp.process_protoT c m dec enc fuel)
        (fun ps q g hh => validProto_within c fuel ps q g hh)
        (fun ps q g hh cn => ih ps q g hh cn) _ _ _ _ hVC cK]
    rw [spliceRun_split_eq c m dec enc fsP (fsLV ++ fsUp) cK pos7 pos9 pos15 hWP7 hwR3]
    rw [spliceRun_prepend_eq c m dec enc fsP cK pos7 pos8 pos9 (by omega) hWP]
    cases hspP : spliceRun c m dec enc cK pos8 pos9 fsP with
    | error e => simp only [map_err, bind_err]
    | ok rP =>
      obtain ⟨oP, cP, tP⟩ := rP
      simp only [map_ok, bind_ok]
      try simp only []
      rw [hrli, bind_ok]
      try simp only []
      rw [hwsli, bind_ok]
      try simp only []
      rw [hgli, bind_ok]
      try simp only []
      rw [← e11]
      rw [hrlv, bind_ok]
      try simp only []
      rw [hwslv, bind_ok]
      try simp only []
      rw [hLVp, bind_ok]
      try simp only []
      rw [hrup, bind_ok]
      try simp only []
      rw [hwsup, bind_ok]
      try simp only []
      rw [hUPp, bind_ok]
      try simp only []
      rw [spliceRun_split_eq c m dec enc fsLV fsUp cP pos9 pos13 pos15 hWL9 hWU13]
      rw [spliceRun_nonconst c m dec enc HB fsLV cP pos9 pos13 hWL9 hLN, bind_ok]
      try simp only []
      rw [spliceRun_nonconst c m dec enc HB fsUp cP pos13 pos15 hWU13 hUN, bind_ok]
      try simp only []
      try simp only [map_ok]
      simp [bind_ok, map_ok, hsplit06, hsplit913, hsplit1315, pySlice_eq_sliceFT,
        ← e3, ← e5, ← e11, List.append_assoc]

/-- On a validated prototype the traced patch walker equals the splice over
the recorded fields: every byte outside the present string fields is copied
unchanged, every present string field is re-emitted (patched when it is a
constant), and the trace lists the consumed indices. -/
theorem validProto_patch (c : Chk) (m : List (Int × String)) (dec : List Nat → String)
    (enc : String → Except PErr (List Nat)) (HB : ∀ b ∈ c.data, b < 256) :
    ∀ fuel pos p' fs, validProto c fuel pos = .ok (p', fs) → ∀ cnt,
    Imp.process_protoT c m dec enc fuel pos cnt =
      (spliceRun c m dec enc cnt pos p' fs).map (fun r => (p', r.1, r.2.1, r.2.2)) := by
  intro fuel
  induction fuel with
  | zero =>
    intro pos p' fs h cnt
    simp only [validProto] at h
    simp at h
  | succ fuel ih =>
    intro pos p' fs h cnt
    simp only [validProto] at h
    cases hvs : validString c false pos with
    | error e => rw [hvs, bind_err] at h; simp at h
    | ok a =>
      obtain ⟨f0, pos0⟩ := a
      rw [hvs, bind_ok] at h
      try simp only [] at h
      cases hr1 : read_int c.data c.endian c.int_size pos0 with
      | error e => rw [hr1, bind_err] at h; simp at h
      | ok a =>
        obtain ⟨a1, pos1⟩ := a
        rw [hr1, bind_ok] at h
        try simp only [] at h
        cases hr2 : read_int c.data c.endian c.int_size pos1 with
        | error e => rw [hr2, bind_err] at h; simp at h
        | ok a =>
          obtain ⟨a2, pos2⟩ := a
          rw [hr2, bind_ok] at h
          try simp only [] at h
          cases hsk4 : skipChecked c pos2 4 with
          | error e => rw [hsk4, bind_err] at h; simp at h
          | ok pos3 =>
            rw [hsk4, bind_ok] at h
            try simp only [] at h
            cases hrc : read_int c.data c.endian c.int_size pos3 with
            | error e => rw [hrc, bind_err] at h; simp at h
            | ok a =>
              obtain ⟨sizecode, pos4⟩ := a
              rw [hrc, bind_ok] at h
              try simp only [] at h
              cases hg : guardCount sizecode with
              | error e => rw [hg, bind_err] at h; simp at h
              | ok ncode =>
                rw [hg, bind_ok] at h
                try simp only [] at h
                cases hskc : skipChecked c pos4 (ncode * c.instr_size) with
                | error e => rw [hskc, bind_err] at h; simp at h
                | ok pos5 =>
                  rw [hskc, bind_ok] at h
                  try simp only [] at h
                  cases hrk : read_int c.data c.endian c.int_size pos5 with
                  | error e => rw [hrk, bind_err] at h; simp at h
                  | ok a =>
                    obtain ⟨sizek, pos6⟩ := a
                    rw [hrk, bind_ok] at h
                    try simp only [] at h
                    cases hVK : validConsts c sizek.toNat pos6 with
                    | error e => rw [hVK, bind_err] at h; simp at h
                    | ok r =>
                      obtain ⟨pos7, fsK⟩ := r
                      rw [hVK, bind_ok] at h
                      try simp only [] at h
                      cases hrp : read_int c.data c.endian c.int_size pos7 with
                      | error e => rw [hrp, bind_err] at h; simp at h
                      | ok a =>
                        obtain ⟨sizep, pos8⟩ := a
                        rw [hrp, bind_ok] at h
                        try simp only [] at h
                        cases hVC : validChildren (validProto c fuel) sizep.toNat pos8 with
                        | error e => rw [hVC, bind_err] at h; simp at h
                        | ok r =>
                          obtain ⟨pos9, fsP⟩ := r
                          rw [hVC, bind_ok] at h
                          try simp only [] at h
                          cases hrli : read_int c.data c.endian c.int_size pos9 with
                          | error e => rw [hrli, bind_err] at h; simp at h
                          | ok a =>
                            obtain ⟨sizeli, pos10⟩ := a
                            rw [hrli, bind_ok] at h
                            try simp only [] at h
                            cases hgli : guardCount sizeli with
                            | error e => rw [hgli, bind_err] at h; simp at h
                            | ok nli =>
                              rw [hgli, bind_ok] at h
                              try simp only [] at h
                              cases hskli : skipChecked c pos10 (nli * c.int_size) with
                              | error e => rw [hskli, bind_err] at h; simp at h
                              | ok pos11 =>
                                rw [hskli, bind_ok] at h
                                try simp only [] at h
                                cases hrlv : read_int c.data c.endian c.int_size pos11 with
                                | error e => rw [hrlv, bind_err] at h; simp at h
                                | ok a =>
                                  obtain ⟨sizelv, pos12⟩ := a
                                  rw [hrlv, bind_ok] at h
                                  try simp only [] at h
                                  cases hVL : validLocvars c sizelv.toNat pos12 with
                                  | error e => rw [hVL, bind_err] at h; simp at h
                                  | ok r =>
                                    obtain ⟨pos13, fsLV⟩ := r
                                    rw [hVL, bind_ok] at h
                                    try simp only [] at h
                                    cases hrup : read_int c.data c.endian c.int_size pos13 with
                                    | error e => rw [hrup, bind_err] at h; simp at h
                                    | ok a =>
                                      obtain ⟨sizeup, pos14⟩ := a
                                      rw [hrup, bind_ok] at h
                                      try simp only [] at h
                                      cases hVU : validUpvals c sizeup.toNat pos14 with
                                      | error e => rw [hVU, bind_err] at h; simp at h
                                      | ok r =>
                                        obtain ⟨pos15, fsUp⟩ := r
                                        rw [hVU, bind_ok] at h
                                        try simp only [] at h
                                        simp only [Except.ok.injEq, Prod.mk.injEq] at h
                                        obtain ⟨hp, hfs⟩ := h
                                        subst hp; subst hfs
                                        exact validProto_patch_core c m dec enc HB fuel ih
                                          pos pos0 pos1 pos2 pos3 pos4 pos5 pos6 pos7 pos8
                                          pos9 pos10 pos11 pos12 pos13 pos14 pos15
                                          f0 a1 a2 sizecode ncode sizek fsK sizep fsP
                                          sizeli nli sizelv fsLV sizeup fsUp cnt
                                          hvs hr1 hr2 hsk4 hrc hg hskc hrk hVK hrp hVC
                                          hrli hgli hskli hrlv hVL hrup hVU

theorem sliceFT_full (data : List Nat) : sliceFT data 0 data.length = data := by
  simp [sliceFT]

/-- The index components of the extraction trace are consecutive, starting
one above the incoming counter. -/
theorem eTrace_fst (data : List Nat) (dec : List Nat → String) : ∀ fs (cnt : Int),
    (eTrace data dec cnt fs).map Prod.fst =
      (List.range (nConsts fs)).map (fun (i : Nat) => cnt + 1 + (i : Int)) := by
  intro fs
  induction fs with
  | nil => intro cnt; simp [eTrace, nConsts]
  | cons f fs ih =>
    intro cnt
    by_cases hc : f.isConst
    · simp only [eTrace, if_pos hc, List.map_cons]
      rw [ih (cnt + 1), nConsts_cons, if_pos hc, List.range_succ_eq_map,
        List.map_cons, List.map_map]
      refine congrArg₂ _ (by push_cast; ring) ?_
      refine List.map_congr_left (fun i _ => ?_)
      simp only [Function.comp_apply, Nat.succ_eq_add_one]
      push_cast
      ring
    · simp only [eTrace, if_neg hc]
      rw [ih cnt, nConsts_cons, if_neg hc]

/-- When every index the splice looks up is either absent from the mapping
or mapped to its current display text, the splice is the identity copy: the
walk substitutes nothing and re-emits every validated field verbatim. -/
theorem spliceRun_agree (c : Chk) (m : List (Int × String)) (dec : List Nat → String)
    (enc : String → Except PErr (List Nat)) (HB : ∀ b ∈ c.data, b < 256) :
    ∀ fs cnt pos stop, fsWithin c pos stop fs →
    (∀ p ∈ eTrace c.data dec cnt fs, dictGet m p.1 = none ∨ dictGet m p.1 = some p.2) →
    spliceRun c m dec enc cnt pos stop fs =
      .ok (sliceFT c.data pos stop, cnt + (nConsts fs : Int),
        (eTrace c.data dec cnt fs).map Prod.fst) := by
  intro fs
  induction fs with
  | nil => intro cnt pos stop _ _; simp [spliceRun, eTrace, nConsts]
  | cons f fs ih =>
    intro cnt pos stop hw hyp
    obtain ⟨hb, hfok, hw'⟩ := hw
    have hstop : f.start + f.len ≤ stop := fsWithin_le c fs _ _ hw'
    by_cases hc : f.isConst
    · have hcons : eTrace c.data dec cnt (f :: fs) =
          (cnt + 1, escapeDisp (dec (fieldRaw c.data f))) ::
          eTrace c.data dec (cnt + 1) fs := by
        simp [eTrace, hc]
      have hhead := hyp (cnt + 1, escapeDisp (dec (fieldRaw c.data f)))
        (by rw [hcons]; exact List.mem_cons_self _ _)
      have htail : ∀ p ∈ eTrace c.data dec (cnt + 1) fs,
          dictGet m p.1 = none ∨ dictGet m p.1 = some p.2 := by
        intro p hp
        exact hyp p (by rw [hcons]; exact List.mem_cons_of_mem _ hp)
      have hpatch : patch_const_string (fieldRaw c.data f) (cnt + 1) m dec enc =
          .ok (fieldRaw c.data f) := by
        unfold patch_const_string
        rcases hhead with hno | hsome
        · rw [hno]
        · rw [hsome]
          simp
      simp only [spliceRun, if_pos hc]
      rw [hpatch, bind_ok, field_write c f HB hfok, bind_ok]
      rw [ih (cnt + 1) (f.start + f.len) stop hw' htail, bind_ok]
      try simp only []
      rw [sliceFT_append c.data pos (f.start - c.size_t_size) (f.start + f.len)
        (by omega) (by omega)]
      rw [sliceFT_append c.data pos (f.start + f.len) stop (by omega) hstop]
      rw [hcons]
      simp only [Except.ok.injEq, Prod.mk.injEq, List.map_cons]
      refine ⟨trivial, ?_, trivial⟩
      rw [nConsts_cons, if_pos hc]
      push_cast
      ring
    · have hskip : eTrace c.data dec cnt (f :: fs) = eTrace c.data dec cnt fs := by
        simp [eTrace, hc]
      simp only [spliceRun, if_neg hc]
      rw [field_write c f HB hfok, bind_ok]
      rw [ih cnt (f.start + f.len) stop hw'
        (fun p hp => hyp p (by rw [hskip]; exact hp)), bind_ok]
      try simp only []
      rw [sliceFT_append c.data pos (f.start - c.size_t_size) (f.start + f.len)
        (by omega) (by omega)]
      rw [sliceFT_append c.data pos (f.start + f.len) stop (by omega) hstop]
      rw [hskip]
      simp only [Except.ok.injEq, Prod.mk.injEq]
      refine ⟨trivial, ?_, trivial⟩
      rw [nConsts_cons, if_neg hc]

/-- On a validated chunk, the fast-path-free patch run is the splice over
the validated fields appended to the copied 12-byte header. -/
theorem patch_file_walk_splice (data : List Nat) (m : List (Int × String))
    (dec : List Nat → String) (enc : String → Except PErr (List Nat)) (fuel : Nat)
    (e : Endian) (isz ssz insz nsz : Nat) (fs : List StrF)
    (HB : ∀ b ∈ data, b < 256)
    (hh : read_header data = .ok (e, isz, ssz, insz, nsz))
    (hv : validProto ⟨data, e, isz, ssz, insz, nsz⟩ fuel 12 = .ok (data.length, fs)) :
    patch_file_walk data m dec enc fuel =
      (match spliceRun ⟨data, e, isz, ssz, insz, nsz⟩ m dec enc (-1) 12 data.length fs with
       | .ok r => some (pySlice data 0 12 ++ r.1)
       | .error _ => none) := by
  unfold patch_file_walk
  rw [hh]
  try simp only []
  rw [Imp.process_proto_projP ⟨data, e, isz, ssz, insz, nsz⟩ m dec enc fuel 12 (-1)]
  rw [validProto_patch ⟨data, e, isz, ssz, insz, nsz⟩ m dec enc HB fuel 12
    data.length fs hv (-1)]
  cases hsp : spliceRun ⟨data, e, isz, ssz, insz, nsz⟩ m dec enc (-1) 12 data.length fs with
  | error e2 => rfl
  | ok r =>
    obtain ⟨o, cn, tr⟩ := r
    rfl

/-- With a nonempty mapping `patch_file` takes its walker branch. -/
theorem patch_file_eq_walk (data : List Nat) (m : List (Int × String))
    (dec : List Nat → String) (enc : String → Except PErr (List Nat)) (fuel : Nat)
    (hm : m ≠ []) :
    Imp.patch_file data m dec enc fuel = patch_file_walk data m dec enc fuel := by
  unfold Imp.patch_file patch_file_walk
  rw [if_neg hm]

/-- Prefix-splitting of the full buffer at the header boundary. -/
theorem header_splice (data : List Nat) (h12 : 12 ≤ data.length) :
    pySlice data 0 12 ++ sliceFT data 12 data.length = data := by
  have h1 : pySlice data 0 12 = sliceFT data 0 12 := by
    rw [pySlice_eq_sliceFT]
  rw [h1, sliceFT_append data 0 12 data.length (by omega) h12, sliceFT_full]

/-- C1: on a valid chunk (header parses, walk succeeds consuming the whole
buffer, strings zero-terminated), patching with a mapping that sends every
assigned index to exactly the display text extraction produced for it
returns the input byte for byte. -/
theorem C1_round_trip (data : List Nat) (m : List (Int × String))
    (dec : List Nat → String) (enc : String → Except PErr (List Nat)) (fuel : Nat)
    (e : Endian) (isz ssz insz nsz : Nat) (fs : List StrF)
    (HB : ∀ b ∈ data, b < 256)
    (hh : read_header data = .ok (e, isz, ssz, insz, nsz))
    (hv : validProto ⟨data, e, isz, ssz, insz, nsz⟩ fuel 12 = .ok (data.length, fs))
    (hm : ∀ p ∈ eTrace data dec (-1) fs, dictGet m p.1 = some p.2) :
    Imp.patch_file data m dec enc fuel = some data := by
  by_cases hm0 : m = []
  · subst hm0
    unfold Imp.patch_file
    rw [if_pos rfl]
  · have hw := validProto_within ⟨data, e, isz, ssz, insz, nsz⟩ fuel 12 data.length fs hv
    rw [patch_file_eq_walk data m dec enc fuel hm0,
      patch_file_walk_splice data m dec enc fuel e isz ssz insz nsz fs HB hh hv,
      spliceRun_agree ⟨data, e, isz, ssz, insz, nsz⟩ m dec enc HB fs (-1) 12 data.length
        hw (fun p hp => Or.inr (hm p hp))]
    try simp only []
    rw [header_splice data (fsWithin_le ⟨data, e, isz, ssz, insz, nsz⟩ fs 12 data.length hw)]

theorem C1_round_trip_witness :
    (∀ b ∈ helloChunk, b < 256) ∧
    (∀ p ∈ eTrace helloChunk latinDec (-1) [⟨41, 6, true⟩],
      dictGet [((0 : Int), "Hello")] p.1 = some p.2) ∧
    Imp.patch_file helloChunk [((0 : Int), "Hello")] latinDec latinEnc 2 = some helloChunk :=
  ⟨by decide, by decide,
    C1_round_trip helloChunk [((0 : Int), "Hello")] latinDec latinEnc 2
      .little 4 4 4 8 [⟨41, 6, true⟩] (by decide) (by decide) (by decide) (by decide)⟩

/-- C3 (counterexample): the first string constant of a chunk is assigned
index 0, not 1 — extraction of a one-constant chunk emits `00000` records
and not the `00001` records the claim predicts. -/
theorem C3_counterexample :
    Ext.extract_file helloChunk latinDec 2 =
      .ok ["○00000○ Hello", "●00000● Hello"] ∧
    ¬ Ext.extract_file helloChunk latinDec 2 =
      .ok ["○00001○ Hello", "●00001● Hello"] :=
  ⟨by decide, by decide⟩

/-- C3 (corrected): the counter is seeded at `-1` (not 0), the first present
string constant is assigned index 0 (not 1), and on a validated chunk the
assigned indices are exactly `0, 1, 2, …` in traversal order. -/
theorem C3_corrected (data : List Nat) (dec : List Nat → String) (fuel : Nat)
    (e : Endian) (isz ssz insz nsz : Nat) (p' : Nat) (fs : List StrF)
    (hh : read_header data = .ok (e, isz, ssz, insz, nsz))
    (hv : validProto ⟨data, e, isz, ssz, insz, nsz⟩ fuel 12 = .ok (p', fs)) :
    Ext.process_protoT ⟨data, e, isz, ssz, insz, nsz⟩ dec fuel 12 (-1) =
      .ok (p', eRecs data dec (-1) fs, -1 + (nConsts fs : Int),
        eTrace data dec (-1) fs) ∧
    (eTrace data dec (-1) fs).map Prod.fst =
      (List.range (nConsts fs)).map (fun (i : Nat) => (i : Int)) := by
  refine ⟨validProto_extract ⟨data, e, isz, ssz, insz, nsz⟩ dec fuel 12 p' fs hv (-1), ?_⟩
  rw [eTrace_fst]
  exact List.map_congr_left (fun i _ => by push_cast; ring)

theorem C3_corrected_witness :
    Ext.process_protoT ⟨helloChunk, Endian.little, 4, 4, 4, 8⟩ latinDec 2 12 (-1) =
      .ok (63, eRecs helloChunk latinDec (-1) [⟨41, 6, true⟩],
        -1 + (nConsts [⟨41, 6, true⟩] : Int),
        eTrace helloChunk latinDec (-1) [⟨41, 6, true⟩]) ∧
    (eTrace helloChunk latinDec (-1) [⟨41, 6, true⟩]).map Prod.fst =
      (List.range (nConsts [⟨41, 6, true⟩])).map (fun (i : Nat) => (i : Int)) :=
  C3_corrected helloChunk latinDec 2 .little 4 4 4 8 63 [⟨41, 6, true⟩]
    (by decide) (by decide)

/-- C4 (counterexample): an absent (stored length 0) tag-4 constant does
not consume an index and is not presented: a chunk with an absent constant
followed by `"Hello"` extracts exactly like the chunk without the absent
constant — `"Hello"` gets index 0, not 2, and no record marks the absent
one. -/
theorem C4_counterexample :
    Ext.extract_file absentChunk latinDec 2 =
      .ok ["○00000○ Hello", "●00000● Hello"] ∧
    Ext.extract_file absentChunk latinDec 2 = Ext.extract_file helloChunk latinDec 2 :=
  ⟨by decide, by decide⟩

/-- C4 (corrected): a tag-4 constant whose stored length is 0 consumes no
index in either walker — the loops continue past it with the same counter,
extraction emits nothing for it, and the patch walker re-emits it as an
absent string without any mapping lookup (same counter, same trace). -/
theorem C4_absent_no_index (c : Chk) (m : List (Int × String)) (dec : List Nat → String)
    (enc : String → Except PErr (List Nat)) (k pos : Nat) (cnt : Int)
    (h4 : pyIndex c.data pos = .ok 4)
    (hn : read_size_t c.data c.endian c.size_t_size (pos + 1) =
      .ok (0, pos + 1 + c.size_t_size)) :
    Ext.constLoopT c dec (k + 1) pos cnt =
      Ext.constLoopT c dec k (pos + 1 + c.size_t_size) cnt ∧
    Imp.constLoopT c m dec enc (k + 1) pos cnt =
      (do
        let w ← write_lstring c.endian c.size_t_size none
        let r ← Imp.constLoopT c m dec enc k (pos + 1 + c.size_t_size) cnt
        .ok (r.1, 4 :: (w ++ r.2.1), r.2.2.1, r.2.2.2)) := by
  have hrl : read_lstring c.data c.endian c.size_t_size (pos + 1) =
      .ok (none, pos + 1 + c.size_t_size) := by
    unfold read_lstring
    rw [hn, bind_ok]
    simp
  constructor
  · simp only [Ext.constLoopT]
    rw [h4, bind_ok]
    rw [if_neg (by decide), if_neg (by decide), if_neg (by decide), if_pos rfl]
    rw [hrl, bind_ok]
  · simp only [Imp.constLoopT]
    rw [h4, bind_ok]
    rw [if_neg (by decide), if_neg (by decide), if_neg (by decide), if_pos rfl]
    rw [hrl, bind_ok]

theorem C4_absent_no_index_witness :
    Ext.constLoopT ⟨absentChunk, Endian.little, 4, 4, 4, 8⟩ latinDec 2 36 (-1) =
      Ext.constLoopT ⟨absentChunk, Endian.little, 4, 4, 4, 8⟩ latinDec 1 41 (-1) ∧
    Imp.constLoopT ⟨absentChunk, Endian.little, 4, 4, 4, 8⟩ [] latinDec latinEnc 2 36 (-1) =
      (do
        let w ← write_lstring Endian.little 4 none
        let r ← Imp.constLoopT ⟨absentChunk, Endian.little, 4, 4, 4, 8⟩ [] latinDec
          latinEnc 1 41 (-1)
        .ok (r.1, 4 :: (w ++ r.2.1), r.2.2.1, r.2.2.2)) :=
  C4_absent_no_index ⟨absentChunk, Endian.little, 4, 4, 4, 8⟩ [] latinDec latinEnc
    1 36 (-1) (by decide) (by decide)

/-- C5 (counterexample): Patch Mode completes on a chunk whose single
string constant (index 0, absent from the mapping) has terminator byte 9,
yet the output differs from the input — byte 42 is rewritten from 9 to 0
although nothing was substituted. -/
theorem C5_counterexample :
    Imp.patch_file badTermChunk [((5 : Int), "x")] latinDec latinEnc 2 =
      some [27, 76, 117, 97, 81, 0, 1, 4, 4, 4, 8, 0,
            0, 0, 0, 0, 0, 0, 0, 0, 0, 0, 0, 0, 0, 2, 0, 2,
            0, 0, 0, 0, 1, 0, 0, 0, 4, 2, 0, 0, 0, 65, 0,
            0, 0, 0, 0, 0, 0, 0, 0, 0, 0, 0, 0, 0, 0, 0, 0] ∧
    ([27, 76, 117, 97, 81, 0, 1, 4, 4, 4, 8, 0,
      0, 0, 0, 0, 0, 0, 0, 0, 0, 0, 0, 0, 0, 2, 0, 2,
      0, 0, 0, 0, 1, 0, 0, 0, 4, 2, 0, 0, 0, 65, 0,
      0, 0, 0, 0, 0, 0, 0, 0, 0, 0, 0, 0, 0, 0, 0, 0] : List Nat) ≠ badTermChunk :=
  ⟨by decide, by decide⟩

/-- C5 (corrected): on a validated chunk (all string terminators 0) and a
nonempty mapping, Patch Mode's output is the 12 header bytes followed by the
splice over the validated fields — bytes outside present string fields are
copied verbatim, each field is re-emitted after `patch_const_string` — and
when every looked-up index is absent from the mapping or mapped to its
current display text the output equals the input byte for byte. -/
theorem C5_frame_effect (data : List Nat) (m : List (Int × String))
    (dec : List Nat → String) (enc : String → Except PErr (List Nat)) (fuel : Nat)
    (e : Endian) (isz ssz insz nsz : Nat) (fs : List StrF)
    (HB : ∀ b ∈ data, b < 256)
    (hh : read_header data = .ok (e, isz, ssz, insz, nsz))
    (hv : validProto ⟨data, e, isz, ssz, insz, nsz⟩ fuel 12 = .ok (data.length, fs))
    (hm : m ≠ []) :
    Imp.patch_file data m dec enc fuel =
      (match spliceRun ⟨data, e, isz, ssz, insz, nsz⟩ m dec enc (-1) 12 data.length fs with
       | .ok r => some (pySlice data 0 12 ++ r.1)
       | .error _ => none) ∧
    ((∀ p ∈ eTrace data dec (-1) fs, dictGet m p.1 = none ∨ dictGet m p.1 = some p.2) →
      Imp.patch_file data m dec enc fuel = some data) := by
  have hfirst := (patch_file_eq_walk data m dec enc fuel hm).trans
    (patch_file_walk_splice data m dec enc fuel e isz ssz insz nsz fs HB hh hv)
  refine ⟨hfirst, fun hagree => ?_⟩
  have hw := validProto_within ⟨data, e, isz, ssz, insz, nsz⟩ fuel 12 data.length fs hv
  rw [hfirst,
    spliceRun_agree ⟨data, e, isz, ssz, insz, nsz⟩ m dec enc HB fs (-1) 12 data.length
      hw hagree]
  try simp only []
  rw [header_splice data (fsWithin_le ⟨data, e, isz, ssz, insz, nsz⟩ fs 12 data.length hw)]

theorem C5_frame_effect_witness :
    (Imp.patch_file helloChunk [((0 : Int), "Hi")] latinDec latinEnc 2 =
      (match spliceRun ⟨helloChunk, Endian.little, 4, 4, 4, 8⟩ [((0 : Int), "Hi")]
          latinDec latinEnc (-1) 12 helloChunk.length [⟨41, 6, true⟩] with
       | .ok r => some (pySlice helloChunk 0 12 ++ r.1)
       | .error _ => none)) ∧
    ((∀ p ∈ eTrace helloChunk latinDec (-1) [⟨41, 6, true⟩],
        dictGet [((0 : Int), "Hi")] p.1 = none ∨
        dictGet [((0 : Int), "Hi")] p.1 = some p.2) →
      Imp.patch_file helloChunk [((0 : Int), "Hi")] latinDec latinEnc 2 =
        some helloChunk) :=
  C5_frame_effect helloChunk [((0 : Int), "Hi")] latinDec latinEnc 2
    .little 4 4 4 8 [⟨41, 6, true⟩] (by decide) (by decide) (by decide) (by decide)

/-- C6 (counterexample): a chunk with an unknown tag byte 5 is fatal to
extraction, yet Patch Mode with an empty mapping still writes output for it
— the fast path copies the file without ever seeing the bad tag. -/
theorem C6_counterexample :
    Imp.patch_file badTagChunk [] latinDec latinEnc 2 = some badTagChunk ∧
    Ext.extract_file badTagChunk latinDec 2 = .error .tag :=
  ⟨rfl, by decide⟩

/-- C6 (corrected): a constant tag outside `{0,1,3,4}` aborts both walkers
with the fatal tag error; extraction then reports the error (no record
list), and Patch Mode writes no output — provided its mapping is nonempty,
since an empty mapping takes the fast path and copies the file unchanged. -/
theorem C6_unknown_tag :
    (∀ (c : Chk) (m : List (Int × String)) (dec : List Nat → String)
        (enc : String → Except PErr (List Nat)) (k pos : Nat) (cnt : Int) (t : Nat),
      pyIndex c.data pos = .ok t → t ≠ 0 → t ≠ 1 → t ≠ 3 → t ≠ 4 →
      Ext.constLoop c dec (k + 1) pos cnt = .error .tag ∧
      Imp.constLoop c m dec enc (k + 1) pos cnt = .error .tag) ∧
    (∀ (data : List Nat) (m : List (Int × String)) (dec : List Nat → String)
        (enc : String → Except PErr (List Nat)) (fuel : Nat) (e : Endian)
        (isz ssz insz nsz : Nat) (err : PErr),
      m ≠ [] → read_header data = .ok (e, isz, ssz, insz, nsz) →
      Imp.process_proto ⟨data, e, isz, ssz, insz, nsz⟩ m dec enc fuel 12 (-1) =
        .error err →
      Imp.patch_file data m dec enc fuel = none) ∧
    (∀ (data : List Nat) (dec : List Nat → String) (fuel : Nat) (e : Endian)
        (isz ssz insz nsz : Nat) (err : PErr),
      read_header data = .ok (e, isz, ssz, insz, nsz) →
      Ext.process_proto ⟨data, e, isz, ssz, insz, nsz⟩ dec fuel 12 (-1) = .error err →
      Ext.extract_file data dec fuel = .error err) := by
  refine ⟨?_, ?_, ?_⟩
  · intro c m dec enc k pos cnt t ht h0 h1 h3 h4
    constructor
    · simp only [Ext.constLoop]
      rw [ht, bind_ok]
      rw [if_neg h0, if_neg h1, if_neg h3, if_neg h4]
    · simp only [Imp.constLoop]
      rw [ht, bind_ok]
      rw [if_neg h0, if_neg h1, if_neg h3, if_neg h4]
  · intro data m dec enc fuel e isz ssz insz nsz err hm hh hproc
    unfold Imp.patch_file
    rw [if_neg hm, hh]
    try simp only []
    rw [hproc]
  · intro data dec fuel e isz ssz insz nsz err hh hproc
    unfold Ext.extract_file
    rw [hh, bind_ok]
    try simp only []
    rw [hproc, bind_err]

theorem C6_unknown_tag_witness :
    (Ext.constLoop ⟨badTagChunk, Endian.little, 4, 4, 4, 8⟩ latinDec 1 36 (-1) =
        .error .tag ∧
      Imp.constLoop ⟨badTagChunk, Endian.little, 4, 4, 4, 8⟩ [((0 : Int), "x")]
        latinDec latinEnc 1 36 (-1) = .error .tag) ∧
    Imp.patch_file badTagChunk [((0 : Int), "x")] latinDec latinEnc 2 = none ∧
    Ext.extract_file badTagChunk latinDec 2 = .error .tag :=
  ⟨C6_unknown_tag.1 ⟨badTagChunk, Endian.little, 4, 4, 4, 8⟩ [((0 : Int), "x")]
      latinDec latinEnc 0 36 (-1) 5 (by decide) (by decide) (by decide) (by decide)
      (by decide),
    C6_unknown_tag.2.1 badTagChunk [((0 : Int), "x")] latinDec latinEnc 2
      .little 4 4 4 8 .tag (by decide) (by decide) (by decide),
    C6_unknown_tag.2.2 badTagChunk latinDec 2 .little 4 4 4 8 .tag
      (by decide) (by decide)⟩

/-- C8 (counterexample): the fast path is observably different from running
the walker — on a chunk with an unknown constant tag the empty-mapping fast
path copies the file, while the walker path produces no output. -/
theorem C8_counterexample :
    Imp.patch_file badTagChunk [] latinDec latinEnc 2 = some badTagChunk ∧
    patch_file_walk badTagChunk [] latinDec latinEnc 2 = none :=
  ⟨rfl, by decide⟩

/-- C8 (corrected): on a validated chunk the empty-mapping fast path and
the walker agree — both return the input unchanged; the equivalence holds
only for inputs the walker accepts, not for every input file. -/
theorem C8_fast_path (data : List Nat) (dec : List Nat → String)
    (enc : String → Except PErr (List Nat)) (fuel : Nat)
    (e : Endian) (isz ssz insz nsz : Nat) (fs : List StrF)
    (HB : ∀ b ∈ data, b < 256)
    (hh : read_header data = .ok (e, isz, ssz, insz, nsz))
    (hv : validProto ⟨data, e, isz, ssz, insz, nsz⟩ fuel 12 = .ok (data.length, fs)) :
    Imp.patch_file data [] dec enc fuel = some data ∧
    patch_file_walk data [] dec enc fuel = some data := by
  constructor
  · unfold Imp.patch_file
    rw [if_pos rfl]
  · have hw := validProto_within ⟨data, e, isz, ssz, insz, nsz⟩ fuel 12 data.length fs hv
    rw [patch_file_walk_splice data [] dec enc fuel e isz ssz insz nsz fs HB hh hv,
      spliceRun_agree ⟨data, e, isz, ssz, insz, nsz⟩ [] dec enc HB fs (-1) 12 data.length
        hw (fun p _ => Or.inl rfl)]
    try simp only []
    rw [header_splice data (fsWithin_le ⟨data, e, isz, ssz, insz, nsz⟩ fs 12 data.length hw)]

theorem C8_fast_path_witness :
    Imp.patch_file helloChunk [] latinDec latinEnc 2 = some helloChunk ∧
    patch_file_walk helloChunk [] latinDec latinEnc 2 = some helloChunk :=
  C8_fast_path helloChunk latinDec latinEnc 2 .little 4 4 4 8 [⟨41, 6, true⟩]
    (by decide) (by decide) (by decide)
